import Mathlib

/-!
Verification of the storage-engine core of BD2-Restructuracion.

Shallow embedding of the Python sources:
 * `Models`  — `src/core/models.py` (`Table._generate_format_string`,
   `Table._calculate_record_size`): the record layout derived from a schema.
 * `Heap`    — `src/core/file_manager.py` (`FileManager`): slotted heap file
   with a LIFO free-slot list.
Further namespaces (B+ tree, ISAM, extendible hashing, sequential file,
R-tree) follow below.

Machine integers: Python ints are unbounded; slot counts and sizes are `Nat`,
link fields (`next`, `free_list_head`) are `Int` because `-1` is a sentinel.
-/

namespace Models

/-- The scalar types admitted by `Table._generate_format_string`
(`int` → `"i"`, `float` → `"f"`, `str` → `"{size}s"`). -/
inductive PyType where
  | int
  | float
  | str
deriving DecidableEq, Repr

/-- `Field(name, data_type, size)` from `src/core/models.py`; `size` is only
meaningful for `str` fields. -/
structure Field where
  name : String
  type : PyType
  size : Nat
deriving DecidableEq, Repr

/-- Round `n` up to the next multiple of 4 (C alignment of a 4-byte scalar). -/
def align4 (n : Nat) : Nat := n + (4 - n % 4) % 4

/-- One step of `struct.calcsize` over the native-mode format string built by
`_generate_format_string`: `"i"` and `"f"` occupy 4 bytes and are aligned to a
4-byte boundary (padding inserted before them), `"{n}s"` occupies `n` bytes
with alignment 1. -/
def fieldStep (o : Nat) (f : Field) : Nat :=
  match f.type with
  | .int => align4 o + 4
  | .float => align4 o + 4
  | .str => o + f.size

/-- `Table._calculate_record_size`: `struct.calcsize(format_string)` where
`format_string` is the concatenation of the field codes plus a trailing `"i"`
for the `next` link.  The format has no `"<"` prefix, so CPython uses native
mode: 4-byte scalars are padded to 4-byte offsets.  No trailing padding is
added by `struct`. -/
def calculateRecordSize (fields : List Field) : Nat :=
  align4 (fields.foldl fieldStep 0) + 4

/-- The declared size of one field: 4 bytes per `int`, 4 per `float`, `s` per
string of declared size `s`. -/
def fieldSize (f : Field) : Nat :=
  match f.type with
  | .int => 4
  | .float => 4
  | .str => f.size

/-- The sum of the declared field sizes, as the spec's `record_size` formula
counts it. -/
def sumFieldSizes (fields : List Field) : Nat :=
  (fields.map fieldSize).sum

end Models

namespace Heap

/-- A heap record as the `FileManager` observes it: the packed field values
(abstracted to an identifier, since `add_record`/`remove_record` never read
them) plus the signed `next` link written in the last 4 bytes. -/
structure HRecord where
  vals : Nat
  next : Int
deriving DecidableEq, Repr

/-- `FileManager` state: the data file as a slot-indexed list of records, the
header's `free_list_head`, and the cached `file_size` (record count). -/
structure FileManager where
  file : List HRecord
  freeListHead : Int
  fileSize : Nat
deriving DecidableEq, Repr

/-- A fresh manager over an absent data file: `free_list_head = -1`,
`file_size = 0`. -/
def FileManager.init : FileManager := ⟨[], -1, 0⟩

/-- `read_record(pos)`: seek to `pos * record_size` and read exactly
`record_size` bytes; a short read (slot past EOF) yields `None`. -/
def readRecord (fm : FileManager) (pos : Nat) : Option HRecord :=
  fm.file.get? pos

/-- `_write_record_at_pos`: overwrite the slot in place; a write at the exact
end of the file appends (this is the only out-of-range write reachable from
`add_record`, which appends at `file_size`). -/
def writeRecordAt (file : List HRecord) (pos : Nat) (r : HRecord) : List HRecord :=
  if pos < file.length then file.set pos r
  else if pos = file.length then file ++ [r]
  else file

/-- `add_record`: if the free list is nonempty, reuse its head slot (the next
free slot is read from the record stored there), force `next = 0`, and return
the reused slot; otherwise append at `file_size`.  The `None` outcome models
the `AttributeError` Python would raise if the free-list head were unreadable
(impossible in the modeled runs). -/
def addRecord (fm : FileManager) (r : HRecord) : Option (FileManager × Nat) :=
  if fm.freeListHead = -1 then
    let pos := fm.fileSize
    some ({ fm with
              file := writeRecordAt fm.file pos { r with next := 0 },
              fileSize := fm.fileSize + 1 }, pos)
  else
    let pos := fm.freeListHead.toNat
    (readRecord fm pos).map (fun recAt =>
      ({ fm with
           freeListHead := recAt.next,
           file := writeRecordAt fm.file pos { r with next := 0 } }, pos))

/-- `remove_record(pos)`: returns `false` when the slot is unreadable or the
record there is not live (`next ≠ 0`); otherwise links the slot into the free
list (`next := free_list_head`; `free_list_head := pos`). -/
def removeRecord (fm : FileManager) (pos : Nat) : FileManager × Bool :=
  match readRecord fm pos with
  | none => (fm, false)
  | some r =>
    if r.next ≠ 0 then (fm, false)
    else ({ fm with
              file := writeRecordAt fm.file pos { r with next := fm.freeListHead },
              freeListHead := (pos : Int) }, true)

/-- The S6 heap scenario: 5 adds, remove slots 1 and 3, 2 more adds; yields the
final state, the slots of the two late adds, and the remove results. -/
def scenarioS6 : Option (FileManager × (Nat × Nat) × Bool × Bool) := do
  let (fm, _) ← addRecord .init ⟨100, 0⟩
  let (fm, _) ← addRecord fm ⟨101, 0⟩
  let (fm, _) ← addRecord fm ⟨102, 0⟩
  let (fm, _) ← addRecord fm ⟨103, 0⟩
  let (fm, _) ← addRecord fm ⟨104, 0⟩
  let (fm, ok1) := removeRecord fm 1
  let (fm, ok3) := removeRecord fm 3
  let (fm, q1) ← addRecord fm ⟨200, 0⟩
  let (fm, q2) ← addRecord fm ⟨201, 0⟩
  pure (fm, (q1, q2), ok1, ok3)

end Heap

namespace EH

/-!
`src/ExtendibleHashing.py`.  Python buckets are heap objects aliased by the
directory, so the embedding keeps an arena `buckets : List Bucket` and a
`directory : List Nat` of arena indices; Python's `is`-identity between
directory slots is index equality.  The single chained overflow bucket is
stored inline as `next : Option (List entry)` — the chained `Bucket`'s own
`d`/`fb` fields are written but never read by any operation.  Keys are `Nat`
(the modeled workloads use non-negative integer keys).  Python's unbounded
recursion in `insert`/`split`/`rehash` is modeled with a fuel parameter that
decreases on every call; a run that returns `some st` is exactly the Python
execution.
-/

/-- A primary bucket: local depth `d`, entries, and the optional chained
overflow bucket's entries. -/
structure Bucket where
  d : Nat
  records : List (Nat × Nat)
  next : Option (List (Nat × Nat))
deriving DecidableEq, Repr

instance : Inhabited Bucket := ⟨⟨0, [], none⟩⟩

/-- `ExtendibleHashing` state: global depth `D`, bucket capacity `bucketSize`,
the bucket arena, and the directory of arena indices. -/
structure EHState where
  D : Nat
  fb : Nat
  buckets : List Bucket
  directory : List Nat
deriving DecidableEq, Repr

/-- `__init__(bucketSize)`: `D = 2`, two buckets of local depth 1, directory
`[bucket0, bucket1, bucket0, bucket1]`. -/
def EHState.init (fb : Nat) : EHState :=
  ⟨2, fb, [⟨1, [], none⟩, ⟨1, [], none⟩], [0, 1, 0, 1]⟩

/-- CPython `hash` of a non-negative `int` below `2^61 - 1` reduces the value
modulo `sys.hash_info.modulus = 2^61 - 1`. -/
def pyHash (k : Nat) : Nat := k % (2 ^ 61 - 1)

/-- `EH_hash(key) = hash(key) % (2 ** self.D)` as a function of the global
depth. -/
def ehHashD (D k : Nat) : Nat := pyHash k % 2 ^ D

/-- `EH_hash` on a state. -/
def ehHash (st : EHState) (k : Nat) : Nat := ehHashD st.D k

/-- Replace bucket `bi` in the arena. -/
def setBucket (st : EHState) (bi : Nat) (b : Bucket) : EHState :=
  { st with buckets := st.buckets.set bi b }

/-- The bucket referenced by directory slot `i`. -/
def bucketAt (st : EHState) (i : Nat) : Bucket :=
  st.buckets.getD (st.directory.getD i 0) default

/-- The pure part of `split(pos)`: increment the old bucket's local depth,
allocate the new bucket, repoint every directory slot aliasing the old bucket
whose bit `d-1` (of the new depth `d`) is set, and empty the old bucket;
returns the new state and the records to reinsert (in their stored order). -/
def splitCore (st : EHState) (pos : Nat) : EHState × List (Nat × Nat) :=
  let bi := st.directory.getD pos 0
  let old := st.buckets.getD bi default
  let d1 := old.d + 1
  let m := 1 <<< d1
  let nb := st.buckets.length
  let dir1 := (List.range st.directory.length).map (fun i =>
    if st.directory.getD i 0 = bi ∧ i &&& (m >>> 1) ≠ 0 then nb
    else st.directory.getD i 0)
  let buckets1 := (st.buckets.set bi { old with d := d1, records := [] })
      ++ [⟨d1, [], none⟩]
  (⟨st.D, st.fb, buckets1, dir1⟩, old.records)

/-- The pure part of `rehash()` before the reinsertion loop: increment `D` and
duplicate the directory (`self.directory * 2`). -/
def rehashCore (st : EHState) : EHState :=
  { st with D := st.D + 1, directory := st.directory ++ st.directory }

mutual

/-- `insert(key, value)`; fuel decreases on every recursive call, `none`
means the fuel ran out (the Python recursion is unbounded). -/
def insertF : Nat → EHState → Nat → Nat → Option EHState
  | 0, _, _, _ => none
  | fuel + 1, st, k, v =>
    let pos := ehHash st k
    let bi := st.directory.getD pos 0
    let b := st.buckets.getD bi default
    if b.records.length < st.fb then
      some (setBucket st bi { b with records := b.records ++ [(k, v)] })
    else if b.d < st.D then
      match splitF fuel st pos with
      | none => none
      | some st1 => insertF fuel st1 k v
    else
      match b.next with
      | none => some (setBucket st bi { b with next := some [(k, v)] })
      | some ov =>
        if ov.length < st.fb then
          some (setBucket st bi { b with next := some (ov ++ [(k, v)]) })
        else
          match rehashF fuel st with
          | none => none
          | some st1 => insertF fuel st1 k v

/-- `split(pos)`: the pure restructuring followed by reinsertion of the old
bucket's records through `insert`. -/
def splitF : Nat → EHState → Nat → Option EHState
  | 0, _, _ => none
  | fuel + 1, st, pos =>
    let (st1, recs) := splitCore st pos
    reinsertList fuel st1 recs

/-- Sequential `self.insert(k, v)` calls for a list of records. -/
def reinsertList : Nat → EHState → List (Nat × Nat) → Option EHState
  | 0, _, _ => none
  | _ + 1, st, [] => some st
  | fuel + 1, st, (k, v) :: rest =>
    match insertF fuel st k v with
    | none => none
    | some st1 => reinsertList fuel st1 rest

/-- `rehash()`: double the directory, then for every directory slot (the index
range is computed once, on the doubled directory) cut the chained bucket, if
any, and reinsert its records. -/
def rehashF : Nat → EHState → Option EHState
  | 0, _ => none
  | fuel + 1, st =>
    let st1 := rehashCore st
    rehashLoop fuel st1 (List.range st1.directory.length)

/-- The reinsertion loop of `rehash` over a fixed index list, reading the
live directory at each step. -/
def rehashLoop : Nat → EHState → List Nat → Option EHState
  | 0, _, _ => none
  | _ + 1, st, [] => some st
  | fuel + 1, st, i :: rest =>
    let bi := st.directory.getD i 0
    let b := st.buckets.getD bi default
    match b.next with
    | none => rehashLoop fuel st rest
    | some ov =>
      let st1 := setBucket st bi { b with next := none }
      match reinsertList fuel st1 ov with
      | none => none
      | some st2 => rehashLoop fuel st2 rest

end

/-- First value bound to `k` in an entry list (the record scan order of
`search`/`delete`). -/
def findPair (l : List (Nat × Nat)) (k : Nat) : Option Nat :=
  match l with
  | [] => none
  | (k1, v1) :: rest => if k1 = k then some v1 else findPair rest k

/-- Remove the first entry bound to `k`; `none` if no entry matches
(`for i, (k, v) in enumerate(...): if k == key: pop(i)`). -/
def removeFirst (l : List (Nat × Nat)) (k : Nat) : Option (List (Nat × Nat)) :=
  match l with
  | [] => none
  | (k1, v1) :: rest =>
    if k1 = k then some rest
    else (removeFirst rest k).map ((k1, v1) :: ·)

/-- `search(key)`: walk the bucket then its chained bucket, returning the
first value bound to the key. -/
def searchS (st : EHState) (k : Nat) : Option Nat :=
  let b := bucketAt st (ehHash st k)
  match findPair b.records k with
  | some v => some v
  | none =>
    match b.next with
    | none => none
    | some ov => findPair ov k

/-- The three result messages of `delete`. -/
inductive DelResult where
  | mainDeleted
  | chainDeleted
  | chainFreed
  | notFound
deriving DecidableEq, Repr

/-- `delete(key)`: pop the first match from the primary bucket, else from the
chained bucket (freeing the chain when it empties), else report not found. -/
def deleteS (st : EHState) (k : Nat) : EHState × DelResult :=
  let pos := ehHash st k
  let bi := st.directory.getD pos 0
  let b := st.buckets.getD bi default
  match removeFirst b.records k with
  | some recs1 => (setBucket st bi { b with records := recs1 }, .mainDeleted)
  | none =>
    match b.next with
    | none => (st, .notFound)
    | some ov =>
      match removeFirst ov k with
      | none => (st, .notFound)
      | some ov1 =>
        if ov1.length = 0 then (setBucket st bi { b with next := none }, .chainFreed)
        else (setBucket st bi { b with next := some ov1 }, .chainDeleted)

/-- An operation against the index. -/
inductive Op where
  | ins (k v : Nat)
  | del (k : Nat)
deriving DecidableEq, Repr

/-- Run a sequence of operations; `none` when some insert ran out of fuel. -/
def runOps (fuel : Nat) : EHState → List Op → Option EHState
  | st, [] => some st
  | st, (.ins k v) :: rest =>
    match insertF fuel st k v with
    | none => none
    | some st1 => runOps fuel st1 rest
  | st, (.del k) :: rest => runOps fuel (deleteS st k).1 rest

/-- The extendible-hashing invariant: the directory length is `2^D`, every
directory slot references an arena bucket whose local depth is at most `D`,
and any two slots referencing the same bucket agree on their low `d` bits,
`d` being that bucket's local depth. -/
def Inv (st : EHState) : Prop :=
  st.directory.length = 2 ^ st.D ∧
  (∀ bi ∈ st.directory, bi < st.buckets.length) ∧
  (∀ bi ∈ st.directory, (st.buckets.getD bi default).d ≤ st.D) ∧
  (∀ i < st.directory.length, ∀ j < st.directory.length,
    st.directory.getD i 0 = st.directory.getD j 0 →
      i % 2 ^ (st.buckets.getD (st.directory.getD i 0) default).d =
        j % 2 ^ (st.buckets.getD (st.directory.getD i 0) default).d)

instance (st : EHState) : Decidable (Inv st) := by
  unfold Inv
  infer_instance

/-- No entry anywhere in the arena (primary or chained) is bound to `k`. -/
def keyFree (st : EHState) (k : Nat) : Prop :=
  ∀ b ∈ st.buckets,
    (∀ p ∈ b.records, p.1 ≠ k) ∧ (∀ ov, b.next = some ov → ∀ p ∈ ov, p.1 ≠ k)

instance (st : EHState) (k : Nat) : Decidable (keyFree st k) := by
  unfold keyFree
  infer_instance

end EH

namespace ISAM

/-!
`src/isam.py` (`ISAMIndex`).  The leaf array `idx_l3` is a list of
`(key, pos)` pairs; `idx_l2`/`idx_l1` are page summaries rebuilt from it.
`overflow` is a Python dict `key -> [pos, ...]`, modeled as an
insertion-ordered association list (matching dict iteration order).  Keys and
positions are `Int` (Python ints).
-/

/-- `IDX_ENTRY_SIZE = struct.calcsize("ii") = 8`. -/
def idxEntrySize : Nat := 8

/-- `IDX_PAGE_HEADER = struct.calcsize("i") = 4`. -/
def idxPageHeader : Nat := 4

/-- `IDX_BLOCK_FACTOR = (4096 - IDX_PAGE_HEADER) // IDX_ENTRY_SIZE`. -/
def idxBlockFactor : Nat := (4096 - idxPageHeader) / idxEntrySize

/-- An ordered dict `key -> positions`: first binding for the key wins,
fresh keys are appended at the end. -/
def dictGet (d : List (Int × List Int)) (k : Int) : Option (List Int) :=
  match d with
  | [] => none
  | (k1, v1) :: rest => if k1 = k then some v1 else dictGet rest k

/-- Update the binding of `k` in place (it must exist for a change to land). -/
def dictSet (d : List (Int × List Int)) (k : Int) (v : List Int) :
    List (Int × List Int) :=
  match d with
  | [] => []
  | (k1, v1) :: rest => if k1 = k then (k1, v) :: rest else (k1, v1) :: dictSet rest k v

/-- `dict.pop(k, None)`: drop the binding of `k`. -/
def dictPop (d : List (Int × List Int)) (k : Int) : List (Int × List Int) :=
  match d with
  | [] => []
  | (k1, v1) :: rest => if k1 = k then rest else (k1, v1) :: dictPop rest k

/-- `dict.setdefault(k, [])`: append an empty binding if the key is absent. -/
def dictSetdefault (d : List (Int × List Int)) (k : Int) : List (Int × List Int) :=
  match dictGet d k with
  | some _ => d
  | none => d ++ [(k, [])]

/-- `ISAMIndex` in-memory state (`idx_l1`, `idx_l2`, `idx_l3`, `overflow`). -/
structure ISAMIndex where
  l3 : List (Int × Int)
  l2 : List (Int × Nat)
  l1 : List (Int × Nat)
  overflow : List (Int × List Int)
deriving DecidableEq, Repr

/-- The empty index of `__init__`. -/
def ISAMIndex.empty : ISAMIndex := ⟨[], [], [], []⟩

/-- The `while lo < hi` loop of `insert_pos`.  Every iteration shrinks
`hi - lo`, so running it on fuel `hi - lo` (or more) is the exact loop; the
fuel keeps the recursion structural so that closed runs reduce in the
kernel. -/
def insertPosGo (lista : List (Int × Int)) (key : Int) : Nat → Nat → Nat → Nat
  | 0, lo, _ => lo
  | fuel + 1, lo, hi =>
    if lo < hi then
      let mid := (lo + hi) / 2
      if (lista.getD mid default).1 < key then insertPosGo lista key fuel (mid + 1) hi
      else insertPosGo lista key fuel lo mid
    else lo

/-- `insert_pos(lista, key)`: binary search for the insertion point. -/
def insertPos (lista : List (Int × Int)) (key : Int) : Nat :=
  insertPosGo lista key lista.length 0 lista.length

/-- `range(0, n, B)` (with `B = IDX_BLOCK_FACTOR` at both summary levels). -/
def pageStarts (n B : Nat) : List Nat :=
  (List.range ((n + B - 1) / B)).map (· * B)

/-- `recontruir2y1`: rebuild `idx_l2` from `idx_l3` and `idx_l1` from
`idx_l2` by paging. -/
def rebuild21 (st : ISAMIndex) : ISAMIndex :=
  if st.l3 = [] then { st with l2 := [], l1 := [] }
  else
    let l2 := (pageStarts st.l3.length idxBlockFactor).map
      (fun ps => ((st.l3.getD ps default).1, ps))
    let l1 := (pageStarts l2.length idxBlockFactor).map
      (fun bs => ((l2.getD bs default).1, bs))
    { st with l2 := l2, l1 := l1 }

/-- The overflow branch of `insert`: `setdefault(key, [])`, then append `pos`
unless it equals the base slot or is already chained. -/
def addOverflow (st : ISAMIndex) (key pos basePos : Int) : ISAMIndex :=
  let d0 := dictSetdefault st.overflow key
  let cur := (dictGet d0 key).getD []
  if pos ≠ basePos ∧ pos ∉ cur then { st with overflow := dictSet d0 key (cur ++ [pos]) }
  else { st with overflow := d0 }

/-- `insert(key, pos)`. -/
def insert (st : ISAMIndex) (key pos : Int) : ISAMIndex :=
  if st.l3 = [] then rebuild21 { st with l3 := [(key, pos)] }
  else
    let i := insertPos st.l3 key
    if i < st.l3.length ∧ (st.l3.getD i default).1 = key then
      addOverflow st key pos (st.l3.getD i default).2
    else if 0 < i ∧ (st.l3.getD (i - 1) default).1 = key then
      addOverflow st key pos (st.l3.getD (i - 1) default).2
    else
      let st1 := { st with l3 := st.l3.insertIdx i (key, pos) }
      let st2 :=
        match dictGet st1.overflow key with
        | some [] => { st1 with overflow := dictPop st1.overflow key }
        | _ => st1
      rebuild21 st2

/-- `search(key)`: the base position, or `None`. -/
def search (st : ISAMIndex) (key : Int) : Option Int :=
  if st.l3 = [] then none
  else
    let i := insertPos st.l3 key
    if i < st.l3.length ∧ (st.l3.getD i default).1 = key then
      some (st.l3.getD i default).2
    else if 0 < i ∧ (st.l3.getD (i - 1) default).1 = key then
      some (st.l3.getD (i - 1) default).2
    else none

/-- `get_all_positions(key)`: `[base] ++ overflow` in that order. -/
def getAllPositions (st : ISAMIndex) (key : Int) : List Int :=
  match search st key with
  | none => []
  | some base => base :: ((dictGet st.overflow key).getD [])

/-- `delete(key)`: promote the first overflow entry to the base, else remove
the base entry; `false` when the key has no base entry. -/
def delete (st : ISAMIndex) (key : Int) : ISAMIndex × Bool :=
  if st.l3 = [] then (st, false)
  else
    let i := insertPos st.l3 key
    if i < st.l3.length ∧ (st.l3.getD i default).1 = key then
      match dictGet st.overflow key with
      | some (p :: rest) =>
        let ov1 := if rest = [] then dictPop st.overflow key
                   else dictSet st.overflow key rest
        ({ st with l3 := st.l3.set i (key, p), overflow := ov1 }, true)
      | _ => (rebuild21 { st with l3 := st.l3.eraseIdx i }, true)
    else if 0 < i ∧ (st.l3.getD (i - 1) default).1 = key then
      match dictGet st.overflow key with
      | some (p :: rest) =>
        let ov1 := if rest = [] then dictPop st.overflow key
                   else dictSet st.overflow key rest
        ({ st with l3 := st.l3.set (i - 1) (key, p), overflow := ov1 }, true)
      | _ => (rebuild21 { st with l3 := st.l3.eraseIdx (i - 1) }, true)
    else (st, false)

/-- The `while j < n and l3[j][0] <= end_key` walk of `range_search` over the
leaf suffix starting at `j` (the suffix is `l3.drop j`), emitting the base
pair and then each overflow slot per key. -/
def rangeWalk (overflow : List (Int × List Int)) (endKey : Int) :
    List (Int × Int) → List (Int × Int)
  | [] => []
  | p :: rest =>
    if p.1 ≤ endKey then
      (p.1, p.2) :: (((dictGet overflow p.1).getD []).map (fun q => (p.1, q)))
        ++ rangeWalk overflow endKey rest
    else []

/-- `range_search(start_key, end_key)`. -/
def rangeSearch (st : ISAMIndex) (startKey endKey : Int) : List (Int × Int) :=
  if st.l3 = [] then []
  else
    let i := insertPos st.l3 startKey
    let i1 := if 0 < i ∧ (st.l3.getD (i - 1) default).1 ≥ startKey then i - 1 else i
    rangeWalk st.overflow endKey (st.l3.drop i1)

end ISAM

namespace BP

/-!
`src/indexes/bplus.py`.  `BPlusTreeNode` is one class with an `is_leaf` flag
whose `children` list holds slot numbers at leaves and child nodes at
internal nodes; the embedding splits that union into `vals : List Int`
(leaves) and `children : List BNode` (internal nodes), selected by the same
`is_leaf` flag.  Leaf `next` pointers are not stored: they are established
only by `_split_leaf` (`new.next = node.next; node.next = new`) and
`_merge` (`child.next = sibling.next`), both of which keep the chain equal
to the left-to-right order of the leaves, so `range_search`'s
leftmost-then-`next` walk is modeled as the in-order leaf traversal.
-/

/-- `BPlusTreeNode(order, is_leaf)` (the `order` field itself is carried by
the tree, as the Python code only ever consults `self.order` of the tree). -/
inductive BNode where
  | mk (is_leaf : Bool) (keys : List Int) (vals : List Int) (children : List BNode)
deriving Repr, Inhabited

/-- The node's keys. -/
def BNode.keys : BNode → List Int
  | .mk _ ks _ _ => ks

/-- The node's slot values (meaningful at leaves). -/
def BNode.vals : BNode → List Int
  | .mk _ _ vs _ => vs

/-- The node's children (meaningful at internal nodes). -/
def BNode.children : BNode → List BNode
  | .mk _ _ _ cs => cs

/-- The `is_leaf` flag. -/
def BNode.isLeaf : BNode → Bool
  | .mk l _ _ _ => l

/-- `BPlusTree`: root plus `order` (maximum keys per node before a split). -/
structure BPlusTree where
  root : BNode
  order : Nat

/-- `BPlusTree(order)`: an empty leaf root. -/
def BPlusTree.new (order : Nat) : BPlusTree := ⟨.mk true [] [] [], order⟩

/-- `is_empty()`. -/
def BPlusTree.isEmpty (t : BPlusTree) : Bool := t.root.keys.isEmpty

/-- The leaf scan of `search`: `for i, item in enumerate(keys): if item ==
key: return children[i]`. -/
def leafFind : List Int → List Int → Int → Option Int
  | k1 :: ks, c1 :: cs, key => if k1 = key then some c1 else leafFind ks cs key
  | _, _, _ => none

/-- `i = 0; while i < len(keys) and keys[i] < key: i += 1` — the length of
the longest prefix of keys `< key`. -/
def countLt (keys : List Int) (key : Int) : Nat :=
  match keys with
  | [] => 0
  | k1 :: ks => if k1 < key then countLt ks key + 1 else 0

/-- `i = 0; while i < len(keys) and key >= keys[i]: i += 1` — the descent
index used by `_insert_recursive` and `_delete_recursive`. -/
def countGe (keys : List Int) (key : Int) : Nat :=
  match keys with
  | [] => 0
  | k1 :: ks => if key ≥ k1 then countGe ks key + 1 else 0

/-- `children[idx] = pos` at the first index where `keys[idx] == key`
(`keys.index(key)` + assignment). -/
def leafUpdate : List Int → List Int → Int → Int → List Int
  | k1 :: ks, c1 :: cs, key, pos =>
    if k1 = key then pos :: cs else c1 :: leafUpdate ks cs key pos
  | _, cs, _, _ => cs

/-- `keys.pop(idx); children.pop(idx)` at the first index where
`keys[idx] == key`. -/
def leafRemove : List Int → List Int → Int → List Int × List Int
  | k1 :: ks, c1 :: cs, key =>
    if k1 = key then (ks, cs)
    else
      let (ks1, cs1) := leafRemove ks cs key
      (k1 :: ks1, c1 :: cs1)
  | ks, cs, _ => (ks, cs)

/-- `_split_leaf`: keep the lower half, hand the upper half to a new leaf,
promote the new leaf's first key. -/
def splitLeaf (keys vals : List Int) : BNode × Option (Int × BNode) :=
  let mid := keys.length / 2
  (.mk true (keys.take mid) (vals.take mid) [],
   some ((keys.drop mid).getD 0 0, .mk true (keys.drop mid) (vals.drop mid) []))

/-- `_split_internal`: promote the middle key; the left node keeps
`keys[:mid]` and `children[:mid+1]`, the new node takes the rest. -/
def splitInternal (keys : List Int) (children : List BNode) :
    BNode × Option (Int × BNode) :=
  let mid := keys.length / 2
  (.mk false (keys.take mid) [] (children.take (mid + 1)),
   some (keys.getD mid 0, .mk false (keys.drop (mid + 1)) [] (children.drop (mid + 1))))

mutual

/-- `_insert_recursive(node, key, pos)`: returns the updated node and the
optional promoted `(key, new_node)` pair. -/
def insertRec (order : Nat) : BNode → Int → Int → BNode × Option (Int × BNode)
  | .mk true keys vals _, key, pos =>
    if key ∈ keys then (.mk true keys (leafUpdate keys vals key pos) [], none)
    else
      let i := countLt keys key
      let keys1 := keys.insertIdx i key
      let vals1 := vals.insertIdx i pos
      if keys1.length > order then splitLeaf keys1 vals1
      else (.mk true keys1 vals1 [], none)
  | .mk false keys _ children, key, pos =>
    let (keys1, children1) := insertWalk order keys children key pos
    if keys1.length > order then splitInternal keys1 children1
    else (.mk false keys1 [] children1, none)

/-- The parallel walk over `(keys, children)` that descends into
`children[i]` for `i = countGe keys key`, then splices the promoted key at
position `i` and the promoted node at position `i + 1`. -/
def insertWalk (order : Nat) : List Int → List BNode → Int → Int →
    List Int × List BNode
  | k1 :: ks, c1 :: cs, key, pos =>
    if key ≥ k1 then
      let (ks1, cs1) := insertWalk order ks cs key pos
      (k1 :: ks1, c1 :: cs1)
    else
      match insertRec order c1 key pos with
      | (c1', none) => (k1 :: ks, c1' :: cs)
      | (c1', some (pk, pn)) => (pk :: k1 :: ks, c1' :: pn :: cs)
  | [], c1 :: cs, key, pos =>
    match insertRec order c1 key pos with
    | (c1', none) => ([], c1' :: cs)
    | (c1', some (pk, pn)) => ([pk], c1' :: pn :: cs)
  | ks, [], _, _ => (ks, [])

end

/-- `insert(key, pos)`: root split grows a new root. -/
def insertTree (t : BPlusTree) (key pos : Int) : BPlusTree :=
  match insertRec t.order t.root key pos with
  | (root1, none) => { t with root := root1 }
  | (root1, some (pk, pn)) => { t with root := .mk false [pk] [] [root1, pn] }

mutual

/-- `search(key)`: at a leaf scan for an exact match, at an internal node
descend into the first child whose separator exceeds the key (else the last
child). -/
def searchNode : BNode → Int → Option Int
  | .mk true keys vals _, key => leafFind keys vals key
  | .mk false keys _ children, key => searchWalk keys children key

/-- The `for i, item in enumerate(keys): if key < item: descend children[i]`
walk, falling through to `children[-1]`. -/
def searchWalk : List Int → List BNode → Int → Option Int
  | k1 :: ks, c1 :: cs, key =>
    if key < k1 then searchNode c1 key else searchWalk ks cs key
  | [], [c], key => searchNode c key
  | [], _ :: c2 :: cs, key => searchWalk [] (c2 :: cs) key
  | _, [], _ => none

end

/-- `search` on the tree. -/
def searchTree (t : BPlusTree) (key : Int) : Option Int :=
  searchNode t.root key

mutual

/-- The leaves of a subtree in left-to-right order (equal to the `next_leaf`
chain, see the namespace comment). -/
def leavesInOrder : BNode → List (List Int × List Int)
  | .mk true keys vals _ => [(keys, vals)]
  | .mk false _ _ children => leavesList children

def leavesList : List BNode → List (List Int × List Int)
  | [] => []
  | c :: cs => leavesInOrder c ++ leavesList cs

end

/-- One leaf's scan in `range_search`: emit keys in `[start, end]`, break at
the first key `> end`, skip smaller keys. -/
def rangeScanLeaf (startKey endKey : Int) : List Int → List Int → List (Int × Int)
  | k1 :: ks, c1 :: cs =>
    if startKey ≤ k1 ∧ k1 ≤ endKey then (k1, c1) :: rangeScanLeaf startKey endKey ks cs
    else if k1 > endKey then []
    else rangeScanLeaf startKey endKey ks cs
  | _, _ => []

/-- `range_search(start, end)`: empty tree yields `[]`; otherwise scan every
leaf along the chain. -/
def rangeSearchTree (t : BPlusTree) (startKey endKey : Int) : List (Int × Int) :=
  if t.isEmpty then []
  else ((leavesInOrder t.root).map (fun l => rangeScanLeaf startKey endKey l.1 l.2)).flatten

/-- `ceil((order+1)/2)` as the Python source writes it: `(order + 1) // 2`. -/
def minKeys (order : Nat) : Nat := (order + 1) / 2

/-- `_rebalance(parent, idx)` followed by the `_merge` fallback, as pure
list surgery on the parent's `keys`/`children`.  `idx` addresses the
underfull child. -/
def rebalance (order : Nat) (keys : List Int) (children : List BNode) (idx : Nat) :
    List Int × List BNode :=
  let child := children.getD idx default
  let left := children.getD (idx - 1) default
  let right := children.getD (idx + 1) default
  if 0 < idx ∧ minKeys order < left.keys.length then
    -- rotate from the left sibling
    if child.isLeaf then
      let moved := left.keys.getLast?.getD 0
      let movedv := left.vals.getLast?.getD 0
      let child1 : BNode := .mk true (moved :: child.keys) (movedv :: child.vals) []
      let left1 : BNode := .mk true left.keys.dropLast left.vals.dropLast []
      (keys.set (idx - 1) moved,
       (children.set (idx - 1) left1).set idx child1)
    else
      let sep := keys.getD (idx - 1) 0
      let movedc := left.children.getLast?.getD default
      let child1 : BNode := .mk false (sep :: child.keys) [] (movedc :: child.children)
      let left1 : BNode := .mk false left.keys.dropLast [] left.children.dropLast
      (keys.set (idx - 1) (left.keys.getLast?.getD 0),
       (children.set (idx - 1) left1).set idx child1)
  else if idx < children.length - 1 ∧ minKeys order < right.keys.length then
    -- rotate from the right sibling
    if child.isLeaf then
      let moved := right.keys.getD 0 0
      let movedv := right.vals.getD 0 0
      let child1 : BNode := .mk true (child.keys ++ [moved]) (child.vals ++ [movedv]) []
      let right1 : BNode := .mk true right.keys.tail right.vals.tail []
      (keys.set idx (right.keys.tail.getD 0 0),
       (children.set idx child1).set (idx + 1) right1)
    else
      let sep := keys.getD idx 0
      let movedc := right.children.getD 0 default
      let child1 : BNode := .mk false (child.keys ++ [sep]) [] (child.children ++ [movedc])
      let right1 : BNode := .mk false right.keys.tail [] right.children.tail
      (keys.set idx (right.keys.getD 0 0),
       (children.set idx child1).set (idx + 1) right1)
  else
    -- merge: `_merge(parent, idx-1)` when a left sibling exists, else
    -- `_merge(parent, idx)`
    let j := if 0 < idx then idx - 1 else idx
    let cj := children.getD j default
    let sj := children.getD (j + 1) default
    let merged : BNode :=
      if cj.isLeaf then .mk true (cj.keys ++ sj.keys) (cj.vals ++ sj.vals) []
      else .mk false (cj.keys ++ [keys.getD j 0] ++ sj.keys) []
            (cj.children ++ sj.children)
    (keys.eraseIdx j, (children.set j merged).eraseIdx (j + 1))

mutual

/-- `_delete_recursive(node, key)`. -/
def deleteRec (order : Nat) : BNode → Int → BNode
  | .mk true keys vals _, key =>
    if key ∈ keys then
      let (ks1, vs1) := leafRemove keys vals key
      .mk true ks1 vs1 []
    else .mk true keys vals []
  | .mk false keys _ children, key =>
    let i := countGe keys key
    let children1 := deleteInChild order children i key
    if ((children1.getD i default).keys).length < minKeys order then
      let (keys2, children2) := rebalance order keys children1 i
      .mk false keys2 [] children2
    else .mk false keys [] children1

/-- Replace `children[i]` by its recursive delete. -/
def deleteInChild (order : Nat) : List BNode → Nat → Int → List BNode
  | [], _, _ => []
  | c :: cs, 0, key => deleteRec order c key :: cs
  | c :: cs, i + 1, key => c :: deleteInChild order cs i key

end

/-- `delete(key)`: descend the root when an internal root runs out of
keys. -/
def deleteTree (t : BPlusTree) (key : Int) : BPlusTree :=
  let root1 := deleteRec t.order t.root key
  match root1 with
  | .mk false [] _ children => { t with root := children.getD 0 default }
  | _ => { t with root := root1 }

/-- The S1 scenario tree: order 3, keys `[10, 20, 5, 6, 12, 30, 7, 17]`
inserted in order, each with slot equal to its key. -/
def scenarioS1 : BPlusTree :=
  [10, 20, 5, 6, 12, 30, 7, 17].foldl
    (fun t k => insertTree t k k) (BPlusTree.new 3)

mutual

/-- Node count of a subtree (the induction measure for the nested tree). -/
def bsize : BNode → Nat
  | .mk _ _ _ children => 1 + bsizeList children

def bsizeList : List BNode → Nat
  | [] => 0
  | c :: cs => bsize c + bsizeList cs

end

mutual

/-- Occupancy and shape: every internal node has `children = keys + 1`, no
stray `vals`, and every child carries at least `(order+1) // 2` keys; leaves
carry no stray `children`.  This is the well-formedness under which
`_delete_recursive` never rebalances a node it did not shrink. -/
def occOK (order : Nat) : BNode → Bool
  | .mk true _ _ children => children.isEmpty
  | .mk false keys vals children =>
    (children.length == keys.length + 1) && vals.isEmpty && occList order children

def occList (order : Nat) : List BNode → Bool
  | [] => true
  | c :: cs => (minKeys order ≤ c.keys.length : Bool) && occOK order c && occList order cs

end

mutual

/-- `k` appears in no node's key list. -/
def keyAbsent (k : Int) : BNode → Bool
  | .mk true keys _ _ => !(keys.contains k)
  | .mk false keys _ children => !(keys.contains k) && keyAbsentList k children

def keyAbsentList (k : Int) : List BNode → Bool
  | [] => true
  | c :: cs => keyAbsent k c && keyAbsentList k cs

end

/-- Keys strictly increasing. -/
def chainLT : List Int → Bool
  | [] => true
  | [_] => true
  | k1 :: k2 :: ks => (k1 < k2 : Bool) && chainLT (k2 :: ks)

/-- An optional inclusive lower bound. -/
def loOK (lo : Option Int) (k : Int) : Bool :=
  match lo with
  | none => true
  | some a => a ≤ k

/-- An optional exclusive upper bound. -/
def hiOK (hi : Option Int) (k : Int) : Bool :=
  match hi with
  | none => true
  | some b => k < b

/-- An optional strict lower bound. -/
def loLT (lo : Option Int) (k : Int) : Bool :=
  match lo with
  | none => true
  | some a => a < k

mutual

/-- Search-order well-formedness of a subtree within the half-open key
window `[lo, hi)`: leaves have strictly increasing in-window keys and one
slot per key; internal nodes have strictly increasing separators and
children covering the windows the separators cut out. -/
def wfNode (lo hi : Option Int) : BNode → Bool
  | .mk true keys vals children =>
    chainLT keys && (vals.length == keys.length) && children.isEmpty &&
    keys.all (fun k => loOK lo k && hiOK hi k)
  | .mk false keys vals children =>
    vals.isEmpty && chainLT keys && wfKids lo hi keys children

/-- The per-child windows: child `i` covers `[keys[i-1], keys[i])`; each
separator lies strictly inside the node's own window (splits promote a key
strictly above the window's base, see `insert_good_aux`). -/
def wfKids (lo hi : Option Int) : List Int → List BNode → Bool
  | [], [c] => wfNode lo hi c
  | k1 :: ks, c1 :: cs =>
    loLT lo k1 && hiOK hi k1 && wfNode lo (some k1) c1 && wfKids (some k1) hi ks cs
  | _, _ => false

end

/-- What `_insert_recursive` guarantees for a key `k` bound to `v` inside
the window `[lo, hi)`: without a promotion the node stays well-formed and
finds `v`; with a promoted pair `(pk, pn)` the two nodes are well-formed on
the windows `pk` cuts, `pk` lies strictly inside the window, and the side
of `pk` that `k` falls on finds `v`. -/
def promoOK (k v : Int) (lo hi : Option Int) : BNode × Option (Int × BNode) → Prop
  | (n1, none) => wfNode lo hi n1 = true ∧ searchNode n1 k = some v
  | (n1, some (pk, pn)) =>
    wfNode lo (some pk) n1 = true ∧ wfNode (some pk) hi pn = true ∧
    loLT lo pk = true ∧ hiOK hi pk = true ∧
    (if k < pk then searchNode n1 k = some v else searchNode pn k = some v)

/-- What the descent walk guarantees: the spliced `(keys, children)` pair is
well-formed on the same window and routes `k` to `v`. -/
def walkOK (k v : Int) (lo hi : Option Int) : List Int × List BNode → Prop
  | (ks1, cs1) => wfKids lo hi ks1 cs1 = true ∧ searchWalk ks1 cs1 k = some v

/-- A reachable order-3 tree with a node below the occupancy minimum:
inserting keys 1..10 in order, `_split_internal` on four keys hands the new
node a single key, so the root's right child keeps one key while
`(order + 1) // 2 = 2`. -/
def scenarioT10 : BPlusTree :=
  [1, 2, 3, 4, 5, 6, 7, 8, 9, 10].foldl
    (fun t k => insertTree t k k) (BPlusTree.new 3)

end BP

namespace Seq

/-!
`src/indexes/sequential_file.py` (`SequentialIndex`).  The two files are
lists of fixed-size records; a record is its key, an identifier standing for
the remaining field values, and the `next` link (`0` live, `-1` tombstone).
The Python `while` loops of the binary searches run on a fuel argument that
is called with a bound (one more than the record count) the loops can never
exhaust, keeping the recursion structural.
-/

/-- A packed record as the index reads it: key field, the remaining values
(as an identifier), and the `next` link. -/
structure SRec where
  key : Int
  vals : Nat
  next : Int
deriving DecidableEq, Repr

instance : Inhabited SRec := ⟨⟨0, 0, 0⟩⟩

/-- `K_THRESHOLD = 5`. -/
def kThreshold : Nat := 5

/-- `SequentialIndex` state: main file, aux file, in-memory aux count. -/
structure SequentialIndex where
  main : List SRec
  aux : List SRec
  auxCount : Nat
deriving DecidableEq, Repr

/-- A fresh index over empty files. -/
def SequentialIndex.empty : SequentialIndex := ⟨[], [], 0⟩

/-- Stable insertion into a key-sorted list (before the first strictly
greater key), the placement `list.sort(key=...)` gives equal keys. -/
def insertStable (r : SRec) : List SRec → List SRec
  | [] => [r]
  | y :: ys => if y.key < r.key then y :: insertStable r ys else r :: y :: ys

/-- `all_aux_records.sort(key=lambda r: r.key)` — Python's stable sort. -/
def sortByKey : List SRec → List SRec
  | [] => []
  | x :: xs => insertStable x (sortByKey xs)

/-- The merge loop of `_rebuild`: read main sequentially skipping tombstones,
interleave the sorted live aux records, main winning ties.  One iteration
consumes a record from either side, so fuel `|main| + |aux| + 1` is the
exact loop. -/
def rmergeF : Nat → List SRec → List SRec → List SRec
  | 0, _, _ => []
  | _ + 1, [], aux => aux
  | fuel + 1, m :: ms, aux =>
    if m.next ≠ 0 then rmergeF fuel ms aux
    else
      match aux with
      | [] => m :: rmergeF fuel ms []
      | a :: as1 =>
        if m.key ≤ a.key then m :: rmergeF fuel ms (a :: as1)
        else a :: rmergeF fuel (m :: ms) as1

/-- `_rebuild()`: drop aux tombstones, sort aux, merge with main, replace
main, truncate aux, reset the counter. -/
def rebuild (st : SequentialIndex) : SequentialIndex :=
  let auxSorted := sortByKey (st.aux.filter (fun r => r.next == 0))
  ⟨rmergeF (st.main.length + auxSorted.length + 1) st.main auxSorted, [], 0⟩

/-- `add(record)`: append to aux, bump the counter, `_rebuild` at the
threshold. -/
def add (st : SequentialIndex) (r : SRec) : SequentialIndex :=
  let st1 : SequentialIndex := ⟨st.main, st.aux ++ [r], st.auxCount + 1⟩
  if st1.auxCount ≥ kThreshold then rebuild st1 else st1

/-- `insert(key, value)` wraps the record and calls `add` (the key argument
is not consulted). -/
def insert (st : SequentialIndex) (r : SRec) : SequentialIndex := add st r

/-- The `while low <= high` loop of `_binary_search_data_file`.  The interval
shrinks every iteration, so fuel `|main| + 1` is the exact loop. -/
def bsearchGo (main : List SRec) (key : Int) : Nat → Int → Int → Option SRec
  | 0, _, _ => none
  | fuel + 1, low, high =>
    if low ≤ high then
      let mid := ((low + high) / 2).toNat
      match main.get? mid with
      | none => none
      | some r =>
        if r.key = key then (if r.next = 0 then some r else none)
        else if r.key < key then bsearchGo main key fuel (mid + 1) high
        else bsearchGo main key fuel low (mid - 1)
    else none

/-- `_binary_search_data_file(key)`. -/
def bsearchMain (main : List SRec) (key : Int) : Option SRec :=
  bsearchGo main key (main.length + 1) 0 ((main.length : Int) - 1)

/-- `_linear_search_aux_file(key)`: the first key match decides (a tombstone
match returns `None` immediately). -/
def linearAux : List SRec → Int → Option SRec
  | [], _ => none
  | r :: rest, key =>
    if r.key = key then (if r.next = 0 then some r else none)
    else linearAux rest key

/-- `_search_record(key)`: binary search in main, then linear scan of aux. -/
def searchRecord (st : SequentialIndex) (key : Int) : Option SRec :=
  match bsearchMain st.main key with
  | some r => some r
  | none => linearAux st.aux key

/-- `search(key)`: the record's values, or `None`. -/
def search (st : SequentialIndex) (key : Int) : Option Nat :=
  (searchRecord st key).map (fun r => r.vals)

/-- The `while low <= high` loop of `remove`: mark the main-file match with
`next = -1` in place; `some b` is a `return b`, `none` falls through to the
aux scan. -/
def removeGo (key : Int) : Nat → List SRec → Int → Int → List SRec × Option Bool
  | 0, main, _, _ => (main, none)
  | fuel + 1, main, low, high =>
    if low ≤ high then
      let mid := ((low + high) / 2).toNat
      match main.get? mid with
      | none => (main, none)
      | some r =>
        if r.key = key then
          if r.next = 0 then (main.set mid { r with next := -1 }, some true)
          else (main, some false)
        else if r.key < key then removeGo key fuel main (mid + 1) high
        else removeGo key fuel main low (mid - 1)
    else (main, none)

/-- The aux pass of `remove`: mark the first key match in place. -/
def removeAuxGo : List SRec → Int → List SRec × Bool
  | [], _ => ([], false)
  | r :: rest, key =>
    if r.key = key then
      if r.next = 0 then ({ r with next := -1 } :: rest, true) else (r :: rest, false)
    else
      let (rest1, b) := removeAuxGo rest key
      (r :: rest1, b)

/-- `remove(key)`: tombstone in main, else in aux; `False` if absent or
already tombstoned. -/
def remove (st : SequentialIndex) (key : Int) : SequentialIndex × Bool :=
  match removeGo key (st.main.length + 1) st.main 0 ((st.main.length : Int) - 1) with
  | (main1, some b) => (⟨main1, st.aux, st.auxCount⟩, b)
  | (main1, none) =>
    let (aux1, b) := removeAuxGo st.aux key
    (⟨main1, aux1, st.auxCount⟩, b)

/-- `save_to_file()`: force a rebuild when aux is nonempty. -/
def saveToFile (st : SequentialIndex) : SequentialIndex :=
  if 0 < st.auxCount then rebuild st else st

/-- The main-file pass of `rangeSearch`: skip tombstones, stop at the first
live key past the bound. -/
def rangeMain (b e : Int) : List SRec → List SRec
  | [] => []
  | r :: rest =>
    if r.next = 0 then
      if r.key > e then []
      else if r.key ≥ b then r :: rangeMain b e rest
      else rangeMain b e rest
    else rangeMain b e rest

/-- The aux pass of `rangeSearch`: keep live records inside the range. -/
def rangeAux (b e : Int) : List SRec → List SRec
  | [] => []
  | r :: rest =>
    if r.next = 0 ∧ b ≤ r.key ∧ r.key ≤ e then r :: rangeAux b e rest
    else rangeAux b e rest

/-- `rangeSearch(begin_key, end_key)`. -/
def rangeSearch (st : SequentialIndex) (b e : Int) : List SRec :=
  rangeMain b e st.main ++ rangeAux b e st.aux

/-- Key order between records. -/
def keyLE (a b : SRec) : Prop := a.key ≤ b.key

/-- Non-decreasing keys (the physical order of the main file). -/
def SortedK (l : List SRec) : Prop := List.Pairwise keyLE l

instance (a b : SRec) : Decidable (keyLE a b) := by
  unfold keyLE
  infer_instance

instance (l : List SRec) : Decidable (SortedK l) := by
  unfold SortedK
  infer_instance

end Seq

namespace ISAM

/-- S4's base layout: keys `[10, 20, 30, 40, 50]`, each at a slot equal to
its key, loaded by ascending inserts. -/
def scenarioS4Base : ISAMIndex :=
  [(10, 10), (20, 20), (30, 30), (40, 40), (50, 50)].foldl
    (fun st p => insert st p.1 p.2) ISAMIndex.empty

/-- Keys non-decreasing along the leaf array (the well-formedness under which
the binary searches of `isam.py` are exact). -/
def KeysLE (l : List (Int × Int)) : Prop :=
  ∀ i j : Nat, i ≤ j → j < l.length → (l.getD i default).1 ≤ (l.getD j default).1

end ISAM

namespace RT

/-!
`src/indexes/rtree.py` (`RTreeNode`, `RTree`, `RTreeIndex`) with the default
fan-out `M = 4`.  Coordinates are integers (the scenarios insert integer
points), on which Python's arithmetic is exact.  A bounding box is
`Option Rect4`: `none` stands for the `(inf, inf, -inf, -inf)` sentinel a
node without children carries, and per-coordinate `min`/`max` against that
sentinel is absorption, i.e. `none` is the identity of the box union.
`_choose_leaf` ranks children by the pair (area enlargement, distance from
the bbox to the rectangle's centre); the model compares the squared
distance computed on doubled coordinates (`2·center` is integral even when
`(minx+maxx)/2` is not), an order-preserving image of Python's
`(dx*dx+dy*dy) ** 0.5` float whenever, as on every integer run evaluated
here, correctly-rounded square roots of distinct values stay distinct.
Python's `min` keeps the first minimum, node identity (`==` on objects)
makes `_find_parent` return the real parent, so the choose-leaf /
walk-back-up pair is modeled as one structural recursion returning either
the updated child or the two halves of a split.  `node_id`/`node_count`
only feed that identity bookkeeping and are dropped.
-/

/-- A bounding rectangle `(minx, miny, maxx, maxy)`. -/
structure Rect4 where
  minx : Int
  miny : Int
  maxx : Int
  maxy : Int
deriving DecidableEq, Repr

/-- Per-coordinate union of two boxes (the `min`/`max` folds of
`update_bbox` and `enlarged_area`). -/
def rectUnion (a b : Rect4) : Rect4 :=
  ⟨min a.minx b.minx, min a.miny b.miny, max a.maxx b.maxx, max a.maxy b.maxy⟩

/-- A leaf entry `(minx, miny, maxx, maxy, payload)`. -/
structure REntry where
  rect : Rect4
  pid : Int
deriving DecidableEq, Repr

/-- `RTreeNode`: a leaf holds entries, an internal node holds child nodes;
both carry the stored (possibly stale) `bbox`. -/
inductive RTNode where
  | leaf (bbox : Option Rect4) (entries : List REntry)
  | node (bbox : Option Rect4) (children : List RTNode)

/-- The stored `bbox` field. -/
def RTNode.bbox : RTNode → Option Rect4
  | .leaf b _ => b
  | .node b _ => b

/-- `not child.children` — the emptiness test of `_delete_recursive`. -/
def RTNode.childrenEmpty : RTNode → Bool
  | .leaf _ es => es.isEmpty
  | .node _ cs => cs.isEmpty

/-- The child list of an internal node. -/
def childrenOf : RTNode → List RTNode
  | .leaf _ _ => []
  | .node _ cs => cs

/-- Box of a leaf's entry list: `min`/`max` over the entries, the
`(inf, inf, -inf, -inf)` sentinel (`none`) when there are none. -/
def unionRects : List Rect4 → Option Rect4
  | [] => none
  | r :: rs => some (rs.foldl rectUnion r)

/-- Box union over children boxes; a child's `none` sentinel is absorbed
exactly as `min`/`max` against `±inf` is. -/
def unionBoxes (bs : List (Option Rect4)) : Option Rect4 :=
  bs.foldl
    (fun acc b =>
      match acc, b with
      | none, b => b
      | some a, none => some a
      | some a, some b1 => some (rectUnion a b1))
    none

mutual

/-- `update_bbox()`: a leaf recomputes its box from its entries; an internal
node first refreshes every child recursively, then takes the union of the
children's boxes. -/
def updateBBox : RTNode → RTNode
  | .leaf _ es => .leaf (unionRects (es.map REntry.rect)) es
  | .node _ cs =>
    let cs1 := updateBBoxList cs
    .node (unionBoxes (cs1.map RTNode.bbox)) cs1

def updateBBoxList : List RTNode → List RTNode
  | [] => []
  | c :: rest => updateBBox c :: updateBBoxList rest

end

/-- `area()` of a concrete box. -/
def area (b : Rect4) : Int := (b.maxx - b.minx) * (b.maxy - b.miny)

/-- `enlarged_area(rect)`: area growth were the box to absorb `rect`. -/
def enlargedArea (b r : Rect4) : Int := area (rectUnion b r) - area b

/-- The squared box-to-point distance of `mindist_to_point`, computed on
doubled coordinates (`cx2 = 2·px`, `cy2 = 2·py`), so the value is
`4·(dx²+dy²)` — an order-preserving image of the Python float distance. -/
def mindistSq (b : Rect4) (cx2 cy2 : Int) : Int :=
  let dx2 : Int :=
    if cx2 < 2 * b.minx then 2 * b.minx - cx2
    else if cx2 > 2 * b.maxx then cx2 - 2 * b.maxx
    else 0
  let dy2 : Int :=
    if cy2 < 2 * b.miny then 2 * b.miny - cy2
    else if cy2 > 2 * b.maxy then cy2 - 2 * b.maxy
    else 0
  dx2 * dx2 + dy2 * dy2

/-- Strict lexicographic order on `(enlargement, distance)` scores. -/
def scoreLt (a b : Int × Int) : Bool :=
  a.1 < b.1 || (a.1 = b.1 && a.2 < b.2)

/-- Index of the first minimal score — Python's `min(..., key=score)`
keeps the earliest minimum. -/
def chooseGo (i best : Nat) (bs : Int × Int) : List (Int × Int) → Nat
  | [] => best
  | s :: rest =>
    if scoreLt s bs then chooseGo (i + 1) i s rest
    else chooseGo (i + 1) best bs rest

/-- `min(node.children, key=score)` as an index; `none` on an empty list
(where Python's `min` raises). -/
def chooseIdx : List (Int × Int) → Option Nat
  | [] => none
  | s :: rest => some (chooseGo 1 0 s rest)

/-- The `(enlarged_area, mindist_to_point(rect_center))` score of every
child; `none` if a child's box is the empty sentinel (on which Python's
float scores degenerate to infinities — unreachable for children of a
populated internal node). -/
def childScores (cs : List RTNode) (r : Rect4) : Option (List (Int × Int)) :=
  cs.mapM (fun c =>
    (c.bbox).map (fun b =>
      (enlargedArea b r, mindistSq b (r.minx + r.maxx) (r.miny + r.maxy))))

/-- `M = 4`, the default `max_children`. -/
def maxChildren : Nat := 4

/-- `min_fill = max(1, (max_children + 1) // 2)` of `_split_node`. -/
def minFill : Nat := max 1 ((maxChildren + 1) / 2)

/-- `min_entries = max(1, max_children // 2)` of `_delete_recursive`. -/
def minEntries : Nat := max 1 (maxChildren / 2)

/-- The cut index `mid = max(min_fill, min(k // 2, k - min_fill))`. -/
def splitMid (k : Nat) : Nat := max minFill (min (k / 2) (k - minFill))

/-- `_split_node` on a leaf: keep `children[:mid]`, move `children[mid:]`
to the fresh node, refresh both boxes. -/
def splitLeafRT (es : List REntry) : RTNode × RTNode :=
  let mid := splitMid es.length
  (updateBBox (.leaf none (es.take mid)), updateBBox (.leaf none (es.drop mid)))

/-- `_split_node` on an internal node, same cut on the child list. -/
def splitInternalRT (cs : List RTNode) : RTNode × RTNode :=
  let mid := splitMid cs.length
  (updateBBox (.node none (cs.take mid)), updateBBox (.node none (cs.drop mid)))

mutual

/-- `insert_by_rect` below a fixed node: descend to the chosen leaf, append
the entry, refresh that leaf's box only; on overflow split and hand both
halves to the parent, which appends the new sibling at the end of its child
list, refreshes its whole subtree (`parent.update_bbox()`), and may split
in turn.  A node whose child did not split is rebuilt with the child
replaced and its own box untouched — the staleness the source exhibits. -/
def insertRec : RTNode → Rect4 → Int → Option (RTNode ⊕ (RTNode × RTNode))
  | .leaf bbox es, r, pid =>
    let es1 := es ++ [⟨r, pid⟩]
    if es1.length > maxChildren then some (Sum.inr (splitLeafRT es1))
    else some (Sum.inl (updateBBox (.leaf bbox es1)))
  | .node bbox cs, r, pid =>
    match childScores cs r with
    | none => none
    | some ss =>
      match chooseIdx ss with
      | none => none
      | some i =>
        match insertAt cs i r pid with
        | none => none
        | some (Sum.inl cs1) => some (Sum.inl (.node bbox cs1))
        | some (Sum.inr cs1) =>
          let n1 := updateBBox (.node bbox cs1)
          if cs1.length > maxChildren then
            some (Sum.inr (splitInternalRT (childrenOf n1)))
          else some (Sum.inl n1)

/-- Apply the insertion to the `i`-th child; `inr` propagates a split, the
new sibling travelling to the end of the surrounding child list. -/
def insertAt : List RTNode → Nat → Rect4 → Int → Option (List RTNode ⊕ List RTNode)
  | [], _, _, _ => none
  | c :: rest, 0, r, pid =>
    match insertRec c r pid with
    | none => none
    | some (Sum.inl c1) => some (Sum.inl (c1 :: rest))
    | some (Sum.inr (c1, c2)) => some (Sum.inr ((c1 :: rest) ++ [c2]))
  | c :: rest, i + 1, r, pid =>
    match insertAt rest i r pid with
    | none => none
    | some (Sum.inl rest1) => some (Sum.inl (c :: rest1))
    | some (Sum.inr rest1) => some (Sum.inr (c :: rest1))

end

/-- `RTree` with the default fan-out; only the root is state. -/
structure RTree where
  root : RTNode

/-- A fresh tree: an empty leaf root with the sentinel box. -/
def RTree.empty : RTree := ⟨.leaf none []⟩

/-- Public insert of a rectangle: on a root split the two halves go under a
fresh root whose `update_bbox()` refreshes the whole tree.  (The empty-root
special case of `insert` appends and refreshes exactly as the generic path
does.) -/
def insertRectT (t : RTree) (r : Rect4) (pid : Int) : Option RTree :=
  match insertRec t.root r pid with
  | none => none
  | some (Sum.inl root1) => some ⟨root1⟩
  | some (Sum.inr (r1, r2)) => some ⟨updateBBox (.node none [r1, r2])⟩

/-- Public insert of a point record `(id, x, y)`, stored as the degenerate
rectangle `(x, y, x, y)`. -/
def insertPointT (t : RTree) (pid x y : Int) : Option RTree :=
  insertRectT t ⟨x, y, x, y⟩ pid

/-- Rectangle overlap test of `_search_recursive`. -/
def overlaps (b q : Rect4) : Bool :=
  !(b.maxx < q.minx || b.minx > q.maxx || b.maxy < q.miny || b.miny > q.maxy)

/-- Overlap against a stored box; the sentinel never overlaps (its
`maxx = -inf` fails the comparison in Python). -/
def boxOverlaps : Option Rect4 → Rect4 → Bool
  | none, _ => false
  | some b, q => overlaps b q

mutual

/-- `search(key)`: collect payloads of overlapping leaf entries, descending
only into children whose stored box overlaps the query. -/
def searchRec : RTNode → Rect4 → List Int
  | .leaf _ es, q => (es.filter (fun e => overlaps e.rect q)).map REntry.pid
  | .node _ cs, q => searchChildren cs q

def searchChildren : List RTNode → Rect4 → List Int
  | [], _ => []
  | c :: rest, q =>
    (if boxOverlaps c.bbox q then searchRec c q else []) ++ searchChildren rest q

end

/-- `search` from the root. -/
def searchT (t : RTree) (q : Rect4) : List Int := searchRec t.root q

mutual

/-- The claim's invariant, checked on stored boxes: every internal node's
bbox equals the union of its children's bboxes. -/
def bboxOKN : RTNode → Bool
  | .leaf _ _ => true
  | .node b cs => (b == unionBoxes (cs.map RTNode.bbox)) && bboxOKL cs

def bboxOKL : List RTNode → Bool
  | [] => true
  | c :: rest => bboxOKN c && bboxOKL rest

end

/-- One saved `deleted_nodes` batch: a leaf's entries or an internal node's
child subtrees. -/
abbrev Orphan := List REntry ⊕ List RTNode

mutual

/-- `_delete_recursive(node, key)`: the Boolean result, the mutated node,
and the orphan batches appended along the way (in recursion order).  A leaf
filters matching entries and refreshes its box only when something left; an
internal node processes every child, drops children that reported deletion
and became empty, then — whenever any children remain — refreshes its whole
subtree via `update_bbox` even if nothing matched.  Underflow below
`min_entries` (never at the root) saves the children as an orphan batch and
empties the node. -/
def deleteRec (isRoot : Bool) : RTNode → Int → RTNode × Bool × List Orphan
  | .leaf bbox es, key =>
    let es1 := es.filter (fun e => e.pid ≠ key)
    if es1.length < es.length then
      let n1 := updateBBox (.leaf bbox es1)
      if es1.length < minEntries && !isRoot then
        (.leaf n1.bbox [], true, [Sum.inl es1])
      else (n1, true, [])
    else (.leaf bbox es1, false, [])
  | .node bbox cs, key =>
    let (cs1, removed, orph) := deleteChildren cs key
    if cs1.length ≠ 0 then
      let n1 := updateBBox (.node bbox cs1)
      if cs1.length < minEntries && !isRoot then
        (.node n1.bbox [], true, orph ++ [Sum.inr (childrenOf n1)])
      else (n1, decide (0 < removed), orph)
    else (.node bbox [], true, orph)

/-- The child loop of the internal case: recurse into every child, count
and drop the children that were deleted and emptied. -/
def deleteChildren : List RTNode → Int → List RTNode × Nat × List Orphan
  | [], _ => ([], 0, [])
  | c :: rest, key =>
    let (c1, ret, or1) := deleteRec false c key
    let (rest1, n, or2) := deleteChildren rest key
    if ret && c1.childrenEmpty then (rest1, n + 1, or1 ++ or2)
    else (c1 :: rest1, n, or1 ++ or2)

end

/-- Reinsert one orphaned leaf entry (`insert` for a degenerate box and
`insert_by_rect` otherwise perform the same appending insertion). -/
def reinsertEntry (acc : Option RTree) (e : REntry) : Option RTree :=
  acc.bind (fun t => insertRectT t e.rect e.pid)

mutual

/-- `_reinsert_subtree`: reinsert every entry under an orphaned subtree. -/
def reinsertSubtree : RTNode → Option RTree → Option RTree
  | .leaf _ es, acc => es.foldl reinsertEntry acc
  | .node _ cs, acc => reinsertSubtreeList cs acc

def reinsertSubtreeList : List RTNode → Option RTree → Option RTree
  | [], acc => acc
  | c :: rest, acc => reinsertSubtreeList rest (reinsertSubtree c acc)

end

/-- Reinsert one saved `deleted_nodes` batch. -/
def processOrphan (acc : Option RTree) (o : Orphan) : Option RTree :=
  match o with
  | Sum.inl es => es.foldl reinsertEntry acc
  | Sum.inr ns => reinsertSubtreeList ns acc

/-- `delete(key)`: recursive removal from the root, reinsertion of the
orphan batches in order, then the single-child root collapse. -/
def deleteT (t : RTree) (key : Int) : Option RTree :=
  let (root1, _, orph) := deleteRec true t.root key
  match orph.foldl processOrphan (some ⟨root1⟩) with
  | none => none
  | some t1 =>
    match t1.root with
    | .node _ [c] => some ⟨c⟩
    | _ => some t1

/-- `RTreeIndex.id_to_pos`, an insertion-ordered dict id → file position. -/
def posGet (d : List (Int × Int)) (k : Int) : Option Int :=
  match d with
  | [] => none
  | (k1, v1) :: rest => if k1 = k then some v1 else posGet rest k

/-- `id_to_pos[rec_id] = pos`: overwrite in place or append. -/
def posSet (d : List (Int × Int)) (k v : Int) : List (Int × Int) :=
  match d with
  | [] => [(k, v)]
  | (k1, v1) :: rest => if k1 = k then (k, v) :: rest else (k1, v1) :: posSet rest k v

/-- `RTreeIndex`: the spatial tree plus the `id_to_pos` dict. -/
structure RTreeIndex where
  tree : RTree
  idToPos : List (Int × Int)

/-- `RTreeIndex.insert(record, pos)` with a position supplied: point insert
into the tree and `id_to_pos[rec_id] = pos`. -/
def insertIdx (idx : RTreeIndex) (pid x y pos : Int) : Option RTreeIndex :=
  (insertPointT idx.tree pid x y).map (fun t => ⟨t, posSet idx.idToPos pid pos⟩)

/-- `RTreeIndex.search(rec_id) = id_to_pos.get(rec_id)`. -/
def searchIdx (idx : RTreeIndex) (pid : Int) : Option Int :=
  posGet idx.idToPos pid

/-- The x-axis point load `(id, x, 0)` for `x = id ∈ {0, …, 10}` followed by
the far point `(100, 100, 0)`: eleven inserts build a depth-two tree (two
leaf levels of splits, then a root split), and the final insert lands in
the rightmost leaf without splitting, refreshing only that leaf's box. -/
def rtScenarioPoints : List (Int × Int) :=
  [(0, 0), (1, 1), (2, 2), (3, 3), (4, 4), (5, 5), (6, 6), (7, 7), (8, 8),
    (9, 9), (10, 10), (100, 100)]

/-- Folding the scenario's point inserts from the empty tree. -/
def rtScenario : Option RTree :=
  rtScenarioPoints.foldl (fun acc p => acc.bind (fun t => insertPointT t p.1 p.2 0))
    (some RTree.empty)

/-- The scenario state after `delete(999)` — no payload is `999`. -/
def rtScenarioDel : Option RTree := rtScenario.bind (fun t => deleteT t 999)

/-- The query box around the far point. -/
def rtQuery : Rect4 := ⟨100, 0, 100, 0⟩

end RT

/-! ## Theorems -/

namespace ListAux

theorem getD_set_self {α} (l : List α) (i : Nat) (a d : α) (h : i < l.length) :
    (l.set i a).getD i d = a := by
  induction l generalizing i with
  | nil => simp at h
  | cons x xs ih =>
    cases i with
    | zero => simp
    | succ n =>
      simp only [List.set_cons_succ, List.getD_cons_succ]
      exact ih n (by simpa using h)

theorem getD_set_ne {α} (l : List α) (i j : Nat) (a d : α) (h : i ≠ j) :
    (l.set i a).getD j d = l.getD j d := by
  induction l generalizing i j with
  | nil => simp
  | cons x xs ih =>
    cases i with
    | zero =>
      cases j with
      | zero => exact absurd rfl h
      | succ m => simp
    | succ n =>
      cases j with
      | zero => simp
      | succ m =>
        simp only [List.set_cons_succ, List.getD_cons_succ]
        exact ih n m (by omega)

theorem getD_append_left {α} (l l2 : List α) (i : Nat) (d : α) (h : i < l.length) :
    (l ++ l2).getD i d = l.getD i d := by
  induction l generalizing i with
  | nil => simp at h
  | cons x xs ih =>
    cases i with
    | zero => simp
    | succ n =>
      simp only [List.cons_append, List.getD_cons_succ]
      exact ih n (by simpa using h)

theorem getD_append_len {α} (l : List α) (a d : α) :
    (l ++ [a]).getD l.length d = a := by
  induction l with
  | nil => simp
  | cons x xs ih => simp [ih]

theorem getD_mem {α} (l : List α) (i : Nat) (d : α) (h : i < l.length) :
    l.getD i d ∈ l := by
  induction l generalizing i with
  | nil => simp at h
  | cons x xs ih =>
    cases i with
    | zero => simp
    | succ n =>
      simp only [List.getD_cons_succ]
      exact List.mem_cons_of_mem x (ih n (by simpa using h))

theorem getD_range_map (f : Nat → Nat) (n i : Nat) (h : i < n) :
    ((List.range n).map f).getD i 0 = f i := by
  induction n generalizing i with
  | zero => omega
  | succ m ih =>
    rcases Nat.lt_or_ge i m with hlt | hge
    · rw [List.range_succ, List.map_append]
      rw [getD_append_left _ _ i 0 (by simpa using hlt)]
      exact ih i hlt
    · have : i = m := by omega
      subst this
      rw [List.range_succ, List.map_append]
      have hlen : ((List.range i).map f).length = i := by simp
      calc ((List.range i).map f ++ [f i]).getD i 0
          = ((List.range i).map f ++ [f i]).getD ((List.range i).map f).length 0 := by
            rw [hlen]
        _ = f i := getD_append_len _ _ _

theorem getD_append_ge {α} (l l2 : List α) (i : Nat) (d : α) (h : l.length ≤ i) :
    (l ++ l2).getD i d = l2.getD (i - l.length) d := by
  induction l generalizing i with
  | nil => simp
  | cons x xs ih =>
    cases i with
    | zero => simp at h
    | succ n =>
      simp only [List.cons_append, List.getD_cons_succ]
      rw [ih n (by simpa using h)]
      simp [Nat.succ_sub_succ]

end ListAux

namespace EH

theorem shift_pow (x : Nat) : (1 <<< (x + 1)) >>> 1 = 2 ^ x := by
  rw [Nat.shiftLeft_eq, Nat.shiftRight_eq_div_pow]
  simp [Nat.pow_succ, Nat.mul_div_cancel]

/-- `i &&& 2^d` is nonzero exactly when bit `d` of `i` is set. -/
theorem and_pow_ne_zero_iff (i d : Nat) : i &&& 2 ^ d ≠ 0 ↔ i / 2 ^ d % 2 = 1 := by
  rw [Nat.and_two_pow, Nat.testBit_to_div_mod]
  by_cases h : i / 2 ^ d % 2 = 1
  · rw [decide_eq_true h]
    exact iff_of_true (by simp) h
  · rw [decide_eq_false h]
    exact iff_of_false (by simp) h

/-- Two indices agreeing on their low `d` bits and on bit `d` agree on their
low `d+1` bits. -/
theorem mod_pow_succ_eq (i j d : Nat) (hlow : i % 2 ^ d = j % 2 ^ d)
    (hbit : i / 2 ^ d % 2 = j / 2 ^ d % 2) : i % 2 ^ (d + 1) = j % 2 ^ (d + 1) := by
  rw [pow_succ, Nat.mod_mul, Nat.mod_mul, hlow, hbit]

/-- Agreement modulo `2^D` restricts to any smaller power. -/
theorem mod_pow_mono (i j d D : Nat) (hd : d ≤ D) (h : i % 2 ^ D = j % 2 ^ D) :
    i % 2 ^ d = j % 2 ^ d := by
  have hdvd : 2 ^ d ∣ 2 ^ D := pow_dvd_pow 2 hd
  calc i % 2 ^ d = i % 2 ^ D % 2 ^ d := (Nat.mod_mod_of_dvd i hdvd).symm
    _ = j % 2 ^ D % 2 ^ d := by rw [h]
    _ = j % 2 ^ d := Nat.mod_mod_of_dvd j hdvd

/-- Invariant transfer between states with the same depth, directory, arena
size and per-bucket local depths (covers all record/chain-only mutations). -/
theorem inv_of_shape (st st' : EHState) (hD : st'.D = st.D)
    (hdir : st'.directory = st.directory)
    (hlen : st'.buckets.length = st.buckets.length)
    (hd : ∀ bi, bi < st.buckets.length →
      (st'.buckets.getD bi default).d = (st.buckets.getD bi default).d)
    (h : Inv st) : Inv st' := by
  obtain ⟨h1, h2, h3, h4⟩ := h
  refine ⟨by rw [hdir, hD]; exact h1, ?_, ?_, ?_⟩
  · intro bi hbi
    rw [hdir] at hbi
    rw [hlen]
    exact h2 bi hbi
  · intro bi hbi
    rw [hdir] at hbi
    rw [hD, hd bi (h2 bi hbi)]
    exact h3 bi hbi
  · intro i hi j hj heq
    rw [hdir] at hi hj heq ⊢
    rw [hd _ (h2 _ (ListAux.getD_mem _ _ _ hi))]
    exact h4 i hi j hj heq

/-- `setBucket` with an unchanged local depth preserves the invariant. -/
theorem inv_setBucket (st : EHState) (bi : Nat) (b : Bucket)
    (hd : b.d = (st.buckets.getD bi default).d) (h : Inv st) :
    Inv (setBucket st bi b) := by
  refine inv_of_shape st (setBucket st bi b) rfl rfl (List.length_set _ _ _) ?_ h
  intro c hc
  by_cases hcbi : bi = c
  · subst hcbi
    show ((st.buckets.set bi b).getD bi default).d = _
    rw [ListAux.getD_set_self _ _ _ _ hc]
    exact hd
  · show ((st.buckets.set bi b).getD c default).d = _
    rw [ListAux.getD_set_ne _ _ _ _ _ hcbi]

/-- `delete` preserves the invariant (it only edits records and chains). -/
theorem inv_deleteS (st : EHState) (k : Nat) (h : Inv st) : Inv (deleteS st k).1 := by
  simp only [deleteS]
  split
  · exact inv_setBucket st _ _ rfl h
  · split
    · exact h
    · split
      · exact h
      · split
        · exact inv_setBucket st _ _ rfl h
        · exact inv_setBucket st _ _ rfl h

/-- The split restructuring in closed form: the old bucket (at arena index
`directory[pos]`) gets depth `d+1` and empty records, a fresh bucket of the
same depth is appended to the arena, and every directory slot aliasing the
old bucket whose bit `d` is set is repointed to the fresh bucket. -/
theorem splitCore_eq (st : EHState) (pos : Nat) :
    splitCore st pos =
      (⟨st.D, st.fb,
         (st.buckets.set (st.directory.getD pos 0)
            { st.buckets.getD (st.directory.getD pos 0) default with
                d := (st.buckets.getD (st.directory.getD pos 0) default).d + 1,
                records := [] })
           ++ [⟨(st.buckets.getD (st.directory.getD pos 0) default).d + 1, [], none⟩],
         (List.range st.directory.length).map (fun i =>
           if st.directory.getD i 0 = st.directory.getD pos 0 ∧
               i &&& 2 ^ (st.buckets.getD (st.directory.getD pos 0) default).d ≠ 0
             then st.buckets.length else st.directory.getD i 0)⟩,
       (st.buckets.getD (st.directory.getD pos 0) default).records) := by
  simp only [splitCore, shift_pow]

/-- `split` preserves the invariant when (as at its call site inside `insert`)
the bucket being split has local depth strictly below the global depth. -/
theorem splitCore_inv (st : EHState) (pos : Nat) (hInv : Inv st)
    (hpos : pos < st.directory.length)
    (hdlt : (st.buckets.getD (st.directory.getD pos 0) default).d < st.D) :
    Inv (splitCore st pos).1 := by
  obtain ⟨h1, h2, h3, h4⟩ := hInv
  rw [splitCore_eq]
  dsimp only
  generalize hbieq : st.directory.getD pos 0 = bi at *
  generalize holdeq : st.buckets.getD bi default = old at *
  have hbi_lt : bi < st.buckets.length := by
    rw [← hbieq]
    exact h2 _ (ListAux.getD_mem _ _ _ hpos)
  have hsetlen : (st.buckets.set bi (⟨old.d + 1, [], old.next⟩ : EH.Bucket)).length
      = st.buckets.length := List.length_set _ _ _
  have hAt_bi :
      ((st.buckets.set bi (⟨old.d + 1, [], old.next⟩ : EH.Bucket))
        ++ [(⟨old.d + 1, [], none⟩ : EH.Bucket)]).getD bi default = ⟨old.d + 1, [], old.next⟩ := by
    rw [ListAux.getD_append_left _ _ _ _ (by rw [hsetlen]; exact hbi_lt)]
    rw [← holdeq]
    exact ListAux.getD_set_self _ _ _ _ hbi_lt
  have hAt_nb :
      ((st.buckets.set bi (⟨old.d + 1, [], old.next⟩ : EH.Bucket))
        ++ [(⟨old.d + 1, [], none⟩ : EH.Bucket)]).getD st.buckets.length default
        = ⟨old.d + 1, [], none⟩ := by
    rw [show st.buckets.length
        = (st.buckets.set bi (⟨old.d + 1, [], old.next⟩ : EH.Bucket)).length from hsetlen.symm]
    exact ListAux.getD_append_len _ _ _
  have hAt_other : ∀ c, c < st.buckets.length → c ≠ bi →
      ((st.buckets.set bi (⟨old.d + 1, [], old.next⟩ : EH.Bucket))
        ++ [(⟨old.d + 1, [], none⟩ : EH.Bucket)]).getD c default = st.buckets.getD c default := by
    intro c hc hne
    rw [ListAux.getD_append_left _ _ _ _ (by rw [hsetlen]; exact hc)]
    exact ListAux.getD_set_ne _ _ _ _ _ (fun he => hne he.symm)
  have hdir_lt : ∀ i, i < st.directory.length →
      st.directory.getD i 0 < st.buckets.length := by
    intro i hi
    exact h2 _ (ListAux.getD_mem _ _ _ hi)
  refine ⟨by simpa using h1, ?_, ?_, ?_⟩
  · intro bj hbj
    rw [List.mem_map] at hbj
    obtain ⟨i, hir, hfi⟩ := hbj
    rw [List.mem_range] at hir
    show bj < ((st.buckets.set bi (⟨old.d + 1, [], old.next⟩ : EH.Bucket))
        ++ [(⟨old.d + 1, [], none⟩ : EH.Bucket)]).length
    rw [List.length_append, hsetlen]
    by_cases hc : st.directory.getD i 0 = bi ∧ i &&& 2 ^ old.d ≠ 0
    · rw [if_pos hc] at hfi
      rw [← hfi]
      exact Nat.lt_succ_self _
    · rw [if_neg hc] at hfi
      rw [← hfi]
      exact Nat.lt_succ_of_lt (hdir_lt i hir)
  · intro bj hbj
    rw [List.mem_map] at hbj
    obtain ⟨i, hir, hfi⟩ := hbj
    rw [List.mem_range] at hir
    by_cases hc : st.directory.getD i 0 = bi ∧ i &&& 2 ^ old.d ≠ 0
    · rw [if_pos hc] at hfi
      rw [← hfi, hAt_nb]
      exact hdlt
    · rw [if_neg hc] at hfi
      by_cases hcb : st.directory.getD i 0 = bi
      · rw [← hfi, hcb, hAt_bi]
        exact hdlt
      · rw [← hfi, hAt_other _ (hdir_lt i hir) hcb]
        exact h3 (st.directory.getD i 0) (ListAux.getD_mem _ _ _ hir)
  · intro i hi j hj heq
    rw [List.length_map, List.length_range] at hi hj
    rw [ListAux.getD_range_map _ _ _ hi, ListAux.getD_range_map _ _ _ hj] at heq
    rw [ListAux.getD_range_map _ _ _ hi]
    have hmod_old : st.directory.getD i 0 = bi → st.directory.getD j 0 = bi →
        i % 2 ^ old.d = j % 2 ^ old.d := by
      intro hib hjb
      have h4ij := h4 i hi j hj (by rw [hib, hjb])
      rw [hib, holdeq] at h4ij
      exact h4ij
    by_cases hci : st.directory.getD i 0 = bi ∧ i &&& 2 ^ old.d ≠ 0
    · rw [if_pos hci] at heq ⊢
      by_cases hcj : st.directory.getD j 0 = bi ∧ j &&& 2 ^ old.d ≠ 0
      · rw [hAt_nb]
        have hlow := hmod_old hci.1 hcj.1
        have hbi1 := (and_pow_ne_zero_iff i old.d).mp hci.2
        have hbj1 := (and_pow_ne_zero_iff j old.d).mp hcj.2
        exact mod_pow_succ_eq i j old.d hlow (by rw [hbi1, hbj1])
      · rw [if_neg hcj] at heq
        have := hdir_lt j hj
        omega
    · rw [if_neg hci] at heq ⊢
      by_cases hcj : st.directory.getD j 0 = bi ∧ j &&& 2 ^ old.d ≠ 0
      · rw [if_pos hcj] at heq
        have := hdir_lt i hi
        omega
      · rw [if_neg hcj] at heq
        by_cases hib : st.directory.getD i 0 = bi
        · have hjb : st.directory.getD j 0 = bi := by rw [← heq, hib]
          rw [hib, hAt_bi]
          have hlow := hmod_old hib hjb
          have hbi0 : i / 2 ^ old.d % 2 = 0 := by
            have := (and_pow_ne_zero_iff i old.d).not.mp (fun hne => hci ⟨hib, hne⟩)
            omega
          have hbj0 : j / 2 ^ old.d % 2 = 0 := by
            have := (and_pow_ne_zero_iff j old.d).not.mp (fun hne => hcj ⟨hjb, hne⟩)
            omega
          exact mod_pow_succ_eq i j old.d hlow (by rw [hbi0, hbj0])
        · rw [hAt_other _ (hdir_lt i hi) hib]
          have h4ij := h4 i hi j hj heq
          exact h4ij

/-- `rehash`'s directory doubling preserves the invariant. -/
theorem inv_rehashCore (st : EHState) (h : Inv st) : Inv (rehashCore st) := by
  obtain ⟨h1, h2, h3, h4⟩ := h
  have hsplit : ∀ i, i < (st.directory ++ st.directory).length →
      (st.directory ++ st.directory).getD i 0 = st.directory.getD (i % 2 ^ st.D) 0 := by
    intro i hi
    rw [List.length_append, h1] at hi
    rcases Nat.lt_or_ge i (2 ^ st.D) with hlt | hge
    · rw [ListAux.getD_append_left _ _ _ _ (by rw [h1]; exact hlt), Nat.mod_eq_of_lt hlt]
    · rw [ListAux.getD_append_ge _ _ _ _ (by rw [h1]; exact hge), h1]
      have h2 : i - 2 ^ st.D < 2 ^ st.D := by omega
      rw [Nat.mod_eq_sub_mod hge, Nat.mod_eq_of_lt h2]
  refine ⟨?_, ?_, ?_, ?_⟩
  · simp only [rehashCore, List.length_append, h1]
    ring
  · intro bi hbi
    simp only [rehashCore] at hbi ⊢
    rcases List.mem_append.mp hbi with hm | hm
    · exact h2 bi hm
    · exact h2 bi hm
  · intro bi hbi
    simp only [rehashCore] at hbi ⊢
    rcases List.mem_append.mp hbi with hm | hm
    · exact Nat.le_succ_of_le (h3 bi hm)
    · exact Nat.le_succ_of_le (h3 bi hm)
  · intro i hi j hj heq
    simp only [rehashCore] at hi hj heq ⊢
    rw [hsplit i hi, hsplit j hj] at heq
    rw [hsplit i hi]
    have himod : i % 2 ^ st.D < st.directory.length := by
      rw [h1]
      exact Nat.mod_lt _ (Nat.pos_pow_of_pos _ (by norm_num))
    have hjmod : j % 2 ^ st.D < st.directory.length := by
      rw [h1]
      exact Nat.mod_lt _ (Nat.pos_pow_of_pos _ (by norm_num))
    have hdepth := h3 (st.directory.getD (i % 2 ^ st.D) 0)
      (ListAux.getD_mem _ _ _ himod)
    have hmods := h4 _ himod _ hjmod heq
    set d := (st.buckets.getD (st.directory.getD (i % 2 ^ st.D) 0) default).d
    have hi2 : i % 2 ^ d = i % 2 ^ st.D % 2 ^ d :=
      (Nat.mod_mod_of_dvd i (pow_dvd_pow 2 hdepth)).symm
    have hj2 : j % 2 ^ d = j % 2 ^ st.D % 2 ^ d :=
      (Nat.mod_mod_of_dvd j (pow_dvd_pow 2 hdepth)).symm
    rw [hi2, hj2, hmods]

/-- Mutual fuel induction: every operation of the extendible hash preserves
the invariant (`split` under the `d < D` guard of its call site). -/
theorem evolve_inv : ∀ fuel : Nat,
    (∀ st k v st', Inv st → insertF fuel st k v = some st' → Inv st') ∧
    (∀ st pos st', Inv st → pos < st.directory.length →
      (st.buckets.getD (st.directory.getD pos 0) default).d < st.D →
      splitF fuel st pos = some st' → Inv st') ∧
    (∀ st l st', Inv st → reinsertList fuel st l = some st' → Inv st') ∧
    (∀ st st', Inv st → rehashF fuel st = some st' → Inv st') ∧
    (∀ st l st', Inv st → rehashLoop fuel st l = some st' → Inv st') := by
  intro fuel
  induction fuel with
  | zero =>
    refine ⟨?_, ?_, ?_, ?_, ?_⟩
    · intro st k v st' _ h
      exact absurd h (by simp [insertF])
    · intro st pos st' _ _ _ h
      exact absurd h (by simp [splitF])
    · intro st l st' _ h
      exact absurd h (by simp [reinsertList])
    · intro st st' _ h
      exact absurd h (by simp [rehashF])
    · intro st l st' _ h
      exact absurd h (by simp [rehashLoop])
  | succ fuel ih =>
    obtain ⟨ihIns, ihSplit, ihRe, ihRh, ihRl⟩ := ih
    refine ⟨?_, ?_, ?_, ?_, ?_⟩
    · intro st k v st' hInv h
      have hposlt : ehHash st k < st.directory.length := by
        rw [hInv.1]
        exact Nat.mod_lt _ (Nat.pos_pow_of_pos _ (by norm_num))
      simp only [insertF] at h
      split at h
      · cases h
        exact inv_setBucket _ _ _ rfl hInv
      · split at h
        · rename_i hc2
          split at h
          · exact absurd h (by simp)
          · rename_i st1 hsp
            exact ihIns _ k v st' (ihSplit st _ st1 hInv hposlt hc2 hsp) h
        · split at h
          · cases h
            exact inv_setBucket _ _ _ rfl hInv
          · split at h
            · cases h
              exact inv_setBucket _ _ _ rfl hInv
            · split at h
              · exact absurd h (by simp)
              · rename_i st1 hrh
                exact ihIns _ k v st' (ihRh st st1 hInv hrh) h
    · intro st pos st' hInv hpos hdlt h
      simp only [splitF] at h
      exact ihRe _ _ st' (splitCore_inv st pos hInv hpos hdlt) h
    · intro st l st' hInv h
      match l with
      | [] =>
        simp only [reinsertList] at h
        cases h
        exact hInv
      | (k, v) :: rest =>
        simp only [reinsertList] at h
        split at h
        · exact absurd h (by simp)
        · rename_i st1 hins
          exact ihRe st1 rest st' (ihIns st k v st1 hInv hins) h
    · intro st st' hInv h
      simp only [rehashF] at h
      exact ihRl _ _ st' (inv_rehashCore st hInv) h
    · intro st l st' hInv h
      match l with
      | [] =>
        simp only [rehashLoop] at h
        cases h
        exact hInv
      | i :: rest =>
        simp only [rehashLoop] at h
        split at h
        · exact ihRl st rest st' hInv h
        · rename_i ov hnx
          split at h
          · exact absurd h (by simp)
          · rename_i st2 hre
            have h1 : Inv (setBucket st (st.directory.getD i 0)
                { st.buckets.getD (st.directory.getD i 0) default with next := none }) :=
              inv_setBucket _ _ _ rfl hInv
            exact ihRl st2 rest st' (ihRe _ ov st2 h1 hre) h

/-- Any completed sequence of inserts and deletes preserves the invariant. -/
theorem runOps_inv : ∀ (ops : List Op) (fuel : Nat) (st0 st' : EHState),
    Inv st0 → runOps fuel st0 ops = some st' → Inv st' := by
  intro ops
  induction ops with
  | nil =>
    intro fuel st0 st' h0 h
    simp only [runOps] at h
    cases h
    exact h0
  | cons op rest ih =>
    intro fuel st0 st' h0 h
    match op with
    | .ins k v =>
      simp only [runOps] at h
      split at h
      · exact absurd h (by simp)
      · rename_i st1 hins
        exact ih fuel st1 st' ((evolve_inv fuel).1 st0 k v st1 h0 hins) h
    | .del k =>
      simp only [runOps] at h
      exact ih fuel _ st' (inv_deleteS st0 k h0) h

/-- The initial state satisfies the invariant. -/
theorem init_inv (fb : Nat) : Inv (EHState.init fb) := by
  refine ⟨rfl, ?_, ?_, ?_⟩
  · intro bi hbi
    simp only [EHState.init] at hbi ⊢
    fin_cases hbi <;> decide
  · intro bi hbi
    simp only [EHState.init] at hbi ⊢
    fin_cases hbi <;> decide
  · intro i hi j hj heq
    simp only [EHState.init] at hi hj heq ⊢
    have hi4 : i < 4 := by simpa using hi
    have hj4 : j < 4 := by simpa using hj
    interval_cases i <;> interval_cases j <;> revert heq <;> decide

end EH

namespace Models

theorem align4_of_mod (o : Nat) (h : o % 4 = 0) : align4 o = o := by
  simp [align4, h]

/-- Under 4-aligned string sizes, the layout fold introduces no padding. -/
theorem foldl_fieldStep_of_aligned :
    ∀ (fields : List Field), (∀ f ∈ fields, f.type = .str → f.size % 4 = 0) →
      ∀ o : Nat, o % 4 = 0 →
        fields.foldl fieldStep o = o + sumFieldSizes fields ∧
          (o + sumFieldSizes fields) % 4 = 0 := by
  intro fields
  induction fields with
  | nil => intro _ o ho; simpa [sumFieldSizes] using ho
  | cons f fs ih =>
    intro h o ho
    have hf : fieldStep o f = o + fieldSize f ∧ (o + fieldSize f) % 4 = 0 := by
      cases hft : f.type with
      | int =>
        constructor
        · simp [fieldStep, fieldSize, hft, align4_of_mod o ho]
        · simp [fieldSize, hft]; omega
      | float =>
        constructor
        · simp [fieldStep, fieldSize, hft, align4_of_mod o ho]
        · simp [fieldSize, hft]; omega
      | str =>
        have hs := h f (by simp) hft
        constructor
        · simp [fieldStep, fieldSize, hft]
        · simp [fieldSize, hft]; omega
    have ihs := ih (fun g hg => h g (List.mem_cons_of_mem f hg)) (o + fieldSize f) hf.2
    constructor
    · rw [List.foldl_cons, hf.1, ihs.1]
      simp [sumFieldSizes]
      ring
    · have h2 := ihs.2
      simp only [sumFieldSizes, List.map_cons, List.sum_cons] at *
      omega

end Models

/-- C4 (counterexample): for the one-field schema `[str 10]` the derived
`record_size` is `struct.calcsize("10si") = 16` — the native-mode layout pads
the trailing `next` int to offset 12 — while the claimed
`sum of field sizes + 4` is `14`. -/
theorem recordSize_neq_sum_str10 :
    Models.calculateRecordSize [⟨"name", .str, 10⟩] ≠
      Models.sumFieldSizes [⟨"name", .str, 10⟩] + 4 := by
  decide

/-- C4 (amended): `record_size` is the native-aligned layout size (each
`int`/`float` field and the trailing `next` link padded to a 4-byte offset);
it equals the sum of the declared field sizes plus 4 exactly when no padding
occurs, in particular whenever every string field's size is a multiple of 4. -/
theorem recordSize_eq_sum_of_aligned (fields : List Models.Field)
    (h : ∀ f ∈ fields, f.type = .str → f.size % 4 = 0) :
    Models.calculateRecordSize fields = Models.sumFieldSizes fields + 4 := by
  have hm := Models.foldl_fieldStep_of_aligned fields h 0 (by decide)
  unfold Models.calculateRecordSize
  rw [hm.1]
  have h4 : (0 + Models.sumFieldSizes fields) % 4 = 0 := hm.2
  rw [Models.align4_of_mod _ (by simpa using h4)]
  omega

/-- C4 witness: the schema `[int "id", str 8 "tag"]` is alignment-free and its
record size is `4 + 8 + 4 = 16`. -/
theorem recordSize_eq_sum_of_aligned_witness :
    Models.calculateRecordSize [⟨"id", .int, 0⟩, ⟨"tag", .str, 8⟩] =
      Models.sumFieldSizes [⟨"id", .int, 0⟩, ⟨"tag", .str, 8⟩] + 4 :=
  recordSize_eq_sum_of_aligned [⟨"id", .int, 0⟩, ⟨"tag", .str, 8⟩] (by decide)

/-- C7: starting from an empty heap, adding 5 records, removing slots 1 and 3,
then adding 2 more reuses slots 3 and 1 in that (LIFO) order, leaves
`file_size = 5`, an empty free list, and every surviving record readable at
its slot. -/
theorem heap_free_list_scenario :
    Heap.scenarioS6 =
      some (⟨[⟨100, 0⟩, ⟨201, 0⟩, ⟨102, 0⟩, ⟨200, 0⟩, ⟨104, 0⟩], -1, 5⟩,
            (3, 1), true, true) ∧
    (Heap.scenarioS6.map (fun out => out.1.fileSize)) = some 5 ∧
    (Heap.scenarioS6.map (fun out => Heap.readRecord out.1 0)) = some (some ⟨100, 0⟩) ∧
    (Heap.scenarioS6.map (fun out => Heap.readRecord out.1 2)) = some (some ⟨102, 0⟩) ∧
    (Heap.scenarioS6.map (fun out => Heap.readRecord out.1 4)) = some (some ⟨104, 0⟩) ∧
    (Heap.scenarioS6.map (fun out => Heap.readRecord out.1 3)) = some (some ⟨200, 0⟩) ∧
    (Heap.scenarioS6.map (fun out => Heap.readRecord out.1 1)) = some (some ⟨201, 0⟩) := by
  decide

/-- C6: starting from the initial state, after every completed sequence of
`insert` and `delete` operations the directory length equals `2^D`, every
referenced bucket's local depth is at most `D`, and any two directory slots
referencing the same bucket agree on their low `d` bits, where `d` is that
bucket's local depth (`EH.Inv` is exactly this, plus the bookkeeping fact
that directory slots reference arena buckets). -/
theorem extendible_hash_invariant (fb fuel : Nat) (ops : List EH.Op)
    (st : EH.EHState) (h : EH.runOps fuel (EH.EHState.init fb) ops = some st) :
    EH.Inv st :=
  EH.runOps_inv ops fuel _ st (EH.init_inv fb) h

/-- C6 witness: a concrete completed run (two inserts and a delete at bucket
size 3), checked against the invariant through the theorem. -/
theorem extendible_hash_invariant_witness :
    (EH.runOps 5 (EH.EHState.init 3)
      [.ins 4 4, .ins 6 6, .del 4]).elim False EH.Inv := by
  cases hrun : EH.runOps 5 (EH.EHState.init 3) [.ins 4 4, .ins 6 6, .del 4] with
  | none => exact absurd hrun (by decide)
  | some st =>
    simpa [hrun] using
      extendible_hash_invariant 3 5 [.ins 4 4, .ins 6 6, .del 4] st hrun

/-- C10: for every non-negative integer key below `2^61 - 1`, `EH_hash(k)`
equals `k mod 2^D` — a pure function of the key and the global depth, so
integer-key bucket placement is reproducible across runs (CPython's `hash` on
such ints is the identity: they are below the hash modulus `2^61 - 1`). -/
theorem eh_hash_deterministic (st : EH.EHState) (k : Nat) (h : k < 2 ^ 61 - 1) :
    EH.ehHash st k = k % 2 ^ st.D := by
  unfold EH.ehHash EH.ehHashD EH.pyHash
  rw [Nat.mod_eq_of_lt h]

/-- C10 witness: key 17 at global depth 2 (the initial state's depth). -/
theorem eh_hash_deterministic_witness :
    17 < 2 ^ 61 - 1 ∧ EH.ehHash (EH.EHState.init 3) 17 = 17 % 2 ^ (EH.EHState.init 3).D :=
  ⟨by norm_num, eh_hash_deterministic (EH.EHState.init 3) 17 (by norm_num)⟩

/-- C8: with base entries for keys `[10, 20, 30, 40, 50]` each at a slot equal
to its key, `insert(20, 999)` stores 999 as an overflow entry
(`get_all_positions(20) = [20, 999]`, base first); a subsequent `delete(20)`
reports success and promotes the overflow entry, so `search(20) = 999`. -/
theorem isam_duplicate_overflow_scenario :
    ISAM.getAllPositions (ISAM.insert ISAM.scenarioS4Base 20 999) 20 = [20, 999] ∧
    (ISAM.delete (ISAM.insert ISAM.scenarioS4Base 20 999) 20).2 = true ∧
    ISAM.search (ISAM.delete (ISAM.insert ISAM.scenarioS4Base 20 999) 20).1 20
      = some 999 := by
  decide

/-- C1 (counterexample): on the ISAM index, inserting key 20 at slot 20 and
then inserting key 20 at slot 999 does not overwrite: `search(20)` still
returns the original base slot 20, not 999. -/
theorem upsert_roundtrip_counterexample :
    ISAM.search (ISAM.insert (ISAM.insert ISAM.ISAMIndex.empty 20 20) 20 999) 20
      ≠ some 999 := by
  decide

namespace ListAux

theorem length_insertIdx {α} (l : List α) (n : Nat) (a : α) (h : n ≤ l.length) :
    (l.insertIdx n a).length = l.length + 1 := by
  induction l generalizing n with
  | nil =>
    have h0 : n = 0 := by simpa using h
    subst h0
    simp
  | cons x xs ih =>
    cases n with
    | zero => simp [List.insertIdx_zero]
    | succ m =>
      rw [List.insertIdx_succ_cons]
      simp only [List.length_cons]
      rw [ih m (by simpa using h)]

theorem getD_insertIdx_lt {α} (l : List α) (n j : Nat) (a d : α)
    (hn : n ≤ l.length) (hj : j < n) :
    (l.insertIdx n a).getD j d = l.getD j d := by
  induction l generalizing n j with
  | nil =>
    simp only [List.length_nil, Nat.le_zero] at hn
    omega
  | cons x xs ih =>
    cases n with
    | zero => omega
    | succ m =>
      rw [List.insertIdx_succ_cons]
      cases j with
      | zero => simp
      | succ i =>
        simp only [List.getD_cons_succ]
        exact ih m i (by simpa using hn) (by omega)

theorem getD_insertIdx_self {α} (l : List α) (n : Nat) (a d : α)
    (hn : n ≤ l.length) :
    (l.insertIdx n a).getD n d = a := by
  induction l generalizing n with
  | nil =>
    have h0 : n = 0 := by simpa using hn
    subst h0
    simp
  | cons x xs ih =>
    cases n with
    | zero => simp
    | succ m =>
      rw [List.insertIdx_succ_cons]
      simp only [List.getD_cons_succ]
      exact ih m (by simpa using hn)

theorem getD_insertIdx_gt {α} (l : List α) (n j : Nat) (a d : α)
    (hn : n ≤ l.length) (hj : n < j) :
    (l.insertIdx n a).getD j d = l.getD (j - 1) d := by
  induction l generalizing n j with
  | nil =>
    have h0 : n = 0 := by simpa using hn
    subst h0
    cases j with
    | zero => omega
    | succ i => simp
  | cons x xs ih =>
    cases n with
    | zero =>
      rw [List.insertIdx_zero]
      cases j with
      | zero => omega
      | succ i => simp
    | succ m =>
      rw [List.insertIdx_succ_cons]
      cases j with
      | zero => omega
      | succ i =>
        simp only [List.getD_cons_succ]
        rw [ih m i (by simpa using hn) (by omega)]
        cases i with
        | zero => omega
        | succ i2 => simp [Nat.succ_sub_one]

end ListAux

namespace ISAM

/-- The `insert_pos` loop: with enough fuel and sorted keys it returns the
leftmost index whose key is `≥ key`, within the probed window. -/
theorem insertPosGo_spec (l : List (Int × Int)) (k : Int) :
    ∀ (fuel lo hi : Nat), KeysLE l → hi ≤ l.length → lo ≤ hi → hi - lo ≤ fuel →
      (∀ j, j < lo → (l.getD j default).1 < k) →
      (∀ j, hi ≤ j → j < l.length → k ≤ (l.getD j default).1) →
      lo ≤ insertPosGo l k fuel lo hi ∧ insertPosGo l k fuel lo hi ≤ hi ∧
      (∀ j, j < insertPosGo l k fuel lo hi → (l.getD j default).1 < k) ∧
      (∀ j, insertPosGo l k fuel lo hi ≤ j → j < l.length →
        k ≤ (l.getD j default).1) := by
  intro fuel
  induction fuel with
  | zero =>
    intro lo hi hs hhil hlohi hfuel hlow hhigh
    have hEq : lo = hi := by omega
    simp only [insertPosGo]
    exact ⟨le_refl _, by omega, hlow, fun j hj hjl => hhigh j (by omega) hjl⟩
  | succ fuel ih =>
    intro lo hi hs hhil hlohi hfuel hlow hhigh
    simp only [insertPosGo]
    by_cases hlt : lo < hi
    · rw [if_pos hlt]
      by_cases hmid : (l.getD ((lo + hi) / 2) default).1 < k
      · rw [if_pos hmid]
        refine (ih ((lo + hi) / 2 + 1) hi hs hhil (by omega) (by omega) ?_ hhigh).imp
          (fun h1 => by omega) (fun h => h)
        intro j hj
        rcases Nat.lt_or_ge j lo with hjlo | hjlo
        · exact hlow j hjlo
        · exact lt_of_le_of_lt (hs j ((lo + hi) / 2) (by omega) (by omega)) hmid
      · rw [if_neg hmid]
        refine (ih lo ((lo + hi) / 2) hs (by omega) (by omega) (by omega) hlow ?_).imp
          (fun h => h) (fun h => h.imp (fun h2 => by omega) (fun h => h))
        intro j hj hjl
        exact le_trans (not_lt.mp hmid) (hs ((lo + hi) / 2) j hj hjl)
    · rw [if_neg hlt]
      exact ⟨le_refl _, by omega, hlow, fun j hj hjl => hhigh j (by omega) hjl⟩

/-- `insert_pos` on a sorted leaf array returns the leftmost index with key
`≥ key`. -/
theorem insertPos_spec (l : List (Int × Int)) (k : Int) (hs : KeysLE l) :
    insertPos l k ≤ l.length ∧
    (∀ j, j < insertPos l k → (l.getD j default).1 < k) ∧
    (∀ j, insertPos l k ≤ j → j < l.length → k ≤ (l.getD j default).1) := by
  have h := insertPosGo_spec l k l.length 0 l.length hs (le_refl _) (Nat.zero_le _)
    (by omega) (fun j hj => absurd hj (Nat.not_lt_zero j)) (fun j hj hjl => by omega)
  exact ⟨h.2.1, h.2.2.1, h.2.2.2⟩

/-- On a sorted leaf array where `k` occurs at exactly one index, `search`
returns that entry's position. -/
theorem search_finds (st : ISAMIndex) (k v : Int) (hs : KeysLE st.l3) (p : Nat)
    (hp : p < st.l3.length) (hpe : st.l3.getD p default = (k, v))
    (huniq : ∀ j, j < st.l3.length → (st.l3.getD j default).1 = k → j = p) :
    search st k = some v := by
  have hne : st.l3 ≠ [] := by
    intro h0
    rw [h0] at hp
    simp at hp
  obtain ⟨hle, hlow, hhigh⟩ := insertPos_spec st.l3 k hs
  have hip : insertPos st.l3 k = p := by
    by_cases hplt : p < insertPos st.l3 k
    · have := hlow p hplt
      rw [hpe] at this
      exact absurd this (lt_irrefl k)
    · by_cases hpgt : insertPos st.l3 k < p
      · have h1 := hhigh (insertPos st.l3 k) (le_refl _) (by omega)
        have h2 := hs (insertPos st.l3 k) p (by omega) hp
        rw [hpe] at h2
        have h3 : (st.l3.getD (insertPos st.l3 k) default).1 = k := le_antisymm h2 h1
        have := huniq (insertPos st.l3 k) (by omega) h3
        omega
      · omega
  unfold search
  rw [if_neg hne]
  have hcond : insertPos st.l3 k < st.l3.length ∧
      (st.l3.getD (insertPos st.l3 k) default).1 = k := by
    rw [hip, hpe]
    exact ⟨hp, rfl⟩
  rw [if_pos hcond, hip, hpe]

/-- `insert_pos` stays within the probed window with no sortedness
assumption. -/
theorem insertPosGo_bounds (l : List (Int × Int)) (k : Int) :
    ∀ (fuel lo hi : Nat), lo ≤ hi →
      lo ≤ insertPosGo l k fuel lo hi ∧ insertPosGo l k fuel lo hi ≤ hi := by
  intro fuel
  induction fuel with
  | zero =>
    intro lo hi h
    simp only [insertPosGo]
    omega
  | succ fuel ih =>
    intro lo hi h
    simp only [insertPosGo]
    by_cases hlt : lo < hi
    · rw [if_pos hlt]
      by_cases hmid : (l.getD ((lo + hi) / 2) default).1 < k
      · rw [if_pos hmid]
        have := ih ((lo + hi) / 2 + 1) hi (by omega)
        omega
      · rw [if_neg hmid]
        have := ih lo ((lo + hi) / 2) (by omega)
        omega
    · rw [if_neg hlt]
      omega

/-- `insert_pos` never exceeds the leaf-array length. -/
theorem insertPos_le (l : List (Int × Int)) (k : Int) : insertPos l k ≤ l.length :=
  (insertPosGo_bounds l k l.length 0 l.length (Nat.zero_le _)).2

/-- `recontruir2y1` only rewrites the summary levels. -/
theorem rebuild21_l3 (st : ISAMIndex) : (rebuild21 st).l3 = st.l3 := by
  unfold rebuild21
  split <;> rfl

/-- A fresh-key `insert` lands in the leaf array at the binary-search
position; `l2`/`l1`/`overflow` bookkeeping does not touch `l3`. -/
theorem insert_fresh_l3 (st : ISAMIndex) (k v : Int)
    (hfresh : ∀ p ∈ st.l3, p.1 ≠ k) :
    (insert st k v).l3 = st.l3.insertIdx (insertPos st.l3 k) (k, v) := by
  simp only [insert]
  by_cases h0 : st.l3 = []
  · rw [if_pos h0, h0, rebuild21_l3]
    simp [insertPos, insertPosGo]
  · rw [if_neg h0]
    have hc1 : ¬(insertPos st.l3 k < st.l3.length ∧
        (st.l3.getD (insertPos st.l3 k) default).1 = k) := by
      rintro ⟨hlt, he⟩
      exact hfresh _ (ListAux.getD_mem _ _ _ hlt) he
    have hc2 : ¬(0 < insertPos st.l3 k ∧
        (st.l3.getD (insertPos st.l3 k - 1) default).1 = k) := by
      rintro ⟨hpos, he⟩
      have hlt : insertPos st.l3 k - 1 < st.l3.length := by
        have := insertPos_le st.l3 k
        omega
      exact hfresh _ (ListAux.getD_mem _ _ _ hlt) he
    rw [if_neg hc1, if_neg hc2, rebuild21_l3]
    split <;> rfl

end ISAM

namespace ISAM

/-- Fresh-key round trip on a sorted leaf array: after `insert(k, v)` with
`k` not present, `search(k)` returns `v`. -/
theorem upsert_fresh (st : ISAMIndex) (k v : Int) (hs : KeysLE st.l3)
    (hfresh : ∀ p ∈ st.l3, p.1 ≠ k) :
    search (insert st k v) k = some v := by
  obtain ⟨hle, hlow, hhigh⟩ := insertPos_spec st.l3 k hs
  have hl3 : (insert st k v).l3 = st.l3.insertIdx (insertPos st.l3 k) (k, v) :=
    insert_fresh_l3 st k v hfresh
  have hlen : (st.l3.insertIdx (insertPos st.l3 k) (k, v)).length
      = st.l3.length + 1 := ListAux.length_insertIdx _ _ _ hle
  have hAt : (st.l3.insertIdx (insertPos st.l3 k) (k, v)).getD
      (insertPos st.l3 k) default = (k, v) :=
    ListAux.getD_insertIdx_self _ _ _ _ hle
  have hs2 : KeysLE (st.l3.insertIdx (insertPos st.l3 k) (k, v)) := by
    intro a b hab hblen
    rw [hlen] at hblen
    by_cases hb : b < insertPos st.l3 k
    · rw [ListAux.getD_insertIdx_lt _ _ _ _ _ hle hb,
        ListAux.getD_insertIdx_lt _ _ _ _ _ hle (by omega)]
      exact hs a b hab (by omega)
    · by_cases hbi : b = insertPos st.l3 k
      · subst hbi
        rw [hAt]
        by_cases ha2 : a < insertPos st.l3 k
        · rw [ListAux.getD_insertIdx_lt _ _ _ _ _ hle ha2]
          exact le_of_lt (hlow a ha2)
        · have : a = insertPos st.l3 k := by omega
          subst this
          rw [hAt]
      · have hbgt : insertPos st.l3 k < b := by omega
        rw [ListAux.getD_insertIdx_gt _ _ _ _ _ hle hbgt]
        have hb1len : b - 1 < st.l3.length := by omega
        have hkb : k ≤ (st.l3.getD (b - 1) default).1 := hhigh (b - 1) (by omega) hb1len
        by_cases ha2 : a < insertPos st.l3 k
        · rw [ListAux.getD_insertIdx_lt _ _ _ _ _ hle ha2]
          exact le_trans (le_of_lt (hlow a ha2)) hkb
        · by_cases hai : a = insertPos st.l3 k
          · subst hai
            rw [hAt]
            exact hkb
          · have hagt : insertPos st.l3 k < a := by omega
            rw [ListAux.getD_insertIdx_gt _ _ _ _ _ hle hagt]
            exact hs (a - 1) (b - 1) (by omega) hb1len
  refine search_finds (insert st k v) k v ?_ (insertPos st.l3 k) ?_ ?_ ?_
  · rw [hl3]
    exact hs2
  · rw [hl3, hlen]
    omega
  · rw [hl3]
    exact hAt
  · intro j hj hkey
    rw [hl3] at hj hkey
    rw [hlen] at hj
    by_cases hjlt : j < insertPos st.l3 k
    · rw [ListAux.getD_insertIdx_lt _ _ _ _ _ hle hjlt] at hkey
      exact absurd hkey (ne_of_lt (hlow j hjlt))
    · by_cases hji : j = insertPos st.l3 k
      · exact hji
      · have hjgt : insertPos st.l3 k < j := by omega
        rw [ListAux.getD_insertIdx_gt _ _ _ _ _ hle hjgt] at hkey
        have hj1 : j - 1 < st.l3.length := by omega
        exact absurd hkey (hfresh _ (ListAux.getD_mem _ _ _ hj1))

/-- Deleting an absent key returns `False` and leaves the whole state
unchanged. -/
theorem delete_absent (st : ISAMIndex) (k : Int)
    (hfresh : ∀ p ∈ st.l3, p.1 ≠ k) :
    delete st k = (st, false) := by
  simp only [delete]
  by_cases h0 : st.l3 = []
  · rw [if_pos h0]
  · rw [if_neg h0]
    have hc1 : ¬(insertPos st.l3 k < st.l3.length ∧
        (st.l3.getD (insertPos st.l3 k) default).1 = k) := by
      rintro ⟨hlt, he⟩
      exact hfresh _ (ListAux.getD_mem _ _ _ hlt) he
    have hc2 : ¬(0 < insertPos st.l3 k ∧
        (st.l3.getD (insertPos st.l3 k - 1) default).1 = k) := by
      rintro ⟨hpos, he⟩
      have hlt : insertPos st.l3 k - 1 < st.l3.length := by
        have := insertPos_le st.l3 k
        omega
      exact hfresh _ (ListAux.getD_mem _ _ _ hlt) he
    rw [if_neg hc1, if_neg hc2]

end ISAM

namespace ListAux

theorem mem_set {α} (l : List α) (i : Nat) (a x : α) (h : x ∈ l.set i a) :
    x = a ∨ x ∈ l := by
  induction l generalizing i with
  | nil => simp at h
  | cons y ys ih =>
    cases i with
    | zero =>
      rcases List.mem_cons.mp h with h1 | h1
      · exact Or.inl h1
      · exact Or.inr (List.mem_cons_of_mem y h1)
    | succ n =>
      rcases List.mem_cons.mp h with h1 | h1
      · exact Or.inr (by rw [h1]; exact List.mem_cons_self y ys)
      · rcases ih n h1 with h2 | h2
        · exact Or.inl h2
        · exact Or.inr (List.mem_cons_of_mem y h2)

end ListAux

namespace EH

theorem findPair_eq_none (l : List (Nat × Nat)) (k : Nat)
    (h : ∀ p ∈ l, p.1 ≠ k) : findPair l k = none := by
  induction l with
  | nil => rfl
  | cons p rest ih =>
    unfold findPair
    rw [if_neg (h p (List.mem_cons_self p rest))]
    exact ih (fun q hq => h q (List.mem_cons_of_mem p hq))

theorem findPair_append_fresh (l : List (Nat × Nat)) (k v : Nat)
    (h : ∀ p ∈ l, p.1 ≠ k) : findPair (l ++ [(k, v)]) k = some v := by
  induction l with
  | nil => simp [findPair]
  | cons p rest ih =>
    rw [List.cons_append]
    unfold findPair
    rw [if_neg (h p (List.mem_cons_self p rest))]
    exact ih (fun q hq => h q (List.mem_cons_of_mem p hq))

theorem removeFirst_eq_none (l : List (Nat × Nat)) (k : Nat)
    (h : ∀ p ∈ l, p.1 ≠ k) : removeFirst l k = none := by
  induction l with
  | nil => rfl
  | cons p rest ih =>
    unfold removeFirst
    rw [if_neg (h p (List.mem_cons_self p rest))]
    rw [ih (fun q hq => h q (List.mem_cons_of_mem p hq))]
    rfl

/-- A bucket looked up through `getD` is either an arena member or the
(empty, chainless) default. -/
theorem getD_bucket_cases (bs : List Bucket) (bi : Nat) :
    bs.getD bi default ∈ bs ∨ bs.getD bi default = (default : Bucket) := by
  by_cases h : bi < bs.length
  · exact Or.inl (ListAux.getD_mem bs bi default h)
  · right
    unfold List.getD
    rw [List.get?_eq_none.mpr (by omega)]
    rfl

/-- The records and chain of any `getD`-fetched bucket are `k`-free in a
`keyFree` state. -/
theorem keyFree_bucket (st : EHState) (k : Nat) (hfree : keyFree st k) (bi : Nat) :
    (∀ p ∈ (st.buckets.getD bi default).records, p.1 ≠ k) ∧
    (∀ ov, (st.buckets.getD bi default).next = some ov → ∀ p ∈ ov, p.1 ≠ k) := by
  rcases getD_bucket_cases st.buckets bi with h | h
  · exact hfree _ h
  · rw [h]
    refine ⟨by simp [default], ?_⟩
    intro ov hov
    simp [default] at hov

/-- `setBucket` with a `k`-free bucket preserves `keyFree`. -/
theorem keyFree_setBucket (st : EHState) (k bi : Nat) (b : Bucket)
    (hfree : keyFree st k) (hrec : ∀ p ∈ b.records, p.1 ≠ k)
    (hch : ∀ ov, b.next = some ov → ∀ p ∈ ov, p.1 ≠ k) :
    keyFree (setBucket st bi b) k := by
  intro c hc
  rcases ListAux.mem_set _ _ _ _ hc with h | h
  · rw [h]
    exact ⟨hrec, hch⟩
  · exact hfree c h

end EH

namespace EH

/-- `splitCore` preserves `k`-freeness, and the records it hands back for
reinsertion are `k`-free. -/
theorem keyFree_splitCore (st : EHState) (pos k : Nat) (hfree : keyFree st k) :
    keyFree (splitCore st pos).1 k ∧ ∀ p ∈ (splitCore st pos).2, p.1 ≠ k := by
  rw [splitCore_eq]
  dsimp only
  constructor
  · intro c hc
    rcases List.mem_append.mp hc with h | h
    · rcases ListAux.mem_set _ _ _ _ h with h1 | h1
      · rw [h1]
        exact ⟨by simp, (keyFree_bucket st k hfree _).2⟩
      · exact hfree c h1
    · have hc1 : c = ⟨(st.buckets.getD (st.directory.getD pos 0) default).d + 1,
          [], none⟩ := by simpa using h
      rw [hc1]
      refine ⟨by simp, ?_⟩
      intro ov hov
      simp at hov
  · exact (keyFree_bucket st k hfree _).1

/-- Mutual fuel induction: the operations never manufacture an entry for an
absent key `k` (insertion of a different key, splits, rehashes). -/
theorem evolve_keyFree (k : Nat) : ∀ fuel : Nat,
    (∀ st k' v' st', k' ≠ k → keyFree st k → insertF fuel st k' v' = some st' →
      keyFree st' k) ∧
    (∀ st pos st', keyFree st k → splitF fuel st pos = some st' → keyFree st' k) ∧
    (∀ st l st', (∀ p ∈ l, p.1 ≠ k) → keyFree st k →
      reinsertList fuel st l = some st' → keyFree st' k) ∧
    (∀ st st', keyFree st k → rehashF fuel st = some st' → keyFree st' k) ∧
    (∀ st l st', keyFree st k → rehashLoop fuel st l = some st' → keyFree st' k) := by
  intro fuel
  induction fuel with
  | zero =>
    refine ⟨?_, ?_, ?_, ?_, ?_⟩
    · intro st k' v' st' _ _ h
      exact absurd h (by simp [insertF])
    · intro st pos st' _ h
      exact absurd h (by simp [splitF])
    · intro st l st' _ _ h
      exact absurd h (by simp [reinsertList])
    · intro st st' _ h
      exact absurd h (by simp [rehashF])
    · intro st l st' _ h
      exact absurd h (by simp [rehashLoop])
  | succ fuel ih =>
    obtain ⟨ihIns, ihSplit, ihRe, ihRh, ihRl⟩ := ih
    refine ⟨?_, ?_, ?_, ?_, ?_⟩
    · intro st k' v' st' hkk hfree h
      simp only [insertF] at h
      split at h
      · cases h
        refine keyFree_setBucket st k _ _ hfree ?_ ?_
        · intro p hp
          rcases List.mem_append.mp hp with h1 | h1
          · exact (keyFree_bucket st k hfree _).1 p h1
          · have : p = (k', v') := by simpa using h1
            rw [this]
            exact hkk
        · exact (keyFree_bucket st k hfree _).2
      · split at h
        · split at h
          · exact absurd h (by simp)
          · rename_i st1 hsp
            exact ihIns st1 k' v' st' hkk (ihSplit st _ st1 hfree hsp) h
        · split at h
          · cases h
            refine keyFree_setBucket st k _ _ hfree
              ((keyFree_bucket st k hfree _).1) ?_
            intro ov hov p hp
            have hov1 : [(k', v')] = ov := by simpa using hov
            rw [← hov1] at hp
            have : p = (k', v') := by simpa using hp
            rw [this]
            exact hkk
          · rename_i ov hnx
            split at h
            · cases h
              refine keyFree_setBucket st k _ _ hfree
                ((keyFree_bucket st k hfree _).1) ?_
              intro ov2 hov2 p hp
              have hov1 : ov ++ [(k', v')] = ov2 := by simpa using hov2
              rw [← hov1] at hp
              rcases List.mem_append.mp hp with h1 | h1
              · exact (keyFree_bucket st k hfree _).2 ov hnx p h1
              · have : p = (k', v') := by simpa using h1
                rw [this]
                exact hkk
            · split at h
              · exact absurd h (by simp)
              · rename_i st1 hrh
                exact ihIns st1 k' v' st' hkk (ihRh st st1 hfree hrh) h
    · intro st pos st' hfree h
      simp only [splitF] at h
      obtain ⟨h1, h2⟩ := keyFree_splitCore st pos k hfree
      exact ihRe _ _ st' h2 h1 h
    · intro st l st' hl hfree h
      match l with
      | [] =>
        simp only [reinsertList] at h
        cases h
        exact hfree
      | (k1, v1) :: rest =>
        simp only [reinsertList] at h
        split at h
        · exact absurd h (by simp)
        · rename_i st1 hins
          have hk1 : k1 ≠ k := hl (k1, v1) (List.mem_cons_self _ _)
          exact ihRe st1 rest st' (fun p hp => hl p (List.mem_cons_of_mem _ hp))
            (ihIns st k1 v1 st1 hk1 hfree hins) h
    · intro st st' hfree h
      simp only [rehashF] at h
      exact ihRl (rehashCore st) _ st' (fun c hc => hfree c hc) h
    · intro st l st' hfree h
      match l with
      | [] =>
        simp only [rehashLoop] at h
        cases h
        exact hfree
      | i :: rest =>
        simp only [rehashLoop] at h
        split at h
        · exact ihRl st rest st' hfree h
        · rename_i ov hnx
          split at h
          · exact absurd h (by simp)
          · rename_i st2 hre
            have hovfree : ∀ p ∈ ov, p.1 ≠ k :=
              (keyFree_bucket st k hfree _).2 ov hnx
            have h1 : keyFree (setBucket st (st.directory.getD i 0)
                { st.buckets.getD (st.directory.getD i 0) default with next := none }) k := by
              refine keyFree_setBucket st k _ _ hfree
                ((keyFree_bucket st k hfree _).1) ?_
              intro ov2 hov2
              simp at hov2
            exact ihRl st2 rest st' (ihRe _ ov st2 hovfree h1 hre) h

/-- Fresh-key round trip: a completed `insert(k, v)` with `k` absent from a
well-formed state makes `search(k)` return `v`. -/
theorem insertF_search : ∀ (fuel : Nat) (st : EHState) (k v : Nat) (st' : EHState),
    Inv st → keyFree st k → insertF fuel st k v = some st' →
    searchS st' k = some v := by
  intro fuel
  induction fuel with
  | zero =>
    intro st k v st' _ _ h
    exact absurd h (by simp [insertF])
  | succ fuel ih =>
    intro st k v st' hInv hfree h
    have hposlt : ehHash st k < st.directory.length := by
      rw [hInv.1]
      exact Nat.mod_lt _ (Nat.pos_pow_of_pos _ (by norm_num))
    have hbilt : st.directory.getD (ehHash st k) 0 < st.buckets.length :=
      hInv.2.1 _ (ListAux.getD_mem _ _ _ hposlt)
    simp only [insertF] at h
    split at h
    · cases h
      have hrecfree : ∀ p ∈ (st.buckets.getD
          (st.directory.getD (pyHash k % 2 ^ st.D) 0) default).records, p.1 ≠ k :=
        (keyFree_bucket st k hfree (st.directory.getD (ehHash st k) 0)).1
      simp only [searchS, bucketAt, setBucket, ehHash, ehHashD]
      rw [ListAux.getD_set_self st.buckets
        (st.directory.getD (pyHash k % 2 ^ st.D) 0) _ default hbilt]
      dsimp only
      rw [findPair_append_fresh _ k v hrecfree]
    · split at h
      · rename_i hc2
        split at h
        · exact absurd h (by simp)
        · rename_i st1 hsp
          have hInv1 : Inv st1 := (evolve_inv fuel).2.1 st _ st1 hInv hposlt hc2 hsp
          have hfree1 : keyFree st1 k := (evolve_keyFree k fuel).2.1 st _ st1 hfree hsp
          exact ih st1 k v st' hInv1 hfree1 h
      · split at h
        · cases h
          have hrecfree : ∀ p ∈ (st.buckets.getD
              (st.directory.getD (pyHash k % 2 ^ st.D) 0) default).records, p.1 ≠ k :=
            (keyFree_bucket st k hfree (st.directory.getD (ehHash st k) 0)).1
          simp only [searchS, bucketAt, setBucket, ehHash, ehHashD]
          rw [ListAux.getD_set_self st.buckets
            (st.directory.getD (pyHash k % 2 ^ st.D) 0) _ default hbilt]
          dsimp only
          rw [findPair_eq_none _ _ hrecfree]
          simp [findPair]
        · rename_i ov hnx
          split at h
          · cases h
            have hrecfree : ∀ p ∈ (st.buckets.getD
                (st.directory.getD (pyHash k % 2 ^ st.D) 0) default).records, p.1 ≠ k :=
              (keyFree_bucket st k hfree (st.directory.getD (ehHash st k) 0)).1
            have hovfree := (keyFree_bucket st k hfree (st.directory.getD (ehHash st k) 0)).2 ov hnx
            simp only [searchS, bucketAt, setBucket, ehHash, ehHashD]
            rw [ListAux.getD_set_self st.buckets
              (st.directory.getD (pyHash k % 2 ^ st.D) 0) _ default hbilt]
            dsimp only
            rw [findPair_eq_none _ _ hrecfree]
            rw [findPair_append_fresh _ k v hovfree]
          · split at h
            · exact absurd h (by simp)
            · rename_i st1 hrh
              have hInv1 : Inv st1 := (evolve_inv fuel).2.2.2.1 st st1 hInv hrh
              have hfree1 : keyFree st1 k := (evolve_keyFree k fuel).2.2.2.1 st st1 hfree hrh
              exact ih st1 k v st' hInv1 hfree1 h

/-- Deleting an absent key reports the not-found message and leaves the state
unchanged. -/
theorem deleteS_absent (st : EHState) (k : Nat) (hfree : keyFree st k) :
    deleteS st k = (st, .notFound) := by
  simp only [deleteS]
  have h1 := (keyFree_bucket st k hfree (st.directory.getD (ehHash st k) 0)).1
  have h2 := (keyFree_bucket st k hfree (st.directory.getD (ehHash st k) 0)).2
  rw [removeFirst_eq_none _ _ h1]
  cases hnx : (st.buckets.getD (st.directory.getD (ehHash st k) 0) default).next with
  | none => rfl
  | some ov =>
    dsimp only
    rw [removeFirst_eq_none _ _ (h2 ov hnx)]

end EH

/-- C5: order-3 B+ tree with keys `[10, 20, 5, 6, 12, 30, 7, 17]` (slot =
key): `range_search(6, 17)` returns exactly
`[(6,6), (7,7), (10,10), (12,12), (17,17)]`; after `delete(10)`,
`search(10) = None` and `range_search(6, 17)` no longer contains
`(10, 10)`. -/
theorem bplus_scenario_s1 :
    BP.rangeSearchTree BP.scenarioS1 6 17
      = [(6, 6), (7, 7), (10, 10), (12, 12), (17, 17)] ∧
    BP.searchTree (BP.deleteTree BP.scenarioS1 10) 10 = none ∧
    (10, 10) ∉ BP.rangeSearchTree (BP.deleteTree BP.scenarioS1 10) 6 17 := by
  refine ⟨by decide, by decide, by decide⟩

namespace BP

theorem bsize_pos (t : BNode) : 1 ≤ bsize t := by
  match t with
  | .mk l ks vs cs =>
    simp only [bsize]
    omega

theorem bsize_mem (cs : List BNode) (c : BNode) (h : c ∈ cs) :
    bsize c ≤ bsizeList cs := by
  induction cs with
  | nil => simp at h
  | cons x xs ih =>
    simp only [bsizeList]
    rcases List.mem_cons.mp h with h1 | h1
    · rw [h1]
      omega
    · have := ih h1
      omega

theorem countGe_le (keys : List Int) (key : Int) : countGe keys key ≤ keys.length := by
  induction keys with
  | nil => simp [countGe]
  | cons k1 ks ih =>
    simp only [countGe]
    split
    · simpa using ih
    · simp

theorem occList_mem (order : Nat) (cs : List BNode) (c : BNode)
    (hocc : occList order cs = true) (h : c ∈ cs) :
    occOK order c = true ∧ minKeys order ≤ c.keys.length := by
  induction cs with
  | nil => simp at h
  | cons x xs ih =>
    simp only [occList, Bool.and_eq_true, decide_eq_true_eq] at hocc
    rcases List.mem_cons.mp h with h1 | h1
    · rw [h1]
      exact ⟨hocc.1.2, hocc.1.1⟩
    · exact ih hocc.2 h1

theorem keyAbsentList_mem (k : Int) (cs : List BNode) (c : BNode)
    (habs : keyAbsentList k cs = true) (h : c ∈ cs) : keyAbsent k c = true := by
  induction cs with
  | nil => simp at h
  | cons x xs ih =>
    simp only [keyAbsentList, Bool.and_eq_true] at habs
    rcases List.mem_cons.mp h with h1 | h1
    · rw [h1]
      exact habs.1
    · exact ih habs.2 h1

theorem deleteInChild_unchanged (order : Nat) (k : Int) :
    ∀ (cs : List BNode) (i : Nat), (∀ c ∈ cs, deleteRec order c k = c) →
      deleteInChild order cs i k = cs := by
  intro cs
  induction cs with
  | nil =>
    intro i _
    cases i <;> rfl
  | cons x xs ih =>
    intro i h
    cases i with
    | zero =>
      simp only [deleteInChild]
      rw [h x (List.mem_cons_self x xs)]
    | succ m =>
      simp only [deleteInChild]
      rw [ih m (fun c hc => h c (List.mem_cons_of_mem x hc))]

/-- With every node properly occupied and `k` absent, `_delete_recursive`
returns the tree unchanged (in particular it never rebalances). -/
theorem deleteRec_absent (order : Nat) (k : Int) :
    ∀ (n : Nat) (t : BNode), bsize t ≤ n → occOK order t = true →
      keyAbsent k t = true → deleteRec order t k = t := by
  intro n
  induction n with
  | zero =>
    intro t hsz
    have := bsize_pos t
    omega
  | succ n ih =>
    intro t hsz hocc habs
    match t with
    | .mk true keys vals children =>
      simp only [keyAbsent, Bool.not_eq_true'] at habs
      have hnotin : k ∉ keys := by
        simp only [List.elem_eq_mem, decide_eq_false_iff_not] at habs
        exact habs
      simp only [occOK, List.isEmpty_iff] at hocc
      simp only [deleteRec]
      rw [if_neg hnotin, hocc]
    | .mk false keys vals children =>
      simp only [occOK, Bool.and_eq_true, beq_iff_eq, List.isEmpty_iff] at hocc
      obtain ⟨⟨hlen, hvals⟩, hoccl⟩ := hocc
      simp only [keyAbsent, Bool.and_eq_true] at habs
      have habsl := habs.2
      have hszl : bsizeList children ≤ n := by
        simp only [bsize] at hsz
        omega
      have hkids : ∀ c ∈ children, deleteRec order c k = c := by
        intro c hc
        exact ih c (le_trans (bsize_mem children c hc) hszl)
          (occList_mem order children c hoccl hc).1 (keyAbsentList_mem k children c habsl hc)
      simp only [deleteRec]
      rw [deleteInChild_unchanged order k children (countGe keys k) hkids]
      have hilt : countGe keys k < children.length := by
        have := countGe_le keys k
        omega
      have hmin := (occList_mem order children _ hoccl
        (ListAux.getD_mem children (countGe keys k) default hilt)).2
      rw [if_neg (by omega)]
      rw [hvals]

/-- `delete` of an absent key leaves the tree unchanged (the root-descent
step does not fire for a leaf root or an internal root that still has
keys). -/
theorem deleteTree_absent (t : BPlusTree) (k : Int)
    (hocc : occOK t.order t.root = true) (habs : keyAbsent k t.root = true)
    (hroot : t.root.isLeaf = true ∨ t.root.keys ≠ []) :
    deleteTree t k = t := by
  have hrec : deleteRec t.order t.root k = t.root :=
    deleteRec_absent t.order k (bsize t.root) t.root (le_refl _) hocc habs
  obtain ⟨root, order⟩ := t
  simp only [deleteTree]
  simp only at hrec
  rw [hrec]
  match root, hroot with
  | .mk true ks vs cs, _ => rfl
  | .mk false (k1 :: ks) vs cs, _ => rfl
  | .mk false [] vs cs, hroot =>
    simp only [BNode.isLeaf, BNode.keys] at hroot
    rcases hroot with h | h
    · exact absurd h (by simp)
    · exact absurd rfl h

end BP


namespace ListAux

theorem getD_eq_get {α} (l : List α) (i : Nat) (d : α) (h : i < l.length) :
    l.getD i d = l.get ⟨i, h⟩ := by
  induction l generalizing i with
  | nil => simp at h
  | cons x xs ih =>
    cases i with
    | zero => simp
    | succ n =>
      simp only [List.getD_cons_succ, List.get_cons_succ]
      exact ih n (by simpa using h)

theorem get?_eq_some_getD {α} (l : List α) (i : Nat) (d : α) (h : i < l.length) :
    l.get? i = some (l.getD i d) := by
  induction l generalizing i with
  | nil => simp at h
  | cons x xs ih =>
    cases i with
    | zero => simp
    | succ n =>
      simp only [List.get?_cons_succ, List.getD_cons_succ]
      exact ih n (by simpa using h)

end ListAux

namespace Seq

theorem insertStable_mem (r : SRec) (l : List SRec) (x : SRec) :
    x ∈ insertStable r l ↔ x = r ∨ x ∈ l := by
  induction l with
  | nil => simp [insertStable]
  | cons y ys ih =>
    unfold insertStable
    split
    · rw [List.mem_cons, ih, List.mem_cons]
      tauto
    · rw [List.mem_cons]

theorem insertStable_sorted (r : SRec) (l : List SRec) (hs : SortedK l) :
    SortedK (insertStable r l) := by
  induction l with
  | nil => simp [insertStable, SortedK]
  | cons y ys ih =>
    rw [SortedK, List.pairwise_cons] at hs
    unfold insertStable
    split
    · rename_i hlt
      rw [SortedK, List.pairwise_cons]
      refine ⟨?_, ih hs.2⟩
      intro x hx
      rcases (insertStable_mem r ys x).mp hx with h1 | h1
      · rw [h1]
        exact le_of_lt hlt
      · exact hs.1 x h1
    · rename_i hge
      rw [SortedK, List.pairwise_cons]
      refine ⟨?_, ?_⟩
      · intro x hx
        rcases List.mem_cons.mp hx with h1 | h1
        · rw [h1]
          exact le_of_not_lt hge
        · exact le_trans (le_of_not_lt hge) (hs.1 x h1)
      · rw [List.pairwise_cons]
        exact hs

theorem sortByKey_sorted (l : List SRec) : SortedK (sortByKey l) := by
  induction l with
  | nil => simp [sortByKey, SortedK]
  | cons x xs ih => exact insertStable_sorted x (sortByKey xs) ih

theorem sortByKey_mem (l : List SRec) (x : SRec) : x ∈ sortByKey l ↔ x ∈ l := by
  induction l with
  | nil => simp [sortByKey]
  | cons y ys ih =>
    unfold sortByKey
    rw [insertStable_mem, ih, List.mem_cons]

theorem rmergeF_mem : ∀ (fuel : Nat) (main aux : List SRec) (x : SRec),
    x ∈ rmergeF fuel main aux → x ∈ main ∨ x ∈ aux := by
  intro fuel
  induction fuel with
  | zero =>
    intro main aux x h
    simp [rmergeF] at h
  | succ fuel ih =>
    intro main aux x h
    cases main with
    | nil =>
      simp only [rmergeF] at h
      exact Or.inr h
    | cons m ms =>
      cases aux with
      | nil =>
        simp only [rmergeF] at h
        split at h
        · rcases ih ms [] x h with h1 | h1
          · exact Or.inl (List.mem_cons_of_mem m h1)
          · simp at h1
        · rcases List.mem_cons.mp h with h1 | h1
          · exact Or.inl (h1 ▸ List.mem_cons_self m ms)
          · rcases ih ms [] x h1 with h2 | h2
            · exact Or.inl (List.mem_cons_of_mem m h2)
            · simp at h2
      | cons a as1 =>
        simp only [rmergeF] at h
        split at h
        · rcases ih ms (a :: as1) x h with h1 | h1
          · exact Or.inl (List.mem_cons_of_mem m h1)
          · exact Or.inr h1
        · split at h
          · rcases List.mem_cons.mp h with h1 | h1
            · exact Or.inl (h1 ▸ List.mem_cons_self m ms)
            · rcases ih ms (a :: as1) x h1 with h2 | h2
              · exact Or.inl (List.mem_cons_of_mem m h2)
              · exact Or.inr h2
          · rcases List.mem_cons.mp h with h1 | h1
            · exact Or.inr (h1 ▸ List.mem_cons_self a as1)
            · rcases ih (m :: ms) as1 x h1 with h2 | h2
              · exact Or.inl h2
              · exact Or.inr (List.mem_cons_of_mem a h2)

theorem rmergeF_aux_mem : ∀ (fuel : Nat) (main aux : List SRec) (x : SRec),
    main.length + aux.length < fuel → x ∈ aux → x ∈ rmergeF fuel main aux := by
  intro fuel
  induction fuel with
  | zero =>
    intro main aux x h
    omega
  | succ fuel ih =>
    intro main aux x hlen hx
    cases main with
    | nil =>
      simp only [rmergeF]
      exact hx
    | cons m ms =>
      cases aux with
      | nil => simp at hx
      | cons a as1 =>
        simp only [rmergeF]
        split
        · exact ih ms (a :: as1) x (by simp at hlen ⊢; omega) hx
        · split
          · exact List.mem_cons_of_mem m
              (ih ms (a :: as1) x (by simp at hlen ⊢; omega) hx)
          · rcases List.mem_cons.mp hx with h1 | h1
            · rw [h1]
              exact List.mem_cons_self a _
            · exact List.mem_cons_of_mem a
                (ih (m :: ms) as1 x (by simp at hlen ⊢; omega) h1)

theorem rmergeF_live : ∀ (fuel : Nat) (main aux : List SRec),
    (∀ a ∈ aux, a.next = 0) → ∀ x ∈ rmergeF fuel main aux, x.next = 0 := by
  intro fuel
  induction fuel with
  | zero =>
    intro main aux _ x h
    simp [rmergeF] at h
  | succ fuel ih =>
    intro main aux haux x h
    cases main with
    | nil =>
      simp only [rmergeF] at h
      exact haux x h
    | cons m ms =>
      cases aux with
      | nil =>
        simp only [rmergeF] at h
        split at h
        · exact ih ms [] (by simp) x h
        · rename_i hlive
          rcases List.mem_cons.mp h with h1 | h1
          · rw [h1]
            simpa using hlive
          · exact ih ms [] (by simp) x h1
      | cons a as1 =>
        simp only [rmergeF] at h
        split at h
        · exact ih ms (a :: as1) haux x h
        · rename_i hlive
          split at h
          · rcases List.mem_cons.mp h with h1 | h1
            · rw [h1]
              simpa using hlive
            · exact ih ms (a :: as1) haux x h1
          · rcases List.mem_cons.mp h with h1 | h1
            · rw [h1]
              exact haux a (List.mem_cons_self a as1)
            · exact ih (m :: ms) as1
                (fun y hy => haux y (List.mem_cons_of_mem a hy)) x h1

theorem rmergeF_sorted : ∀ (fuel : Nat) (main aux : List SRec),
    SortedK main → SortedK aux → SortedK (rmergeF fuel main aux) := by
  intro fuel
  induction fuel with
  | zero =>
    intro main aux _ _
    simp [rmergeF, SortedK]
  | succ fuel ih =>
    intro main aux hm ha
    cases main with
    | nil =>
      simp only [rmergeF]
      exact ha
    | cons m ms =>
      rw [SortedK, List.pairwise_cons] at hm
      cases aux with
      | nil =>
        simp only [rmergeF]
        split
        · exact ih ms [] hm.2 (by simp [SortedK])
        · rw [SortedK, List.pairwise_cons]
          refine ⟨?_, ih ms [] hm.2 (by simp [SortedK])⟩
          intro x hx
          rcases rmergeF_mem fuel ms [] x hx with h1 | h1
          · exact hm.1 x h1
          · simp at h1
      | cons a as1 =>
        rw [SortedK, List.pairwise_cons] at ha
        simp only [rmergeF]
        split
        · exact ih ms (a :: as1) hm.2
            (by rw [SortedK, List.pairwise_cons]; exact ha)
        · split
          · rename_i hle
            rw [SortedK, List.pairwise_cons]
            refine ⟨?_, ih ms (a :: as1) hm.2
              (by rw [SortedK, List.pairwise_cons]; exact ha)⟩
            intro x hx
            rcases rmergeF_mem fuel ms (a :: as1) x hx with h1 | h1
            · exact hm.1 x h1
            · rcases List.mem_cons.mp h1 with h2 | h2
              · rw [h2]
                exact hle
              · exact le_trans hle (ha.1 x h2)
          · rename_i hgt
            have halt : a.key < m.key := by omega
            rw [SortedK, List.pairwise_cons]
            refine ⟨?_, ih (m :: ms) as1
              (by rw [SortedK, List.pairwise_cons]; exact hm) ha.2⟩
            intro x hx
            rcases rmergeF_mem fuel (m :: ms) as1 x hx with h1 | h1
            · rcases List.mem_cons.mp h1 with h2 | h2
              · rw [h2]
                exact le_of_lt halt
              · exact le_trans (le_of_lt halt) (hm.1 x h2)
            · exact ha.1 x h1

end Seq

namespace Seq

theorem sorted_get?_mono (l : List SRec) (hs : SortedK l) (i j : Nat) (hij : i ≤ j)
    (x y : SRec) (hx : l.get? i = some x) (hy : l.get? j = some y) :
    x.key ≤ y.key := by
  rcases Nat.eq_or_lt_of_le hij with h | h
  · subst h
    rw [hx] at hy
    cases hy
    exact le_refl _
  · rcases List.get?_eq_some.mp hx with ⟨hi, hgx⟩
    rcases List.get?_eq_some.mp hy with ⟨hj, hgy⟩
    rw [SortedK] at hs
    have hp := List.pairwise_iff_get.mp hs ⟨i, hi⟩ ⟨j, hj⟩ h
    rw [hgx, hgy] at hp
    exact hp

theorem bsearchGo_absent (main : List SRec) (key : Int)
    (hfree : ∀ x ∈ main, x.key ≠ key) :
    ∀ (fuel : Nat) (low high : Int), bsearchGo main key fuel low high = none := by
  intro fuel
  induction fuel with
  | zero =>
    intro low high
    rfl
  | succ fuel ih =>
    intro low high
    simp only [bsearchGo]
    split
    · split
      · rfl
      · rename_i r hget
        have hr : r ∈ main := by
          rcases List.get?_eq_some.mp hget with ⟨hlt, hg⟩
          rw [← hg]
          exact List.get_mem main _ _
        rw [if_neg (hfree r hr)]
        split
        · exact ih _ _
        · exact ih _ _
    · rfl

end Seq

namespace Seq

theorem bsearchGo_finds (main : List SRec) (key : Int) (r : SRec)
    (hs : SortedK main) (p : Nat) (hp : main.get? p = some r)
    (hkey : r.key = key) (hlive : r.next = 0)
    (huniq : ∀ x ∈ main, x.key = key → x = r) :
    ∀ (fuel : Nat) (low high : Int), 0 ≤ low → low ≤ (p : Int) → (p : Int) ≤ high →
      high < (main.length : Int) → (high + 1 - low).toNat < fuel →
      bsearchGo main key fuel low high = some r := by
  have hplen : p < main.length := (List.get?_eq_some.mp hp).1
  intro fuel
  induction fuel with
  | zero =>
    intro low high h0 h1 h2 h3 h4
    omega
  | succ fuel ih =>
    intro low high h0 h1 h2 h3 h4
    have hlh : low ≤ high := le_trans h1 h2
    have hmidnn : (0 : Int) ≤ (low + high) / 2 := by omega
    have hmidn : ((((low + high) / 2).toNat : Int)) = (low + high) / 2 :=
      Int.toNat_of_nonneg hmidnn
    have hmidlen : ((low + high) / 2).toNat < main.length := by omega
    simp only [bsearchGo]
    rw [if_pos hlh]
    rw [ListAux.get?_eq_some_getD main _ default hmidlen]
    dsimp only
    have hrmmem : main.getD ((low + high) / 2).toNat default ∈ main :=
      ListAux.getD_mem main _ default hmidlen
    have hrmget : main.get? ((low + high) / 2).toNat =
        some (main.getD ((low + high) / 2).toNat default) :=
      ListAux.get?_eq_some_getD main _ default hmidlen
    by_cases hkeq : (main.getD ((low + high) / 2).toNat default).key = key
    · rw [if_pos hkeq]
      have heq := huniq _ hrmmem hkeq
      rw [heq, if_pos hlive]
    · rw [if_neg hkeq]
      by_cases hklt : (main.getD ((low + high) / 2).toNat default).key < key
      · rw [if_pos hklt]
        have hmp : ((low + high) / 2).toNat < p := by
          by_contra hh
          push_neg at hh
          have := sorted_get?_mono main hs p ((low + high) / 2).toNat hh
            r _ hp hrmget
          omega
        exact ih (↑((low + high) / 2).toNat + 1) high (by omega) (by omega) h2 h3
          (by omega)
      · rw [if_neg hklt]
        have hmp : p < ((low + high) / 2).toNat := by
          by_contra hh
          push_neg at hh
          have := sorted_get?_mono main hs ((low + high) / 2).toNat p hh
            _ r hrmget hp
          omega
        exact ih low (↑((low + high) / 2).toNat - 1) h0 h1 (by omega) (by omega)
          (by omega)

end Seq

namespace Seq

theorem linearAux_absent (aux : List SRec) (key : Int)
    (hfree : ∀ x ∈ aux, x.key ≠ key) : linearAux aux key = none := by
  induction aux with
  | nil => rfl
  | cons y ys ih =>
    simp only [linearAux]
    rw [if_neg (hfree y (List.mem_cons_self y ys))]
    exact ih (fun x hx => hfree x (List.mem_cons_of_mem y hx))

theorem linearAux_append (aux : List SRec) (r : SRec) (key : Int)
    (hfree : ∀ x ∈ aux, x.key ≠ key) (hk : r.key = key) (hlive : r.next = 0) :
    linearAux (aux ++ [r]) key = some r := by
  induction aux with
  | nil =>
    simp only [List.nil_append, linearAux]
    rw [if_pos hk, if_pos hlive]
  | cons y ys ih =>
    simp only [List.cons_append, linearAux]
    rw [if_neg (hfree y (List.mem_cons_self y ys))]
    exact ih (fun x hx => hfree x (List.mem_cons_of_mem y hx))

theorem removeGo_absent (main : List SRec) (key : Int)
    (hfree : ∀ x ∈ main, x.key ≠ key) :
    ∀ (fuel : Nat) (low high : Int), removeGo key fuel main low high = (main, none) := by
  intro fuel
  induction fuel with
  | zero =>
    intro low high
    rfl
  | succ fuel ih =>
    intro low high
    simp only [removeGo]
    split
    · split
      · rfl
      · rename_i r hget
        have hr : r ∈ main := by
          rcases List.get?_eq_some.mp hget with ⟨hlt, hg⟩
          rw [← hg]
          exact List.get_mem main _ _
        rw [if_neg (hfree r hr)]
        split
        · exact ih _ _
        · exact ih _ _
    · rfl

theorem removeAuxGo_absent (aux : List SRec) (key : Int)
    (hfree : ∀ x ∈ aux, x.key ≠ key) : removeAuxGo aux key = (aux, false) := by
  induction aux with
  | nil => rfl
  | cons y ys ih =>
    simp only [removeAuxGo]
    rw [if_neg (hfree y (List.mem_cons_self y ys)),
      ih (fun x hx => hfree x (List.mem_cons_of_mem y hx))]

theorem remove_absent (st : SequentialIndex) (key : Int)
    (hm : ∀ x ∈ st.main, x.key ≠ key) (ha : ∀ x ∈ st.aux, x.key ≠ key) :
    remove st key = (st, false) := by
  simp only [remove]
  rw [removeGo_absent st.main key hm, removeAuxGo_absent st.aux key ha]

theorem seq_insert_fresh_search (st : SequentialIndex) (r : SRec)
    (hs : SortedK st.main)
    (hm : ∀ x ∈ st.main, x.key ≠ r.key) (ha : ∀ x ∈ st.aux, x.key ≠ r.key)
    (hlive : r.next = 0) :
    search (insert st r) r.key = some r.vals := by
  rw [insert, add]
  dsimp only
  split
  · set aux1 := st.aux ++ [r] with haux1
    set auxSorted := sortByKey (aux1.filter (fun x => x.next == 0)) with hsorted
    have hsub : ∀ x ∈ auxSorted, x ∈ aux1 := by
      intro x hx
      have := (sortByKey_mem _ x).mp hx
      exact (List.mem_filter.mp this).1
    have hrmem : r ∈ auxSorted := by
      rw [hsorted, sortByKey_mem, List.mem_filter]
      refine ⟨List.mem_append_right st.aux (List.mem_cons_self r []), ?_⟩
      simp [hlive]
    set merged := rmergeF (st.main.length + auxSorted.length + 1) st.main auxSorted
      with hmerged
    have hmergedmem : r ∈ merged := by
      rw [hmerged]
      exact rmergeF_aux_mem _ st.main auxSorted r (by omega) hrmem
    have hmsorted : SortedK merged :=
      rmergeF_sorted _ st.main auxSorted hs (sortByKey_sorted _)
    have huniq : ∀ x ∈ merged, x.key = r.key → x = r := by
      intro x hx hxk
      rcases rmergeF_mem _ st.main auxSorted x hx with h1 | h1
      · exact absurd hxk (hm x h1)
      · rcases List.mem_append.mp (hsub x h1) with h2 | h2
        · exact absurd hxk (ha x h2)
        · simpa using h2
    rcases List.mem_iff_get?.mp hmergedmem with ⟨p, hp⟩
    have hplen : p < merged.length := (List.get?_eq_some.mp hp).1
    have hb : bsearchMain merged r.key = some r := by
      rw [bsearchMain]
      exact bsearchGo_finds merged r.key r hmsorted p hp rfl hlive huniq
        (merged.length + 1) 0 ((merged.length : Int) - 1)
        (by omega) (by omega) (by omega) (by omega) (by omega)
    show search (rebuild ⟨st.main, st.aux ++ [r], st.auxCount + 1⟩) r.key = some r.vals
    rw [search, searchRecord, rebuild]
    dsimp only
    rw [← haux1, ← hsorted, ← hmerged, hb]
    rfl
  · show search ⟨st.main, st.aux ++ [r], st.auxCount + 1⟩ r.key = some r.vals
    rw [search, searchRecord]
    dsimp only
    rw [bsearchMain, bsearchGo_absent st.main r.key hm,
      linearAux_append st.aux r r.key ha rfl hlive]
    rfl

end Seq

/-- C3 (counterexample): adding five records that all carry key `1` (live,
distinct value slots) from the empty sequential index reaches the threshold
`K = 5` and triggers a rebuild, after which the aux file is empty and the
counter is `0` — a rebuild did complete — yet the main file holds five
records all sharing key `1`.  The rebuilt main file is therefore not
strictly key-sorted: two records may share a key, refuting that part of the
claim. -/
theorem seq_rebuild_duplicate_keys :
    (((List.range 5).foldl
        (fun st i => Seq.add st ⟨1, i, 0⟩) Seq.SequentialIndex.empty).aux = [] ∧
      ((List.range 5).foldl
        (fun st i => Seq.add st ⟨1, i, 0⟩) Seq.SequentialIndex.empty).auxCount = 0) ∧
    (((List.range 5).foldl
        (fun st i => Seq.add st ⟨1, i, 0⟩) Seq.SequentialIndex.empty).main.map
      Seq.SRec.key) = [1, 1, 1, 1, 1] := by
  decide

/-- C3 (amended): after `_rebuild` completes — however it was triggered —
the main file's records are non-strictly key-sorted (records sharing a key
may coexist, main-file records preceding aux records of the same key),
every record in it has `next = 0`, and the aux file is empty with the
counter reset to `0`; this assumes the main file was key-sorted before the
rebuild, which every rebuild from the empty index preserves. -/
theorem seq_rebuild_invariant (st : Seq.SequentialIndex)
    (hs : Seq.SortedK st.main) :
    Seq.SortedK (Seq.rebuild st).main ∧
    (∀ r ∈ (Seq.rebuild st).main, r.next = 0) ∧
    (Seq.rebuild st).aux = [] ∧ (Seq.rebuild st).auxCount = 0 := by
  refine ⟨?_, ?_, rfl, rfl⟩
  · exact Seq.rmergeF_sorted _ st.main _ hs (Seq.sortByKey_sorted _)
  · intro r hr
    refine Seq.rmergeF_live _ st.main _ ?_ r hr
    intro a hamem
    have := (Seq.sortByKey_mem _ a).mp hamem
    have := (List.mem_filter.mp this).2
    simpa using this

/-- Witness for C3: a concrete index with sorted two-record main file and a
two-record aux file (one live, one tombstoned) satisfies the rebuild
invariant. -/
theorem seq_rebuild_invariant_witness :
    Seq.SortedK (Seq.rebuild ⟨[⟨1, 10, 0⟩, ⟨3, 30, 0⟩],
        [⟨2, 20, 0⟩, ⟨5, 50, -1⟩], 2⟩).main ∧
    (∀ r ∈ (Seq.rebuild ⟨[⟨1, 10, 0⟩, ⟨3, 30, 0⟩],
        [⟨2, 20, 0⟩, ⟨5, 50, -1⟩], 2⟩).main, r.next = 0) ∧
    (Seq.rebuild ⟨[⟨1, 10, 0⟩, ⟨3, 30, 0⟩],
        [⟨2, 20, 0⟩, ⟨5, 50, -1⟩], 2⟩).aux = [] ∧
    (Seq.rebuild ⟨[⟨1, 10, 0⟩, ⟨3, 30, 0⟩],
        [⟨2, 20, 0⟩, ⟨5, 50, -1⟩], 2⟩).auxCount = 0 :=
  seq_rebuild_invariant ⟨[⟨1, 10, 0⟩, ⟨3, 30, 0⟩],
    [⟨2, 20, 0⟩, ⟨5, 50, -1⟩], 2⟩ (by decide)

namespace RT

mutual

theorem updateBBox_ok : ∀ n : RTNode, bboxOKN (updateBBox n) = true
  | .leaf _ _ => rfl
  | .node b cs => by
    simp only [updateBBox, bboxOKN]
    rw [updateBBoxList_ok cs]
    simp

theorem updateBBoxList_ok : ∀ cs : List RTNode, bboxOKL (updateBBoxList cs) = true
  | [] => rfl
  | c :: rest => by
    simp only [updateBBoxList, bboxOKL]
    rw [updateBBox_ok c, updateBBoxList_ok rest]
    rfl

end

end RT

/-- C2 (counterexample): inserting the twelve points `(id, id, 0)` for
`id ∈ {0, …, 10}` and then `(100, 100, 0)` builds a depth-two tree whose
final insert lands in the rightmost leaf without splitting; only that
leaf's box is refreshed, so the internal nodes above it keep boxes that no
longer equal the union of their children's boxes — the invariant does not
hold after every public insert. -/
theorem rtree_insert_stale_bbox :
    RT.rtScenario.map (fun t => RT.bboxOKN t.root) = some false := rfl

/-- C2 (amended): `update_bbox` establishes the bounding-box invariant on
the entire subtree it is invoked on — afterwards every internal node in
that subtree has bbox equal to the union of its children's bboxes.  An
insert invokes it on the modified leaf and, when splits occur, on the split
halves and the parent (or a fresh root), so the invariant holds for the
whole tree only when that refresh reaches the root; untouched ancestors'
boxes may go stale. -/
theorem rtree_update_bbox_establishes :
    ∀ n : RT.RTNode, RT.bboxOKN (RT.updateBBox n) = true :=
  RT.updateBBox_ok

/-- C9 (counterexample, R-tree): in the twelve-point scenario the payloads
are `0, …, 10` and `100` (the unrestricted search lists them all), so key
`999` is absent; yet `delete(999)` changes observable state: the search for
the far point's box returns `[]` before the delete and `[100]` after it,
because `_delete_recursive` calls `update_bbox` on every internal node it
visits, refreshing the stale boxes the last insert left behind. -/
theorem rtree_delete_absent_changes_search :
    RT.rtScenario.map (fun t => RT.searchT t ⟨-1000, -1000, 1000, 1000⟩) =
      some [0, 1, 2, 3, 4, 5, 6, 7, 8, 9, 10, 100] ∧
    RT.rtScenario.map (fun t => RT.searchT t RT.rtQuery) = some [] ∧
    RT.rtScenarioDel.map (fun t => RT.searchT t RT.rtQuery) = some [100] :=
  ⟨rfl, rfl, rfl⟩

/-- C9 (amended): for the ISAM, extendible-hash, and sequential-file
indexes, deleting an absent key returns the not-found result and leaves the
state — hence every later search and range search — unchanged.  The B+
tree's delete returns nothing; an absent-key delete leaves the tree
unchanged whenever every non-root node keeps the occupancy minimum
`(order + 1) // 2`, but internal splits can hand a new node a single key,
and on such reachable trees the unconditional underflow check rebalances
even though nothing was removed: in the modeled run (keys 1..10 at order 3,
delete of the absent 100) the tree is restructured — the root's key list
changes — while the leaf sequence, every search, and the range search
results are preserved.  The R-tree is the exception: its delete of an
absent key refreshes every internal bounding box, which can change later
search results when boxes were stale. -/
theorem delete_absent_unchanged :
    (∀ (st : ISAM.ISAMIndex) (k : Int), (∀ p ∈ st.l3, p.1 ≠ k) →
      ISAM.delete st k = (st, false)) ∧
    (∀ (st : EH.EHState) (k : Nat), EH.keyFree st k →
      EH.deleteS st k = (st, EH.DelResult.notFound)) ∧
    (∀ (t : BP.BPlusTree) (k : Int), BP.occOK t.order t.root = true →
      BP.keyAbsent k t.root = true →
      (t.root.isLeaf = true ∨ t.root.keys ≠ []) →
      BP.deleteTree t k = t) ∧
    (∀ (st : Seq.SequentialIndex) (k : Int), (∀ x ∈ st.main, x.key ≠ k) →
      (∀ x ∈ st.aux, x.key ≠ k) → Seq.remove st k = (st, false)) ∧
    (BP.occOK 3 BP.scenarioT10.root = false ∧
      BP.keyAbsent 100 BP.scenarioT10.root = true ∧
      (BP.deleteTree BP.scenarioT10 100).root.keys ≠ BP.scenarioT10.root.keys ∧
      BP.leavesInOrder (BP.deleteTree BP.scenarioT10 100).root
        = BP.leavesInOrder BP.scenarioT10.root ∧
      (∀ q : Int, q ∈ ([1, 2, 3, 4, 5, 6, 7, 8, 9, 10, 100] : List Int) →
        BP.searchTree (BP.deleteTree BP.scenarioT10 100) q
          = BP.searchTree BP.scenarioT10 q) ∧
      BP.rangeSearchTree (BP.deleteTree BP.scenarioT10 100) 0 200
        = BP.rangeSearchTree BP.scenarioT10 0 200) :=
  ⟨ISAM.delete_absent, EH.deleteS_absent, BP.deleteTree_absent,
   Seq.remove_absent, by decide⟩

/-- Witness for C9: concrete absent-key deletes across the four indexes —
the S4 ISAM layout with key `7`, the initial hash state with key `3`, the
S1 B+ tree with key `8`, a one-record-per-file sequential index with key
`7` — and, on the underfull order-3 tree, the preserved search for key `5`
across the rebalancing absent-key delete. -/
theorem delete_absent_unchanged_witness :
    ISAM.delete ISAM.scenarioS4Base 7 = (ISAM.scenarioS4Base, false) ∧
    EH.deleteS (EH.EHState.init 2) 3 = (EH.EHState.init 2, EH.DelResult.notFound) ∧
    BP.deleteTree BP.scenarioS1 8 = BP.scenarioS1 ∧
    Seq.remove ⟨[⟨1, 10, 0⟩], [⟨2, 20, 0⟩], 1⟩ 7 =
      (⟨[⟨1, 10, 0⟩], [⟨2, 20, 0⟩], 1⟩, false) ∧
    BP.searchTree (BP.deleteTree BP.scenarioT10 100) 5
      = BP.searchTree BP.scenarioT10 5 :=
  ⟨delete_absent_unchanged.1 ISAM.scenarioS4Base 7 (by decide),
   delete_absent_unchanged.2.1 (EH.EHState.init 2) 3 (by decide),
   delete_absent_unchanged.2.2.1 BP.scenarioS1 8 (by decide) (by decide)
     (Or.inr (by decide)),
   delete_absent_unchanged.2.2.2.1 ⟨[⟨1, 10, 0⟩], [⟨2, 20, 0⟩], 1⟩ 7
     (by decide) (by decide),
   delete_absent_unchanged.2.2.2.2.2.2.2.2.1 5 (by decide)⟩

namespace ListAux

theorem getD_take {α} (l : List α) (m j : Nat) (d : α) (h : j < m) :
    (l.take m).getD j d = l.getD j d := by
  induction l generalizing m j with
  | nil => simp
  | cons x xs ih =>
    cases m with
    | zero => omega
    | succ m1 =>
      cases j with
      | zero => simp
      | succ j1 =>
        simp only [List.take_succ_cons, List.getD_cons_succ]
        exact ih m1 j1 (by omega)

theorem getD_drop {α} (l : List α) (m j : Nat) (d : α) :
    (l.drop m).getD j d = l.getD (m + j) d := by
  induction l generalizing m with
  | nil => simp
  | cons x xs ih =>
    cases m with
    | zero => simp
    | succ m1 =>
      simp only [List.drop_succ_cons]
      rw [ih m1]
      simp only [Nat.succ_add, List.getD_cons_succ]

end ListAux

namespace BP

theorem chainLT_tail (k1 : Int) (ks : List Int) (h : chainLT (k1 :: ks) = true) :
    chainLT ks = true := by
  match ks with
  | [] => rfl
  | k2 :: ks1 =>
    simp only [chainLT, Bool.and_eq_true] at h
    exact h.2

theorem chainLT_head_lt (k1 : Int) (ks : List Int)
    (h : chainLT (k1 :: ks) = true) :
    ∀ m : Nat, m < ks.length → k1 < ks.getD m 0 := by
  induction ks generalizing k1 with
  | nil => simp
  | cons k2 ks1 ih =>
    intro m hm
    simp only [chainLT, Bool.and_eq_true, decide_eq_true_eq] at h
    cases m with
    | zero => exact h.1
    | succ m1 =>
      simp only [List.getD_cons_succ]
      exact lt_trans h.1 (ih k2 h.2 m1 (by simpa using hm))

theorem chainLT_getD_lt (ks : List Int) (h : chainLT ks = true)
    (i j : Nat) (hij : i < j) (hj : j < ks.length) :
    ks.getD i 0 < ks.getD j 0 := by
  induction ks generalizing i j with
  | nil => simp at hj
  | cons k1 ks1 ih =>
    cases i with
    | zero =>
      cases j with
      | zero => omega
      | succ j1 =>
        simpa using chainLT_head_lt k1 ks1 h j1 (by simpa using hj)
    | succ i1 =>
      cases j with
      | zero => omega
      | succ j1 =>
        simp only [List.getD_cons_succ]
        exact ih (chainLT_tail _ _ h) i1 j1 (by omega) (by simpa using hj)

theorem chainLT_head_le_mem (k1 : Int) (ks : List Int)
    (h : chainLT (k1 :: ks) = true) : ∀ x ∈ k1 :: ks, k1 ≤ x := by
  intro x hx
  rcases List.mem_cons.mp hx with h1 | h1
  · rw [h1]
  · rcases List.mem_iff_get?.mp h1 with ⟨m, hm⟩
    have hlen : m < ks.length := (List.get?_eq_some.mp hm).1
    have := chainLT_head_lt k1 ks h m hlen
    rw [ListAux.get?_eq_some_getD ks m 0 hlen] at hm
    cases hm
    exact le_of_lt this

theorem chainLT_take (ks : List Int) (m : Nat) (h : chainLT ks = true) :
    chainLT (ks.take m) = true := by
  induction ks generalizing m with
  | nil => simp [chainLT]
  | cons k1 ks1 ih =>
    cases m with
    | zero => rfl
    | succ m1 =>
      match ks1 with
      | [] => simp [chainLT]
      | k2 :: ks2 =>
        cases m1 with
        | zero => rfl
        | succ m2 =>
          have h1 : k1 < k2 := by
            simpa using chainLT_head_lt k1 (k2 :: ks2) h 0 (by simp)
          simp only [List.take_succ_cons, chainLT, Bool.and_eq_true, decide_eq_true_eq]
          refine ⟨h1, ?_⟩
          simpa using ih (m2 + 1) (chainLT_tail _ _ h)

theorem chainLT_drop (ks : List Int) (m : Nat) (h : chainLT ks = true) :
    chainLT (ks.drop m) = true := by
  induction ks generalizing m with
  | nil => simp [chainLT]
  | cons k1 ks1 ih =>
    cases m with
    | zero => exact h
    | succ m1 => exact ih m1 (chainLT_tail _ _ h)

theorem chainLT_take_lt (ks : List Int) (m : Nat) (h : chainLT ks = true)
    (hm : m < ks.length) : ∀ x ∈ ks.take m, x < ks.getD m 0 := by
  induction ks generalizing m with
  | nil => simp
  | cons k1 ks1 ih =>
    cases m with
    | zero => simp
    | succ m1 =>
      intro x hx
      simp only [List.take_succ_cons, List.mem_cons] at hx
      simp only [List.getD_cons_succ]
      rcases hx with h1 | h1
      · rw [h1]
        exact chainLT_head_lt k1 ks1 h m1 (by simpa using hm)
      · exact ih m1 (chainLT_tail _ _ h) (by simpa using hm) x h1

theorem chainLT_drop_le (ks : List Int) (m : Nat) (h : chainLT ks = true) :
    ∀ x ∈ ks.drop m, ks.getD m 0 ≤ x := by
  induction ks generalizing m with
  | nil => simp
  | cons k1 ks1 ih =>
    cases m with
    | zero => exact chainLT_head_le_mem k1 ks1 h
    | succ m1 => exact ih m1 (chainLT_tail _ _ h)

theorem countGe_le_length (ks : List Int) (k : Int) : countGe ks k ≤ ks.length := by
  induction ks with
  | nil => simp [countGe]
  | cons k1 ks1 ih =>
    simp only [countGe]
    split
    · simpa using ih
    · simp

theorem countGe_le_of_lt (ks : List Int) (k : Int) (m : Nat)
    (h : chainLT ks = true) (hm : m < ks.length) (hk : k < ks.getD m 0) :
    countGe ks k ≤ m := by
  induction ks generalizing m with
  | nil => simp [countGe]
  | cons k1 ks1 ih =>
    simp only [countGe]
    split
    · rename_i hge
      cases m with
      | zero =>
        simp only [List.getD_cons_zero] at hk
        omega
      | succ m1 =>
        simp only [List.getD_cons_succ] at hk
        have := ih m1 (chainLT_tail _ _ h) (by simpa using hm) hk
        omega
    · omega

theorem countGe_succ_le (ks : List Int) (k : Int) (m : Nat)
    (h : chainLT ks = true) (hm : m < ks.length) (hk : ks.getD m 0 ≤ k) :
    m + 1 ≤ countGe ks k := by
  induction ks generalizing m with
  | nil => simp at hm
  | cons k1 ks1 ih =>
    simp only [countGe]
    cases m with
    | zero =>
      simp only [List.getD_cons_zero] at hk
      rw [if_pos hk]
      omega
    | succ m1 =>
      simp only [List.getD_cons_succ] at hk
      have hlt : m1 < ks1.length := by simpa using hm
      have hk1 : k1 ≤ k :=
        le_trans (le_of_lt (chainLT_head_lt k1 ks1 h m1 hlt)) hk
      rw [if_pos hk1]
      have := ih m1 (chainLT_tail _ _ h) hlt hk
      omega

theorem countGe_take_eq (ks : List Int) (k : Int) (m : Nat)
    (h : countGe ks k ≤ m) : countGe (ks.take m) k = countGe ks k := by
  induction ks generalizing m with
  | nil => simp
  | cons k1 ks1 ih =>
    by_cases hq : k ≥ k1
    · cases m with
      | zero =>
        simp only [countGe, if_pos hq] at h
        omega
      | succ m1 =>
        simp only [countGe, if_pos hq] at h
        simp only [List.take_succ_cons, countGe, if_pos hq]
        rw [ih m1 (by omega)]
    · cases m with
      | zero => simp [countGe, hq]
      | succ m1 => simp [List.take_succ_cons, countGe, hq]

theorem countGe_drop_eq (ks : List Int) (k : Int) :
    ∀ j : Nat, j ≤ countGe ks k → countGe (ks.drop j) k = countGe ks k - j := by
  induction ks with
  | nil =>
    intro j h
    simp [countGe] at h
    simp [countGe, h]
  | cons k1 ks1 ih =>
    intro j h
    cases j with
    | zero => simp
    | succ j1 =>
      by_cases hq : k ≥ k1
      · simp only [countGe, if_pos hq] at h ⊢
        simp only [List.drop_succ_cons]
        rw [ih j1 (by omega)]
        omega
      · simp only [countGe, if_neg hq] at h
        omega

theorem searchWalk_eq (k : Int) : ∀ (ks : List Int) (cs : List BNode),
    cs.length = ks.length + 1 →
    searchWalk ks cs k = searchNode (cs.getD (countGe ks k) default) k := by
  intro ks
  induction ks with
  | nil =>
    intro cs hlen
    match cs, hlen with
    | [c], _ => rfl
  | cons k1 ks1 ih =>
    intro cs hlen
    match cs, hlen with
    | c1 :: cs1, hlen =>
      simp only [searchWalk, countGe]
      by_cases hq : k < k1
      · rw [if_pos hq, if_neg (by omega)]
        rfl
      · rw [if_neg hq, if_pos (by omega)]
        simp only [List.getD_cons_succ]
        exact ih cs1 (by simpa using hlen)

end BP

namespace BP

theorem loOK_of_loLT (lo : Option Int) (a : Int) (h : loLT lo a = true) :
    loOK lo a = true := by
  cases lo with
  | none => rfl
  | some b =>
    simp only [loLT, decide_eq_true_eq] at h
    simp only [loOK, decide_eq_true_eq]
    omega

theorem loLT_of_le (lo : Option Int) (a b : Int) (h : loLT lo a = true)
    (hab : a ≤ b) : loLT lo b = true := by
  cases lo with
  | none => rfl
  | some c =>
    simp only [loLT, decide_eq_true_eq] at h ⊢
    omega

theorem loOK_of_le (lo : Option Int) (a b : Int) (h : loOK lo a = true)
    (hab : a ≤ b) : loOK lo b = true := by
  cases lo with
  | none => rfl
  | some c =>
    simp only [loOK, decide_eq_true_eq] at h ⊢
    omega

theorem hiOK_of_le (hi : Option Int) (a b : Int) (h : hiOK hi a = true)
    (hab : b ≤ a) : hiOK hi b = true := by
  cases hi with
  | none => rfl
  | some c =>
    simp only [hiOK, decide_eq_true_eq] at h ⊢
    omega

theorem wfKids_length : ∀ (ks : List Int) (cs : List BNode) (lo hi : Option Int),
    wfKids lo hi ks cs = true → cs.length = ks.length + 1 := by
  intro ks
  induction ks with
  | nil =>
    intro cs lo hi h
    match cs with
    | [] => simp [wfKids] at h
    | [c] => rfl
    | c1 :: c2 :: cs1 => simp [wfKids] at h
  | cons k1 ks1 ih =>
    intro cs lo hi h
    match cs with
    | [] => simp [wfKids] at h
    | c1 :: cs1 =>
      simp only [wfKids, Bool.and_eq_true] at h
      have := ih cs1 (some k1) hi h.2
      simp [this]

theorem wfKids_loLT_head (k1 : Int) (ks : List Int) :
    ∀ (cs : List BNode) (lo hi : Option Int),
    wfKids lo hi (k1 :: ks) cs = true → loLT lo k1 = true := by
  intro cs lo hi h
  match cs with
  | [] => simp [wfKids] at h
  | c1 :: cs1 =>
    simp only [wfKids, Bool.and_eq_true] at h
    exact h.1.1.1

theorem wfKids_chainLT : ∀ (ks : List Int) (cs : List BNode) (lo hi : Option Int),
    wfKids lo hi ks cs = true → chainLT ks = true := by
  intro ks
  induction ks with
  | nil =>
    intro cs lo hi _
    rfl
  | cons k1 ks1 ih =>
    intro cs lo hi h
    match cs with
    | [] => simp [wfKids] at h
    | c1 :: cs1 =>
      simp only [wfKids, Bool.and_eq_true] at h
      match ks1, cs1, h.2 with
      | [], _, _ => rfl
      | k2 :: ks2, cs1, htail =>
        have h12 : k1 < k2 := by
          have := wfKids_loLT_head k2 ks2 cs1 (some k1) hi htail
          simpa [loLT] using this
        have hc := ih cs1 (some k1) hi htail
        simp only [chainLT, Bool.and_eq_true, decide_eq_true_eq]
        exact ⟨h12, hc⟩

theorem wfKids_split : ∀ (m : Nat) (ks : List Int) (cs : List BNode)
    (lo hi : Option Int), wfKids lo hi ks cs = true → m < ks.length →
    wfKids lo (some (ks.getD m 0)) (ks.take m) (cs.take (m + 1)) = true ∧
    wfKids (some (ks.getD m 0)) hi (ks.drop (m + 1)) (cs.drop (m + 1)) = true ∧
    loLT lo (ks.getD m 0) = true ∧ hiOK hi (ks.getD m 0) = true := by
  intro m
  induction m with
  | zero =>
    intro ks cs lo hi h hm
    match ks, cs with
    | [], _ => simp at hm
    | k1 :: ks1, [] => simp [wfKids] at h
    | k1 :: ks1, c1 :: cs1 =>
      simp only [wfKids, Bool.and_eq_true] at h
      refine ⟨?_, ?_, h.1.1.1, h.1.1.2⟩
      · simpa [wfKids] using h.1.2
      · simpa using h.2
  | succ m1 ih =>
    intro ks cs lo hi h hm
    match ks, cs with
    | [], _ => simp at hm
    | k1 :: ks1, [] => simp [wfKids] at h
    | k1 :: ks1, c1 :: cs1 =>
      simp only [wfKids, Bool.and_eq_true] at h
      have hm1 : m1 < ks1.length := by simpa using hm
      obtain ⟨hL, hR, hlt, hhi⟩ := ih ks1 cs1 (some k1) hi h.2 hm1
      simp only [List.getD_cons_succ, List.take_succ_cons, List.drop_succ_cons]
      refine ⟨?_, hR, ?_, hhi⟩
      · simp only [wfKids, Bool.and_eq_true]
        refine ⟨⟨⟨h.1.1.1, ?_⟩, h.1.2⟩, hL⟩
        simpa [hiOK, loLT] using hlt
      · refine loLT_of_le lo k1 _ h.1.1.1 ?_
        have : k1 < ks1.getD m1 0 := by simpa [loLT] using hlt
        omega

end BP

namespace BP

theorem countLt_le_length (ks : List Int) (k : Int) : countLt ks k ≤ ks.length := by
  induction ks with
  | nil => simp [countLt]
  | cons k1 ks1 ih =>
    simp only [countLt]
    split
    · simpa using ih
    · simp

theorem leafUpdate_length (k v : Int) : ∀ (ks vs : List Int),
    (leafUpdate ks vs k v).length = vs.length := by
  intro ks
  induction ks with
  | nil => intro vs; rfl
  | cons k1 ks1 ih =>
    intro vs
    match vs with
    | [] => rfl
    | v1 :: vs1 =>
      simp only [leafUpdate]
      split
      · rfl
      · simpa using ih vs1

theorem leafFind_update (k v : Int) : ∀ (ks vs : List Int), k ∈ ks →
    vs.length = ks.length → leafFind ks (leafUpdate ks vs k v) k = some v := by
  intro ks
  induction ks with
  | nil =>
    intro vs h
    simp at h
  | cons k1 ks1 ih =>
    intro vs hmem hlen
    match vs, hlen with
    | v1 :: vs1, hlen =>
      simp only [leafUpdate]
      by_cases hq : k1 = k
      · rw [if_pos hq]
        simp [leafFind, hq]
      · rw [if_neg hq]
        simp only [leafFind, if_neg hq]
        have hmem1 : k ∈ ks1 := by
          rcases List.mem_cons.mp hmem with h | h
          · exact absurd h.symm hq
          · exact h
        exact ih vs1 hmem1 (by simpa using hlen)

theorem leafFind_insert (k v : Int) : ∀ (ks vs : List Int), k ∉ ks →
    vs.length = ks.length →
    leafFind (ks.insertIdx (countLt ks k) k) (vs.insertIdx (countLt ks k) v) k =
      some v := by
  intro ks
  induction ks with
  | nil =>
    intro vs _ hlen
    match vs, hlen with
    | [], _ => simp [countLt, leafFind]
  | cons k1 ks1 ih =>
    intro vs hmem hlen
    match vs, hlen with
    | v1 :: vs1, hlen =>
      simp only [countLt]
      by_cases hq : k1 < k
      · rw [if_pos hq]
        simp only [List.insertIdx_succ_cons, leafFind,
          if_neg (by omega : ¬k1 = k)]
        exact ih vs1 (fun h => hmem (List.mem_cons_of_mem k1 h))
          (by simpa using hlen)
      · rw [if_neg hq]
        simp [leafFind]

theorem chainLT_insert (k : Int) : ∀ ks : List Int, chainLT ks = true →
    k ∉ ks → chainLT (ks.insertIdx (countLt ks k) k) = true := by
  intro ks
  induction ks with
  | nil =>
    intro _ _
    rfl
  | cons k1 ks1 ih =>
    intro h hmem
    have hne : k1 ≠ k := fun he => hmem (he ▸ List.mem_cons_self k1 ks1)
    simp only [countLt]
    by_cases hq : k1 < k
    · rw [if_pos hq]
      simp only [List.insertIdx_succ_cons]
      have htail := ih (chainLT_tail _ _ h)
        (fun hm => hmem (List.mem_cons_of_mem k1 hm))
      cases ks1 with
      | nil =>
        simp [countLt, chainLT, hq] at htail ⊢
      | cons k2 ks2 =>
        simp only [countLt] at htail ⊢
        by_cases h2 : k2 < k
        · rw [if_pos h2] at htail ⊢
          simp only [List.insertIdx_succ_cons] at htail ⊢
          simp only [chainLT, Bool.and_eq_true, decide_eq_true_eq] at h ⊢
          exact ⟨h.1, by simpa using htail⟩
        · rw [if_neg h2] at htail ⊢
          simp only [List.insertIdx_zero] at htail ⊢
          simp only [chainLT, Bool.and_eq_true, decide_eq_true_eq] at h ⊢
          exact ⟨hq, by simpa [chainLT] using htail⟩
    · rw [if_neg hq]
      simp only [List.insertIdx_zero]
      have hk1 : k < k1 := by omega
      cases ks1 with
      | nil => simp [chainLT, hk1]
      | cons k2 ks2 =>
        simp only [chainLT, Bool.and_eq_true, decide_eq_true_eq] at h ⊢
        exact ⟨hk1, h⟩

theorem all_insertIdx (p : Int → Bool) (k : Int) : ∀ (ks : List Int) (i : Nat),
    ks.all p = true → p k = true → (ks.insertIdx i k).all p = true := by
  intro ks
  induction ks with
  | nil =>
    intro i hall hp
    cases i with
    | zero => simp [hp]
    | succ i1 => simp
  | cons k1 ks1 ih =>
    intro i hall hp
    simp only [List.all_cons, Bool.and_eq_true] at hall
    cases i with
    | zero =>
      simp only [List.insertIdx_zero, List.all_cons, Bool.and_eq_true]
      exact ⟨hp, by simp [hall.1, hall.2]⟩
    | succ i1 =>
      simp only [List.insertIdx_succ_cons, List.all_cons, Bool.and_eq_true]
      exact ⟨hall.1, ih i1 hall.2 hp⟩

theorem leafFind_none_of_gt (k : Int) : ∀ (ks vs : List Int),
    (∀ x ∈ ks, k < x) → leafFind ks vs k = none := by
  intro ks
  induction ks with
  | nil => intro vs _; rfl
  | cons k1 ks1 ih =>
    intro vs hgt
    match vs with
    | [] => rfl
    | v1 :: vs1 =>
      simp only [leafFind]
      rw [if_neg (by have := hgt k1 (List.mem_cons_self k1 ks1); omega)]
      exact ih vs1 (fun x hx => hgt x (List.mem_cons_of_mem k1 hx))

theorem leafFind_take (k : Int) : ∀ (ks vs : List Int) (m : Nat),
    chainLT ks = true → vs.length = ks.length → m < ks.length →
    k < ks.getD m 0 →
    leafFind (ks.take m) (vs.take m) k = leafFind ks vs k := by
  intro ks
  induction ks with
  | nil =>
    intro vs m _ _ hm
    simp at hm
  | cons k1 ks1 ih =>
    intro vs m h hlen hm hk
    match vs, hlen with
    | v1 :: vs1, hlen =>
      cases m with
      | zero =>
        simp only [List.take_zero]
        rw [leafFind_none_of_gt k (k1 :: ks1) (v1 :: vs1) ?_]
        · rfl
        · intro x hx
          simp only [List.getD_cons_zero] at hk
          exact lt_of_lt_of_le hk (chainLT_head_le_mem k1 ks1 h x hx)
      | succ m1 =>
        simp only [List.getD_cons_succ] at hk
        simp only [List.take_succ_cons, leafFind]
        by_cases hq : k1 = k
        · rw [if_pos hq, if_pos hq]
        · rw [if_neg hq, if_neg hq]
          exact ih vs1 m1 (chainLT_tail _ _ h) (by simpa using hlen)
            (by simpa using hm) hk

theorem leafFind_drop (k : Int) : ∀ (ks vs : List Int) (m : Nat),
    chainLT ks = true → vs.length = ks.length → m < ks.length →
    ks.getD m 0 ≤ k →
    leafFind (ks.drop m) (vs.drop m) k = leafFind ks vs k := by
  intro ks
  induction ks with
  | nil =>
    intro vs m _ _ hm
    simp at hm
  | cons k1 ks1 ih =>
    intro vs m h hlen hm hk
    match vs, hlen with
    | v1 :: vs1, hlen =>
      cases m with
      | zero => simp
      | succ m1 =>
        simp only [List.getD_cons_succ] at hk
        have hm1 : m1 < ks1.length := by simpa using hm
        have hne : ¬k1 = k := by
          have := chainLT_head_lt k1 ks1 h m1 hm1
          omega
        simp only [List.drop_succ_cons, leafFind, if_neg hne]
        exact ih vs1 m1 (chainLT_tail _ _ h) (by simpa using hlen) hm1 hk

end BP

namespace BP

theorem loLT_of_loOK_lt (lo : Option Int) (a b : Int) (h : loOK lo a = true)
    (hab : a < b) : loLT lo b = true := by
  cases lo with
  | none => rfl
  | some c =>
    simp only [loOK, decide_eq_true_eq] at h
    simp only [loLT, decide_eq_true_eq]
    omega

theorem splitLeaf_good (k v : Int) (lo hi : Option Int) (keys vals : List Int)
    (hc : chainLT keys = true) (hlen : vals.length = keys.length)
    (hall : keys.all (fun x => loOK lo x && hiOK hi x) = true)
    (h2 : 2 ≤ keys.length)
    (hfind : leafFind keys vals k = some v) :
    promoOK k v lo hi (splitLeaf keys vals) := by
  have hmem : ∀ x ∈ keys, loOK lo x = true ∧ hiOK hi x = true := by
    intro x hx
    have := List.all_eq_true.mp hall x hx
    simpa [Bool.and_eq_true] using this
  have hmid1 : 1 ≤ keys.length / 2 := by omega
  have hmidlt : keys.length / 2 < keys.length := by omega
  have hpk : (keys.drop (keys.length / 2)).getD 0 0 =
      keys.getD (keys.length / 2) 0 := by
    simp [ListAux.getD_drop keys (keys.length / 2) 0 0]
  simp only [splitLeaf, promoOK, hpk]
  refine ⟨?_, ?_, ?_, ?_, ?_⟩
  · simp only [wfNode, Bool.and_eq_true]
    refine ⟨⟨⟨chainLT_take keys _ hc, ?_⟩, by simp⟩, ?_⟩
    · simp [List.length_take, hlen]
    · rw [List.all_eq_true]
      intro x hx
      have hx1 : x ∈ keys := List.take_subset _ _ hx
      have hlt : x < keys.getD (keys.length / 2) 0 :=
        chainLT_take_lt keys _ hc hmidlt x hx
      simp only [Bool.and_eq_true]
      exact ⟨(hmem x hx1).1, by simpa [hiOK] using hlt⟩
  · simp only [wfNode, Bool.and_eq_true]
    refine ⟨⟨⟨chainLT_drop keys _ hc, ?_⟩, by simp⟩, ?_⟩
    · simp [List.length_drop, hlen]
    · rw [List.all_eq_true]
      intro x hx
      have hx1 : x ∈ keys := List.drop_subset _ _ hx
      have hge : keys.getD (keys.length / 2) 0 ≤ x :=
        chainLT_drop_le keys _ hc x hx
      simp only [Bool.and_eq_true]
      exact ⟨by simpa [loOK] using hge, (hmem x hx1).2⟩
  · have h0 : keys.getD 0 0 ∈ keys := ListAux.getD_mem keys 0 0 (by omega)
    have hlt : keys.getD 0 0 < keys.getD (keys.length / 2) 0 :=
      chainLT_getD_lt keys hc 0 _ (by omega) hmidlt
    exact loLT_of_loOK_lt lo _ _ (hmem _ h0).1 hlt
  · exact (hmem _ (ListAux.getD_mem keys _ 0 hmidlt)).2
  · split
    · rename_i hk
      simp only [searchNode]
      rw [leafFind_take k keys vals _ hc hlen hmidlt hk]
      exact hfind
    · rename_i hk
      simp only [searchNode]
      rw [leafFind_drop k keys vals _ hc hlen hmidlt (by omega)]
      exact hfind

theorem splitInternal_good (k v : Int) (lo hi : Option Int) (keys : List Int)
    (children : List BNode)
    (hwf : wfKids lo hi keys children = true)
    (hfind : searchWalk keys children k = some v)
    (h1 : 1 ≤ keys.length) :
    promoOK k v lo hi (splitInternal keys children) := by
  have hc : chainLT keys = true := wfKids_chainLT keys children lo hi hwf
  have hlen : children.length = keys.length + 1 := wfKids_length keys children lo hi hwf
  have hmidlt : keys.length / 2 < keys.length := by omega
  obtain ⟨hL, hR, hlt, hhi⟩ := wfKids_split (keys.length / 2) keys children lo hi hwf hmidlt
  have hse := searchWalk_eq k keys children hlen
  simp only [splitInternal, promoOK]
  refine ⟨?_, ?_, hlt, hhi, ?_⟩
  · simp only [wfNode, Bool.and_eq_true]
    exact ⟨⟨by simp, chainLT_take keys _ hc⟩, hL⟩
  · simp only [wfNode, Bool.and_eq_true]
    exact ⟨⟨by simp, chainLT_drop keys _ hc⟩, hR⟩
  · split
    · rename_i hk
      have hile : countGe keys k ≤ keys.length / 2 :=
        countGe_le_of_lt keys k _ hc hmidlt hk
      simp only [searchNode]
      rw [searchWalk_eq k (keys.take (keys.length / 2))
        (children.take (keys.length / 2 + 1)) ?_]
      · rw [countGe_take_eq keys k _ hile,
          ListAux.getD_take children _ _ default (by omega)]
        rw [hse] at hfind
        exact hfind
      · simp only [List.length_take]
        omega
    · rename_i hk
      have hige : keys.length / 2 + 1 ≤ countGe keys k :=
        countGe_succ_le keys k _ hc hmidlt (by omega)
      simp only [searchNode]
      rw [searchWalk_eq k (keys.drop (keys.length / 2 + 1))
        (children.drop (keys.length / 2 + 1)) ?_]
      · rw [countGe_drop_eq keys k _ hige,
          ListAux.getD_drop children _ _ default]
        have harith : keys.length / 2 + 1 + (countGe keys k - (keys.length / 2 + 1))
            = countGe keys k := by omega
        rw [harith]
        rw [hse] at hfind
        exact hfind
      · simp only [List.length_drop]
        omega

end BP

namespace BP

theorem insert_good_aux (order : Nat) (horder : 1 ≤ order) (k v : Int) :
    ∀ N : Nat,
      (∀ n : BNode, bsize n ≤ N → ∀ lo hi : Option Int, wfNode lo hi n = true →
        loOK lo k = true → hiOK hi k = true →
        promoOK k v lo hi (insertRec order n k v)) ∧
      (∀ (ks : List Int) (cs : List BNode), bsizeList cs ≤ N →
        ∀ lo hi : Option Int, wfKids lo hi ks cs = true → loOK lo k = true →
        hiOK hi k = true → walkOK k v lo hi (insertWalk order ks cs k v)) := by
  intro N
  induction N with
  | zero =>
    constructor
    · intro n hsz
      have := bsize_pos n
      omega
    · intro ks cs hsz lo hi hwf _ _
      cases cs with
      | nil => cases ks <;> simp [wfKids] at hwf
      | cons c cs1 =>
        simp only [bsizeList] at hsz
        have := bsize_pos c
        omega
  | succ N ihN =>
    have hnode : ∀ n : BNode, bsize n ≤ N + 1 → ∀ lo hi : Option Int,
        wfNode lo hi n = true → loOK lo k = true → hiOK hi k = true →
        promoOK k v lo hi (insertRec order n k v) := by
      intro n hsz lo hi hwf hlo hhi
      match n with
      | .mk true keys vals children =>
        simp only [wfNode, Bool.and_eq_true] at hwf
        have hc : chainLT keys = true := hwf.1.1.1
        have hvlen : vals.length = keys.length := by
          have := hwf.1.1.2
          simpa using this
        have hall := hwf.2
        simp only [insertRec]
        by_cases hmem : k ∈ keys
        · rw [if_pos hmem]
          simp only [promoOK]
          constructor
          · simp only [wfNode, Bool.and_eq_true]
            exact ⟨⟨⟨hc, by simp [leafUpdate_length, hvlen]⟩, by simp⟩, hall⟩
          · simp only [searchNode]
            exact leafFind_update k v keys vals hmem hvlen
        · rw [if_neg hmem]
          have hc1 : chainLT (keys.insertIdx (countLt keys k) k) = true :=
            chainLT_insert k keys hc hmem
          have hil : countLt keys k ≤ keys.length := countLt_le_length keys k
          have hlen1 : (vals.insertIdx (countLt keys k) v).length =
              (keys.insertIdx (countLt keys k) k).length := by
            rw [ListAux.length_insertIdx keys _ k hil,
              ListAux.length_insertIdx vals _ v (by omega), hvlen]
          have hall1 : (keys.insertIdx (countLt keys k) k).all
              (fun x => loOK lo x && hiOK hi x) = true :=
            all_insertIdx _ k keys _ hall (by rw [hlo, hhi]; rfl)
          have hfind1 : leafFind (keys.insertIdx (countLt keys k) k)
              (vals.insertIdx (countLt keys k) v) k = some v :=
            leafFind_insert k v keys vals hmem hvlen
          have hlen2 : (keys.insertIdx (countLt keys k) k).length =
              keys.length + 1 := ListAux.length_insertIdx keys _ k hil
          by_cases hbig : (keys.insertIdx (countLt keys k) k).length > order
          · rw [if_pos hbig]
            exact splitLeaf_good k v lo hi _ _ hc1 hlen1 hall1 (by omega) hfind1
          · rw [if_neg hbig]
            simp only [promoOK]
            constructor
            · simp only [wfNode, Bool.and_eq_true]
              exact ⟨⟨⟨hc1, by simp [hlen1]⟩, by simp⟩, hall1⟩
            · simpa [searchNode] using hfind1
      | .mk false keys vals children =>
        simp only [wfNode, Bool.and_eq_true] at hwf
        have hsz1 : bsizeList children ≤ N := by
          simp only [bsize] at hsz
          omega
        have hwalk := ihN.2 keys children hsz1 lo hi hwf.2 hlo hhi
        simp only [insertRec]
        rcases hp : insertWalk order keys children k v with ⟨ks1, cs1⟩
        rw [hp] at hwalk
        simp only [walkOK] at hwalk
        dsimp only
        by_cases hbig : ks1.length > order
        · rw [if_pos hbig]
          exact splitInternal_good k v lo hi ks1 cs1 hwalk.1 hwalk.2 (by omega)
        · rw [if_neg hbig]
          simp only [promoOK]
          constructor
          · simp only [wfNode, Bool.and_eq_true]
            exact ⟨⟨by simp, wfKids_chainLT _ _ _ _ hwalk.1⟩, hwalk.1⟩
          · simp only [searchNode]
            exact hwalk.2
    have hwalk1 : ∀ (ks : List Int) (cs : List BNode), bsizeList cs ≤ N + 1 →
        ∀ lo hi : Option Int, wfKids lo hi ks cs = true → loOK lo k = true →
        hiOK hi k = true → walkOK k v lo hi (insertWalk order ks cs k v) := by
      intro ks
      induction ks with
      | nil =>
        intro cs hsz lo hi hwf hlo hhi
        cases cs with
        | nil => simp [wfKids] at hwf
        | cons c cs1 =>
          cases cs1 with
          | cons c2 cs2 => simp [wfKids] at hwf
          | nil =>
            have hwfc : wfNode lo hi c = true := by simpa [wfKids] using hwf
            have hszc : bsize c ≤ N + 1 := by
              simp only [bsizeList] at hsz
              omega
            have hrec := hnode c hszc lo hi hwfc hlo hhi
            simp only [insertWalk]
            rcases hr : insertRec order c k v with ⟨c1, promo⟩
            rw [hr] at hrec
            cases promo with
            | none =>
              simp only [promoOK] at hrec
              dsimp only
              simp only [walkOK]
              refine ⟨by simpa [wfKids] using hrec.1, ?_⟩
              simpa [searchWalk] using hrec.2
            | some pr =>
              rcases pr with ⟨pk, pn⟩
              simp only [promoOK] at hrec
              obtain ⟨hn1, hn2, hplo, hphi, hpif⟩ := hrec
              dsimp only
              simp only [walkOK]
              constructor
              · simp only [wfKids, Bool.and_eq_true]
                exact ⟨⟨⟨hplo, hphi⟩, hn1⟩, by simpa [wfKids] using hn2⟩
              · simp only [searchWalk]
                by_cases hk : k < pk
                · rw [if_pos hk]
                  rw [if_pos hk] at hpif
                  exact hpif
                · rw [if_neg hk]
                  rw [if_neg hk] at hpif
                  simpa [searchWalk] using hpif
      | cons k1 ks1 ih =>
        intro cs hsz lo hi hwf hlo hhi
        cases cs with
        | nil => simp [wfKids] at hwf
        | cons c1 cs1 =>
          simp only [wfKids, Bool.and_eq_true] at hwf
          simp only [insertWalk]
          by_cases hq : k ≥ k1
          · rw [if_pos hq]
            have hsz1 : bsizeList cs1 ≤ N + 1 := by
              simp only [bsizeList] at hsz
              have := bsize_pos c1
              omega
            have htail := ih cs1 hsz1 (some k1) hi hwf.2
              (by simpa [loOK] using hq) hhi
            rcases hp : insertWalk order ks1 cs1 k v with ⟨ks2, cs2⟩
            rw [hp] at htail
            simp only [walkOK] at htail
            dsimp only
            simp only [walkOK]
            constructor
            · simp only [wfKids, Bool.and_eq_true]
              exact ⟨⟨⟨hwf.1.1.1, hwf.1.1.2⟩, hwf.1.2⟩, htail.1⟩
            · simp only [searchWalk]
              rw [if_neg (by omega : ¬k < k1)]
              exact htail.2
          · rw [if_neg hq]
            have hk1 : k < k1 := by omega
            have hszc : bsize c1 ≤ N + 1 := by
              simp only [bsizeList] at hsz
              omega
            have hrec := hnode c1 hszc lo (some k1) hwf.1.2 hlo
              (by simpa [hiOK] using hk1)
            rcases hr : insertRec order c1 k v with ⟨c1', promo⟩
            rw [hr] at hrec
            cases promo with
            | none =>
              simp only [promoOK] at hrec
              dsimp only
              simp only [walkOK]
              constructor
              · simp only [wfKids, Bool.and_eq_true]
                exact ⟨⟨⟨hwf.1.1.1, hwf.1.1.2⟩, hrec.1⟩, hwf.2⟩
              · simp only [searchWalk]
                rw [if_pos hk1]
                exact hrec.2
            | some pr =>
              rcases pr with ⟨pk, pn⟩
              simp only [promoOK] at hrec
              obtain ⟨hn1, hn2, hplo, hphi, hpif⟩ := hrec
              have hpk1 : pk < k1 := by simpa [hiOK] using hphi
              dsimp only
              simp only [walkOK]
              constructor
              · simp only [wfKids, Bool.and_eq_true]
                exact ⟨⟨⟨hplo, hiOK_of_le hi k1 pk hwf.1.1.2 (le_of_lt hpk1)⟩,
                  hn1⟩, ⟨⟨by simpa [loLT] using hpk1, hwf.1.1.2⟩, hn2⟩, hwf.2⟩
              · simp only [searchWalk]
                by_cases hk : k < pk
                · rw [if_pos hk]
                  rw [if_pos hk] at hpif
                  exact hpif
                · rw [if_neg hk]
                  rw [if_neg hk] at hpif
                  rw [if_pos hk1]
                  exact hpif
    exact ⟨hnode, hwalk1⟩

theorem insertTree_search (t : BPlusTree) (k v : Int)
    (hwf : wfNode none none t.root = true) (horder : 1 ≤ t.order) :
    searchTree (insertTree t k v) k = some v := by
  have h := (insert_good_aux t.order horder k v (bsize t.root)).1 t.root
    (le_refl _) none none hwf rfl rfl
  simp only [insertTree, searchTree]
  rcases hr : insertRec t.order t.root k v with ⟨root1, promo⟩
  rw [hr] at h
  cases promo with
  | none =>
    simp only [promoOK] at h
    exact h.2
  | some pr =>
    rcases pr with ⟨pk, pn⟩
    simp only [promoOK] at h
    obtain ⟨_, _, _, _, hif⟩ := h
    simp only [searchNode, searchWalk]
    by_cases hk : k < pk
    · rw [if_pos hk]
      rw [if_pos hk] at hif
      exact hif
    · rw [if_neg hk]
      rw [if_neg hk] at hif
      simpa [searchWalk] using hif

end BP

namespace RT

theorem posGet_posSet (d : List (Int × Int)) (k v : Int) :
    posGet (posSet d k v) k = some v := by
  induction d with
  | nil => simp [posSet, posGet]
  | cons p rest ih =>
    obtain ⟨k1, v1⟩ := p
    simp only [posSet]
    split
    · simp [posGet]
    · rename_i hne
      simp only [posGet, if_neg hne]
      exact ih

theorem insertIdx_search (idx : RTreeIndex) (pid x y pos : Int)
    (idx1 : RTreeIndex) (h : insertIdx idx pid x y pos = some idx1) :
    searchIdx idx1 pid = some pos := by
  simp only [insertIdx] at h
  rcases hmap : insertPointT idx.tree pid x y with _ | t
  · rw [hmap] at h
    simp at h
  · rw [hmap] at h
    injection h with h1
    rw [← h1]
    simp only [searchIdx]
    exact posGet_posSet idx.idToPos pid pos

end RT

/-- C1 (amended): after `insert(k, v)`, `search(k) = v` holds for the B+
tree for every key — including a key already present, which is overwritten
(upsert) — on any search-order well-formed tree with order at least 1; for
ISAM (sorted fresh key), extendible hashing (invariant-satisfying state,
fresh key, completed insert) and the sequential file (sorted main, fresh
live record) it holds when `k` was not already present, a duplicate going
to overflow / a second record while `search` keeps returning the earlier
slot; the R-tree index's `id_to_pos` map overwrites, so its round trip
holds for every id when a position is supplied. -/
theorem upsert_roundtrip_amended :
    (∀ (t : BP.BPlusTree) (k v : Int), BP.wfNode none none t.root = true →
      1 ≤ t.order → BP.searchTree (BP.insertTree t k v) k = some v) ∧
    (∀ (st : ISAM.ISAMIndex) (k v : Int), ISAM.KeysLE st.l3 →
      (∀ p ∈ st.l3, p.1 ≠ k) → ISAM.search (ISAM.insert st k v) k = some v) ∧
    (∀ (fuel : Nat) (st st1 : EH.EHState) (k v : Nat), EH.Inv st →
      EH.keyFree st k → EH.insertF fuel st k v = some st1 →
      EH.searchS st1 k = some v) ∧
    (∀ (st : Seq.SequentialIndex) (r : Seq.SRec), Seq.SortedK st.main →
      (∀ x ∈ st.main, x.key ≠ r.key) → (∀ x ∈ st.aux, x.key ≠ r.key) →
      r.next = 0 → Seq.search (Seq.insert st r) r.key = some r.vals) ∧
    (∀ (idx : RT.RTreeIndex) (pid x y pos : Int) (idx1 : RT.RTreeIndex),
      RT.insertIdx idx pid x y pos = some idx1 →
      RT.searchIdx idx1 pid = some pos) :=
  ⟨BP.insertTree_search, ISAM.upsert_fresh,
   fun fuel st st1 k v hinv hfree hrun =>
     EH.insertF_search fuel st k v st1 hinv hfree hrun,
   Seq.seq_insert_fresh_search, RT.insertIdx_search⟩

/-- Witness for C1: the S1 B+ tree overwriting the present key `10` with
slot `999`; the S4 ISAM layout with fresh key `7`; the initial hash state
inserting `3 ↦ 9` with fuel `5`; a one-record sequential index inserting a
fresh live record; and an R-tree index inserting id `1` at position `77`. -/
theorem upsert_roundtrip_amended_witness :
    BP.searchTree (BP.insertTree BP.scenarioS1 10 999) 10 = some 999 ∧
    ISAM.search (ISAM.insert ISAM.scenarioS4Base 7 77) 7 = some 77 ∧
    EH.searchS ⟨2, 2, [⟨1, [], none⟩, ⟨1, [(3, 9)], none⟩], [0, 1, 0, 1]⟩ 3
      = some 9 ∧
    Seq.search (Seq.insert ⟨[⟨1, 10, 0⟩], [], 0⟩ ⟨2, 20, 0⟩) 2 = some 20 ∧
    RT.searchIdx ⟨⟨RT.RTNode.leaf (some ⟨5, 5, 5, 5⟩) [⟨⟨5, 5, 5, 5⟩, 1⟩]⟩,
      [(1, 77)]⟩ 1 = some 77 :=
  ⟨upsert_roundtrip_amended.1 BP.scenarioS1 10 999 (by decide) (by decide),
   upsert_roundtrip_amended.2.1 ISAM.scenarioS4Base 7 77
     (by
       intro i j hij hjl
       have hlen : ISAM.scenarioS4Base.l3.length = 5 := by decide
       rw [hlen] at hjl
       interval_cases j <;> interval_cases i <;> decide)
     (by decide),
   upsert_roundtrip_amended.2.2.1 5 (EH.EHState.init 2)
     ⟨2, 2, [⟨1, [], none⟩, ⟨1, [(3, 9)], none⟩], [0, 1, 0, 1]⟩ 3 9
     (by decide) (by decide) (by rfl),
   upsert_roundtrip_amended.2.2.2.1 ⟨[⟨1, 10, 0⟩], [], 0⟩ ⟨2, 20, 0⟩
     (by decide) (by decide) (by decide) rfl,
   upsert_roundtrip_amended.2.2.2.2 ⟨⟨RT.RTNode.leaf none []⟩, []⟩ 1 5 5 77
     ⟨⟨RT.RTNode.leaf (some ⟨5, 5, 5, 5⟩) [⟨⟨5, 5, 5, 5⟩, 1⟩]⟩, [(1, 77)]⟩
     (by rfl)⟩
